import Mathlib

/-!
# Templated observer: link registry and re-entrant dispatch

A shallow embedding of `library/include/observe/cpp_observe.hpp`
(`observe::observer<Args...>` and `observe::subject<Args...>`).

* Objects live in a heap indexed by their address (`Addr`).  A subject owns
  `observers_ : std::vector<observer*>` (a null pointer is `none`) and
  `notify_counter_ : int`; an observer owns `function_` and
  `subjects_ : std::vector<subject*>`.
* A callback (`std::function<void(Args...)>`) is a function from the argument
  value to a straight-line body of statements; the statements are the public
  operations of the two classes, so a callback can re-enter the subject that is
  calling it.  An empty `std::function` is `none`.
* Every member function is a state transformer returning an `Outcome`: it
  returns normally, or it stops in undefined behaviour / a failed assertion /
  a thrown `std::bad_function_call`, or the fuel of the interpreter ran out.
-/

namespace observe

/-- The identity of an object: its address. -/
abbrev Addr := Nat

/-- The statements a program (or a callback body) is made of: the special
member functions and the public member functions of `subject` and `observer`.
`emit` stands for work of the callback outside this library; it only leaves a
mark in the output log. -/
inductive Stmt (α : Type) where
  | emit (v : Nat)
  | subject_ctor (s : Addr)
  | subject_dtor (s : Addr)
  | subject_copy_ctor (s other : Addr)
  | subject_copy_assign (s other : Addr)
  | subject_move_ctor (s other : Addr)
  | subject_move_assign (s other : Addr)
  | add_observer (s o : Addr)
  | remove_observer (s o : Addr)
  | clear (s : Addr)
  | call (s : Addr) (a : α)
  | observer_ctor (o : Addr) (f : Option (α → List (Stmt α)))
  | observer_dtor (o : Addr)
  | observer_copy_ctor (o other : Addr)
  | observer_copy_assign (o other : Addr)
  | observer_move_ctor (o other : Addr)
  | observer_move_assign (o other : Addr)
  | set_function (o : Addr) (f : Option (α → List (Stmt α)))

/-- The type `std::function<void(Args...)>`: `none` is the empty function. -/
abbrev Callback (α : Type) := Option (α → List (Stmt α))

/-- The data members of `observer<Args...>`. -/
structure observer (α : Type) where
  function_ : Callback α
  subjects_ : List Addr

/-- The data members of `subject<Args...>`. -/
structure subject where
  observers_ : List (Option Addr)
  notify_counter_ : Int
  deriving DecidableEq, Repr

/-- The heap of live objects, with two logs that only the model keeps: `trace`
records every entry into `observer::on_notify` (observer, arguments) and
`output` records the `emit` marks of the callbacks. -/
structure World (α : Type) where
  subjects : Addr → Option subject
  observers : Addr → Option (observer α)
  trace : List (Addr × α)
  output : List Nat

/-- Ways in which a member function does not return normally. -/
inductive Fault where
  | null_deref
  | dangling
  | assert_failed
  | bad_function_call
  | out_of_range
  | counter_overflow
  | address_in_use
  deriving DecidableEq, Repr

/-- The result of running code. -/
inductive Outcome (σ : Type) where
  | done (w : σ)
  | fault (f : Fault)
  | timeout

/-- Sequencing: continue only after a normal return. -/
def Outcome.bind {σ τ : Type} : Outcome σ → (σ → Outcome τ) → Outcome τ
  | .done w, k => k w
  | .fault f, _ => .fault f
  | .timeout, _ => .timeout

/-- The world with nothing in it. -/
def World.empty (α : Type) : World α :=
  { subjects := fun _ => none, observers := fun _ => none, trace := [], output := [] }

/-- Store a subject at an address. -/
def set_subject {α : Type} (w : World α) (s : Addr) (sb : subject) : World α :=
  { w with subjects := fun x => if x = s then some sb else w.subjects x }

/-- Store an observer at an address. -/
def set_observer {α : Type} (w : World α) (o : Addr) (ob : observer α) : World α :=
  { w with observers := fun x => if x = o then some ob else w.observers x }

/-- End the lifetime of the subject at an address. -/
def drop_subject {α : Type} (w : World α) (s : Addr) : World α :=
  { w with subjects := fun x => if x = s then none else w.subjects x }

/-- End the lifetime of the observer at an address. -/
def drop_observer {α : Type} (w : World α) (o : Addr) : World α :=
  { w with observers := fun x => if x = o then none else w.observers x }

/-- Change the observer at an address in place (nothing to do when absent). -/
def modify_observer {α : Type} (w : World α) (o : Addr)
    (f : observer α → observer α) : World α :=
  match w.observers o with
  | some ob => set_observer w o (f ob)
  | none => w

/-- Change the subject at an address in place (nothing to do when absent). -/
def modify_subject {α : Type} (w : World α) (s : Addr) (f : subject → subject) : World α :=
  match w.subjects s with
  | some sb => set_subject w s (f sb)
  | none => w

/-- The link list of a subject, empty for an address without a subject. -/
def slots {α : Type} (w : World α) (s : Addr) : List (Option Addr) :=
  match w.subjects s with
  | some sb => sb.observers_
  | none => []

/-- The link list of an observer, empty for an address without an observer. -/
def backrefs {α : Type} (w : World α) (o : Addr) : List Addr :=
  match w.observers o with
  | some ob => ob.subjects_
  | none => []

/-- The value of `notify_counter_`, zero for an address without a subject. -/
def depth {α : Type} (w : World α) (s : Addr) : Int :=
  match w.subjects s with
  | some sb => sb.notify_counter_
  | none => 0

/-- The reverse-iterator loops of `remove_observer`: walk from `rbegin()`, erase
the first match met, stop. -/
def erase_last {β : Type} [DecidableEq β] (x : β) (l : List β) : List β :=
  (l.reverse.erase x).reverse

/-- The call `std::find` followed by `*it = y`: the first element equal to `x`
becomes `y`; `none` when `find` returns `end()`. -/
def replace_first {β : Type} [DecidableEq β] (x y : β) : List β → Option (List β)
  | [] => none
  | z :: zs => if z = x then some (y :: zs) else (replace_first x y zs).map (fun r => z :: r)

/-- The second loop of `remove_observer` when `notify_counter_ != 0`: walking
from `rbegin()`, the first match met is overwritten with `y`. -/
def replace_last {β : Type} [DecidableEq β] (x y : β) (l : List β) : List β :=
  match replace_first x y l.reverse with
  | some r => r.reverse
  | none => l

/-- The statement `subject::add_observer` (lines 236-241). -/
def subject.add_observer {α : Type} (w : World α) (s o : Addr) : Outcome (World α) :=
  match w.subjects s, w.observers o with
  | some sb, some ob =>
    .done (set_observer
      (set_subject w s { sb with observers_ := sb.observers_ ++ [some o] })
      o { ob with subjects_ := ob.subjects_ ++ [s] })
  | _, _ => .fault .dangling

/-- The statement `subject::remove_observer` (lines 244-271). -/
def subject.remove_observer {α : Type} (w : World α) (s o : Addr) : Outcome (World α) :=
  match w.subjects s, w.observers o with
  | some sb, some ob =>
    let w1 := set_observer w o { ob with subjects_ := erase_last s ob.subjects_ }
    if sb.notify_counter_ = 0 then
      .done (set_subject w1 s { sb with observers_ := erase_last (some o) sb.observers_ })
    else
      .done (set_subject w1 s { sb with observers_ := replace_last (some o) none sb.observers_ })
  | _, _ => .fault .dangling

/-- The range-for loop shared by `subject::clear` and `subject::~subject`:
for every slot, erase-remove `this` from `observer->subjects_`. -/
def unlink_all {α : Type} (s : Addr) : List (Option Addr) → World α → Outcome (World α)
  | [], w => .done w
  | none :: _, _ => .fault .null_deref
  | some o :: rest, w =>
    match w.observers o with
    | none => .fault .dangling
    | some ob =>
      unlink_all s rest
        (set_observer w o { ob with subjects_ := ob.subjects_.filter (fun x => x ≠ s) })

/-- The statement `subject::clear` (lines 274-294). -/
def subject.clear {α : Type} (w : World α) (s : Addr) : Outcome (World α) :=
  match w.subjects s with
  | none => .fault .dangling
  | some sb =>
    (unlink_all s sb.observers_ w).bind fun w1 =>
      if sb.notify_counter_ = 0 then
        .done (set_subject w1 s { sb with observers_ := [] })
      else
        .done (set_subject w1 s { sb with observers_ := sb.observers_.map (fun _ => none) })

/-- The destructor `subject::~subject` (lines 173-182); the members die after the body. -/
def subject.dtor {α : Type} (w : World α) (s : Addr) : Outcome (World α) :=
  match w.subjects s with
  | none => .fault .dangling
  | some sb => (unlink_all s sb.observers_ w).bind fun w1 => .done (drop_subject w1 s)

/-- The range-for loop of the copy operations of `subject`:
`add_observer(*observer)` for every slot of the source. -/
def link_all {α : Type} (s : Addr) : List (Option Addr) → World α → Outcome (World α)
  | [], w => .done w
  | none :: _, _ => .fault .null_deref
  | some o :: rest, w => (subject.add_observer w s o).bind (link_all s rest)

/-- The default constructor `subject()`. -/
def subject.ctor {α : Type} (w : World α) (s : Addr) : Outcome (World α) :=
  match w.subjects s with
  | some _ => .fault .address_in_use
  | none => .done (set_subject w s { observers_ := [], notify_counter_ := 0 })

/-- The copy constructor `subject(const subject&)` (lines 185-192). -/
def subject.copy_ctor {α : Type} (w : World α) (s other : Addr) : Outcome (World α) :=
  match w.subjects s, w.subjects other with
  | some _, _ => .fault .address_in_use
  | none, none => .fault .dangling
  | none, some src =>
    link_all s src.observers_ (set_subject w s { observers_ := [], notify_counter_ := 0 })

/-- The copy assignment `subject::operator=(const subject&)` (lines 195-205). -/
def subject.copy_assign {α : Type} (w : World α) (s other : Addr) : Outcome (World α) :=
  (subject.clear w s).bind fun w1 =>
    match w1.subjects other with
    | none => .fault .dangling
    | some src => link_all s src.observers_ w1

/-- The fix-up loop of the move operations of `subject`: in every partner,
`std::find` the moved-from address, assert it was found, overwrite it. -/
def retarget_subject {α : Type} (old new : Addr) :
    List (Option Addr) → World α → Outcome (World α)
  | [], w => .done w
  | none :: _, _ => .fault .null_deref
  | some o :: rest, w =>
    match w.observers o with
    | none => .fault .dangling
    | some ob =>
      match replace_first old new ob.subjects_ with
      | none => .fault .assert_failed
      | some l => retarget_subject old new rest (set_observer w o { ob with subjects_ := l })

/-- The move constructor `subject(subject&&)` (lines 208-217): the vector is
taken over (the source is left empty), the counter starts at zero. -/
def subject.move_ctor {α : Type} (w : World α) (s other : Addr) : Outcome (World α) :=
  match w.subjects s, w.subjects other with
  | some _, _ => .fault .address_in_use
  | none, none => .fault .dangling
  | none, some src =>
    retarget_subject other s src.observers_
      (set_subject (set_subject w other { src with observers_ := [] })
        s { observers_ := src.observers_, notify_counter_ := 0 })

/-- The move assignment `subject::operator=(subject&&)` (lines 220-233). -/
def subject.move_assign {α : Type} (w : World α) (s other : Addr) : Outcome (World α) :=
  (subject.clear w s).bind fun w1 =>
    match w1.subjects other with
    | none => .fault .dangling
    | some src =>
      let w2 := modify_subject w1 s (fun me => { me with observers_ := src.observers_ })
      let w3 := modify_subject w2 other (fun x => { x with observers_ := [] })
      retarget_subject other s (slots w3 s) w3

/-- The loop of `observer::clear` (lines 163-170): while the list is not empty,
`remove_observer` on its last entry. -/
def observer.clear {α : Type} : Nat → World α → Addr → Outcome (World α)
  | 0, _, _ => .timeout
  | fuel + 1, w, o =>
    match w.observers o with
    | none => .fault .dangling
    | some ob =>
      match ob.subjects_.getLast? with
      | none => .done w
      | some s => (subject.remove_observer w s o).bind fun w1 => observer.clear fuel w1 o

/-- The constructors `observer()` and `observer(std::function)`. -/
def observer.ctor {α : Type} (w : World α) (o : Addr) (f : Callback α) : Outcome (World α) :=
  match w.observers o with
  | some _ => .fault .address_in_use
  | none => .done (set_observer w o { function_ := f, subjects_ := [] })

/-- The destructor `observer::~observer` (lines 97-101). -/
def observer.dtor {α : Type} (fuel : Nat) (w : World α) (o : Addr) : Outcome (World α) :=
  (observer.clear fuel w o).bind fun w1 => .done (drop_observer w1 o)

/-- The copy constructor `observer(const observer&)` (lines 104-106). -/
def observer.copy_ctor {α : Type} (w : World α) (o other : Addr) : Outcome (World α) :=
  match w.observers o, w.observers other with
  | some _, _ => .fault .address_in_use
  | none, none => .fault .dangling
  | none, some src => .done (set_observer w o { function_ := src.function_, subjects_ := [] })

/-- The copy assignment `observer::operator=(const observer&)` (lines 109-116). -/
def observer.copy_assign {α : Type} (fuel : Nat) (w : World α) (o other : Addr) :
    Outcome (World α) :=
  (observer.clear fuel w o).bind fun w1 =>
    match w1.observers other with
    | none => .fault .dangling
    | some src => .done (modify_observer w1 o (fun me => { me with function_ := src.function_ }))

/-- The fix-up loop of the move operations of `observer`: in every partner
subject, `std::find` the moved-from address, assert it was found, overwrite it. -/
def retarget_observer {α : Type} (old new : Addr) : List Addr → World α → Outcome (World α)
  | [], w => .done w
  | s :: rest, w =>
    match w.subjects s with
    | none => .fault .dangling
    | some sb =>
      match replace_first (some old) (some new) sb.observers_ with
      | none => .fault .assert_failed
      | some l => retarget_observer old new rest (set_subject w s { sb with observers_ := l })

/-- The move constructor `observer(observer&&)` (lines 119-129): callback and
vector are taken over, the source is left with an empty callback and no links. -/
def observer.move_ctor {α : Type} (w : World α) (o other : Addr) : Outcome (World α) :=
  match w.observers o, w.observers other with
  | some _, _ => .fault .address_in_use
  | none, none => .fault .dangling
  | none, some src =>
    retarget_observer other o src.subjects_
      (set_observer (set_observer w other { function_ := none, subjects_ := [] })
        o { function_ := src.function_, subjects_ := src.subjects_ })

/-- The two member moves of `observer::operator=(observer&&)` (lines 136-137):
`function_ = move(other.function_)` empties the source and then sets the
target to the callback `f` that the source held; `subjects_ =
move(other.subjects_)` sets the target and then empties the source. -/
def observer.take_members {α : Type} (w : World α) (o other : Addr) (f : Callback α) :
    World α :=
  let w2 := modify_observer w other (fun x => { x with function_ := none })
  let w3 := modify_observer w2 o (fun me => { me with function_ := f })
  let w4 := modify_observer w3 o (fun me => { me with subjects_ := backrefs w3 other })
  modify_observer w4 other (fun x => { x with subjects_ := [] })

/-- The move assignment `observer::operator=(observer&&)` (lines 132-146). -/
def observer.move_assign {α : Type} (fuel : Nat) (w : World α) (o other : Addr) :
    Outcome (World α) :=
  (observer.clear fuel w o).bind fun w1 =>
    match w1.observers other with
    | none => .fault .dangling
    | some src =>
      retarget_observer other o (backrefs (observer.take_members w1 o other src.function_) o)
        (observer.take_members w1 o other src.function_)

/-- The statement `observer::set_function` (lines 149-153). -/
def observer.set_function {α : Type} (w : World α) (o : Addr) (f : Callback α) :
    Outcome (World α) :=
  match w.observers o with
  | none => .fault .dangling
  | some ob => .done (set_observer w o { ob with function_ := f })

/-- The statement `observer::on_notify` (lines 156-160): call the stored
function; calling an empty `std::function` throws. `run` executes a body. -/
def observer.on_notify {α : Type} (run : List (Stmt α) → World α → Outcome (World α))
    (w : World α) (o : Addr) (a : α) : Outcome (World α) :=
  match w.observers o with
  | none => .fault .dangling
  | some ob =>
    match ob.function_ with
    | none => .fault .bad_function_call
    | some f => run (f a) { w with trace := w.trace ++ [(o, a)] }

/-- The for loop of `subject::operator()` (lines 302-308): `todo` iterations
are left, the next index is `i`; `observers_[i]` is read from the current
state of the subject in every iteration. -/
def notify_loop {α : Type} (run : List (Stmt α) → World α → Outcome (World α))
    (s : Addr) (a : α) : Nat → Nat → World α → Outcome (World α)
  | 0, _, w => .done w
  | todo + 1, i, w =>
    match w.subjects s with
    | none => .fault .dangling
    | some sb =>
      match sb.observers_[i]? with
      | none => .fault .out_of_range
      | some none => notify_loop run s a todo (i + 1) w
      | some (some o) => (observer.on_notify run w o a).bind (notify_loop run s a todo (i + 1))

/-- The end of `subject::operator()` (lines 309-312): decrement the counter
and, when it is back at zero, erase-remove the null pointers. -/
def finish_call {α : Type} (w : World α) (s : Addr) : Outcome (World α) :=
  match w.subjects s with
  | none => .fault .dangling
  | some sb =>
    if sb.notify_counter_ = -2147483648 then .fault .counter_overflow
    else if sb.notify_counter_ - 1 = 0 then
      .done (set_subject w s
        { observers_ := sb.observers_.filter (fun x => x.isSome), notify_counter_ := 0 })
    else
      .done (set_subject w s { sb with notify_counter_ := sb.notify_counter_ - 1 })

/-- The function `subject::operator()` (lines 297-313). -/
def subject.call {α : Type} (run : List (Stmt α) → World α → Outcome (World α))
    (w : World α) (s : Addr) (a : α) : Outcome (World α) :=
  match w.subjects s with
  | none => .fault .dangling
  | some sb =>
    if sb.notify_counter_ = 2147483647 then .fault .counter_overflow
    else
      (notify_loop run s a sb.observers_.length 0
        (set_subject w s { sb with notify_counter_ := sb.notify_counter_ + 1 })).bind
        fun w2 => finish_call w2 s

/-- Run the statements of a body one after the other. -/
def run_body {α : Type} (step : Stmt α → World α → Outcome (World α)) :
    List (Stmt α) → World α → Outcome (World α)
  | [], w => .done w
  | st :: rest, w => (step st w).bind (run_body step rest)

/-- One statement. The fuel bounds the nesting of calls and the number of
iterations of the while loop of `observer::clear`. -/
def exec {α : Type} : Nat → Stmt α → World α → Outcome (World α)
  | 0, _, _ => .timeout
  | fuel + 1, st, w =>
    match st with
    | .emit v => .done { w with output := w.output ++ [v] }
    | .subject_ctor s => subject.ctor w s
    | .subject_dtor s => subject.dtor w s
    | .subject_copy_ctor s other => subject.copy_ctor w s other
    | .subject_copy_assign s other => subject.copy_assign w s other
    | .subject_move_ctor s other => subject.move_ctor w s other
    | .subject_move_assign s other => subject.move_assign w s other
    | .add_observer s o => subject.add_observer w s o
    | .remove_observer s o => subject.remove_observer w s o
    | .clear s => subject.clear w s
    | .call s a => subject.call (run_body (exec fuel)) w s a
    | .observer_ctor o f => observer.ctor w o f
    | .observer_dtor o => observer.dtor fuel w o
    | .observer_copy_ctor o other => observer.copy_ctor w o other
    | .observer_copy_assign o other => observer.copy_assign fuel w o other
    | .observer_move_ctor o other => observer.move_ctor w o other
    | .observer_move_assign o other => observer.move_assign fuel w o other
    | .set_function o f => observer.set_function w o f

/-- A program: a sequence of statements run with the given fuel. -/
def run {α : Type} (fuel : Nat) (prog : List (Stmt α)) (w : World α) : Outcome (World α) :=
  run_body (exec fuel) prog w


/-- The symmetry invariant of the link graph: for every subject and observer,
the number of live slots of the subject that hold the observer equals the
number of entries of the observer that hold the subject. -/
def Sym {α : Type} (w : World α) : Prop :=
  ∀ s o, (slots w s).count (some o) = (backrefs w o).count s

/-- A world of idle objects with the links given as a list of pairs, for
concrete examples: `links` lists the `add_observer` calls in order. -/
def World.of_links {α : Type} (links : List (Addr × Addr)) (cb : Addr → Callback α)
    (ss os : List Addr) : World α :=
  { subjects := fun s =>
      if s ∈ ss then
        some { observers_ := (links.filter (fun l => l.1 = s)).map (fun l => some l.2),
               notify_counter_ := 0 }
      else none
    observers := fun o =>
      if o ∈ os then
        some { function_ := cb o,
               subjects_ := (links.filter (fun l => l.2 = o)).map (fun l => l.1) }
      else none
    trace := []
    output := [] }

/-- What the erase-remove of `unlink_all` does to one observer. -/
def unlinked {α : Type} (s : Addr) (ob : observer α) : observer α :=
  { ob with subjects_ := ob.subjects_.filter (fun x => x ≠ s) }

/-- A program in which a callback first unlinks its own observer from the
dispatching subject and then clears that subject. -/
def clear_after_removal : List (Stmt Nat) :=
  [ .subject_ctor 1,
    .observer_ctor 10 (some fun _ => [.remove_observer 1 10, .clear 1]),
    .observer_ctor 11 (some fun _ => []),
    .add_observer 1 10,
    .add_observer 1 11,
    .call 1 0 ]

/-- A world with two observers: subject 1 holds `[10, 11, 10]`; observer 11
has the callback it was built with, observer 10 the one given by a later
`set_function`. -/
def two_listeners : World Nat :=
  set_observer
    (World.of_links [(1, 10), (1, 11), (1, 10)]
      (fun o => some fun a => [.emit (o + a)]) [1] [10, 11])
    10 { function_ := some fun a => [.emit (500 + a)], subjects_ := [1, 1] }

/-- The state of a subject on entry to `operator()`: the counter incremented. -/
def enter {α : Type} (w : World α) (s : Addr) : World α :=
  modify_subject w s (fun sb => { sb with notify_counter_ := sb.notify_counter_ + 1 })

/-- A body that does nothing but leave marks. -/
def Quiet {α : Type} (body : List (Stmt α)) : Prop :=
  ∀ st ∈ body, ∃ v, st = Stmt.emit v

/-- A world in which observer 10 unlinks itself from subject 1 when notified;
subject 1 holds `[11, 10, 12]`. -/
def self_remover : World Nat :=
  World.of_links [(1, 11), (1, 10), (2, 10), (1, 12)]
    (fun o => if o = 10 then some (fun _ => [Stmt.remove_observer 1 10])
      else some (fun a => [Stmt.emit (o + a)]))
    [1, 2] [10, 11, 12]

/-- The observers a body links to subject `s`, in the order of its
`add_observer` statements. -/
def added {α : Type} (s : Addr) : List (Stmt α) → List Addr
  | [] => []
  | .add_observer s' p :: rest => if s' = s then p :: added s rest else added s rest
  | _ :: rest => added s rest

/-- A body made of marks and of `add_observer` calls on subject `s` with
observers taken from `live`. -/
def Adder {α : Type} (live : Addr → Prop) (s : Addr) (body : List (Stmt α)) : Prop :=
  ∀ st ∈ body, (∃ v, st = Stmt.emit v) ∨ (∃ p, st = Stmt.add_observer s p ∧ live p)

/-- The body that `on_notify` runs for observer `o` on the arguments `a`. -/
def callback_body {α : Type} (w : World α) (o : Addr) (a : α) : List (Stmt α) :=
  match w.observers o with
  | some ob =>
    match ob.function_ with
    | some f => f a
    | none => []
  | none => []

/-- Two worlds hold the same observers with the same callbacks. -/
def SameCallbacks {α : Type} (w w1 : World α) : Prop :=
  ∀ o, (w1.observers o).map (fun ob => ob.function_) = (w.observers o).map (fun ob => ob.function_)

/-- The observers that the callbacks of the slots `l` link to `s` on the
arguments `a`, in the order of the pass. -/
def news {α : Type} (w : World α) (s : Addr) (a : α) (l : List (Option Addr)) : List Addr :=
  l.reduceOption.flatMap (fun o => added s (callback_body w o a))

/-- A world in which observer 10, when notified, links the so far unlinked
observer 12 to subject 1; subject 1 holds `[10, 11]`. -/
def late_joiner : World Nat :=
  World.of_links [(1, 10), (1, 11)]
    (fun o => if o = 10 then some (fun _ => [Stmt.add_observer 1 12])
      else some (fun a => [Stmt.emit (o + a)]))
    [1] [10, 11, 12]

/-- The list `l'` is the list `l` with some slots overwritten by the null
placeholder: same length, and every index holds its old content or null. -/
def Thinned (l l' : List (Option Addr)) : Prop :=
  List.Forall₂ (fun x y => y = x ∨ y = none) l l'

/-- A body made of marks and of `remove_observer` calls on subject `s` with
observers taken from `live`. -/
def Remover {α : Type} (live : Addr → Prop) (s : Addr) (body : List (Stmt α)) : Prop :=
  ∀ st ∈ body, (∃ v, st = Stmt.emit v) ∨ (∃ p, st = Stmt.remove_observer s p ∧ live p)

/-- The invariant of a pass over subject `s` whose callbacks only remove:
the subject is dispatching at depth one, its list is the list `l0` of the
entry with some slots nulled, and the observers and callbacks are those of `w`. -/
def RemovalPass {α : Type} (w : World α) (s : Addr) (l0 : List (Option Addr))
    (w1 : World α) : Prop :=
  ∃ l1, w1.subjects s = some { observers_ := l1, notify_counter_ := 1 } ∧
    Thinned l0 l1 ∧ SameCallbacks w w1

/-- A world in which observer 10, when notified, unlinks observer 11 and then
itself from subject 1; subject 1 holds `[12, 10, 11, 13]`. -/
def remover_world : World Nat :=
  World.of_links [(1, 12), (1, 10), (1, 11), (1, 13)]
    (fun o =>
      if o = 10 then some (fun _ => [Stmt.remove_observer 1 11, Stmt.remove_observer 1 10])
      else some (fun a => [Stmt.emit (o + a)]))
    [1] [10, 11, 12, 13]

/-- A world in which no subject and no observer has a link. -/
def NoLinks {α : Type} (w : World α) : Prop :=
  (∀ s, slots w s = []) ∧ (∀ o, backrefs w o = [])

/-- A program that uses every kind of operation: two subjects and three
observers are linked (one pair twice), a callback unlinks its own observer and
links another one while the subject dispatches, subjects and observers are
copied, moved and destroyed. -/
def busy_program : List (Stmt Nat) :=
  [ .subject_ctor 1, .subject_ctor 2,
    .observer_ctor 10 (some fun _ => [.remove_observer 1 10, .add_observer 1 12]),
    .observer_ctor 11 (some fun a => [.emit a]),
    .observer_ctor 12 none,
    .add_observer 1 10, .add_observer 1 11, .add_observer 2 11, .add_observer 1 11,
    .call 1 5,
    .set_function 12 (some fun a => [.emit (a + 1)]),
    .subject_copy_ctor 3 1,
    .observer_move_ctor 13 11,
    .subject_move_ctor 4 2,
    .remove_observer 3 13,
    .subject_copy_assign 2 3,
    .observer_copy_ctor 14 13,
    .observer_move_assign 14 12,
    .subject_move_assign 1 4,
    .observer_copy_assign 10 13,
    .call 3 6,
    .observer_dtor 14,
    .subject_dtor 4 ]

/-- The marks a body leaves in the output log, in order. -/
def marks {α : Type} : List (Stmt α) → List Nat
  | [] => []
  | .emit v :: rest => v :: marks rest
  | _ :: rest => marks rest

/-- A state in which only the observer side holds the reference: observer 10
lists subject 1, subject 1 has no slot. -/
def observer_side_only : World Nat :=
  { subjects := fun s => if s = 1 then some { observers_ := [], notify_counter_ := 0 } else none
    observers := fun o => if o = 10 then some { function_ := none, subjects_ := [1] } else none
    trace := []
    output := [] }

/-- A state in which only the subject side holds the reference: subject 1 has
a slot for observer 10, observer 10 lists no subject. -/
def subject_side_only : World Nat :=
  { subjects := fun s =>
      if s = 1 then some { observers_ := [some 10], notify_counter_ := 0 } else none
    observers := fun o => if o = 10 then some { function_ := none, subjects_ := [] } else none
    trace := []
    output := [] }

/-- What the `add_observer` calls of `link_all` do to one observer: `n` new
entries `s` at the end of its list. -/
def linked {α : Type} (s : Addr) (n : Nat) (ob : observer α) : observer α :=
  { ob with subjects_ := ob.subjects_ ++ List.replicate n s }

/-- A subject with two observers, for the assignment of a subject to itself. -/
def two_links : World Nat :=
  World.of_links [(1, 10), (1, 11)] (fun _ => none) [1] [10, 11]

/-- The list `l` with every slot holding `o` overwritten by the placeholder. -/
def nulled (o : Addr) (l : List (Option Addr)) : List (Option Addr) :=
  l.map (fun x => if x = some o then none else x)

/-- What the teardown of observer `o` leaves of a list of slots: an idle
subject has the slots of `o` erased, a dispatching subject has them nulled. -/
def without (o : Addr) (c : Int) (l : List (Option Addr)) : List (Option Addr) :=
  if c = 0 then l.filter (fun x => x ≠ some o) else nulled o l

/-- The list `l` with every entry `x` replaced by `y`, in place. -/
def renamed {β : Type} [DecidableEq β] (x y : β) (l : List β) : List β :=
  l.map (fun z => if z = x then y else z)

/-- The lists of the observers after the fix-up loop of a moved subject. -/
def retargeted {α : Type} (old new : Addr) (ob : observer α) : observer α :=
  { ob with subjects_ := renamed old new ob.subjects_ }

/-- The list of a subject after the fix-up loop of a moved observer. -/
def reslotted (old new : Addr) (sb : subject) : subject :=
  { sb with observers_ := renamed (some old) (some new) sb.observers_ }

/-- A world in which subject 1 holds `[10, 11, 10]` and every observer leaves
the sum of its address and the argument as its mark. -/
def echo_world : World Nat :=
  World.of_links [(1, 10), (1, 11), (1, 10)] (fun o => some fun a => [.emit (o + a)])
    [1] [10, 11]

/-- The statements through which the claim on the dispatch depth reaches its
states: marks, `add_observer`, `remove_observer`, `clear` and invocation, on
any subject and observer. -/
def Plain {α : Type} : Stmt α → Prop
  | .emit _ => True
  | .add_observer _ _ => True
  | .remove_observer _ _ => True
  | .clear _ => True
  | .call _ _ => True
  | _ => False

/-- Every callback stored in the world runs plain statements only. -/
def PlainWorld {α : Type} (w : World α) : Prop :=
  ∀ o a, ∀ st ∈ callback_body w o a, Plain st

/-- The counter of no subject is negative, and a subject that is not
dispatching holds no placeholder. -/
def Compact {α : Type} (w : World α) : Prop :=
  ∀ s, 0 ≤ depth w s ∧ (depth w s = 0 → none ∉ slots w s)

/-- What a plain statement keeps: the callbacks, the depth of every subject
and the absence of placeholders in idle subjects. -/
def Kept {α : Type} (w w' : World α) : Prop :=
  SameCallbacks w w' ∧ (∀ x, depth w' x = depth w x) ∧ (Compact w → Compact w')

/-- A plain statement that is not an invocation. -/
def Flat {α : Type} : Stmt α → Prop
  | .emit _ => True
  | .add_observer _ _ => True
  | .remove_observer _ _ => True
  | .clear _ => True
  | _ => False

/-- No callback stored in the world invokes a subject: every callback runs
marks, `add_observer`, `remove_observer` and `clear` only. -/
def FlatWorld {α : Type} (w : World α) : Prop :=
  ∀ o a, ∀ st ∈ callback_body w o a, Flat st

/-- A world in which observer 10, notified with a positive number, unlinks
observer 11 from subject 1 and invokes subject 1 again with the predecessor;
subject 1 holds `[10, 11]`. -/
def countdown : World Nat :=
  World.of_links [(1, 10), (1, 11)]
    (fun o =>
      if o = 10 then
        some (fun a => if a = 0 then [] else [Stmt.remove_observer 1 11, Stmt.call 1 (a - 1)])
      else some (fun a => [Stmt.emit (o + a)]))
    [1] [10, 11]

/-- A world in which the only observer of subject 1 invokes subject 1 again
whenever it is notified. -/
def forever : World Nat :=
  World.of_links [(1, 10)] (fun _ => some fun a => [Stmt.call 1 a]) [1] [10]

/-- An observer that is alive and holds a callback. -/
def Ready {α : Type} (w : World α) (o : Addr) : Prop :=
  ∃ ob f, w.observers o = some ob ∧ ob.function_ = some f

/-- Every live slot of every subject holds an observer that is alive and has
a callback. -/
def AllReady {α : Type} (w : World α) : Prop :=
  ∀ s o, some o ∈ slots w s → Ready w o

/-- No counter is negative and every counter can still be incremented `n`
times without reaching the largest `int`. -/
def Room {α : Type} (n : Nat) (w : World α) : Prop :=
  ∀ s, 0 ≤ depth w s ∧ depth w s + (n : Int) < 2147483647

/-- A statement of a callback other than an invocation, on live objects: a
mark, `add_observer` of an observer with a callback, `remove_observer`, and,
when `c` is true, `clear`. -/
def Basic {α : Type} (c : Bool) (w : World α) : Stmt α → Prop
  | .emit _ => True
  | .add_observer s o => (w.subjects s).isSome ∧ Ready w o
  | .remove_observer s o => (w.subjects s).isSome ∧ (w.observers o).isSome
  | .clear s => c = true ∧ (w.subjects s).isSome
  | _ => False

/-- A body whose invocations nest at most `k` deep: its statements are basic
ones or invocations of live subjects with arguments on which every callback is
again such a body, one level lower. -/
def Tame {α : Type} (c : Bool) (w : World α) : Nat → List (Stmt α) → Prop
  | 0, body => ∀ st ∈ body, Basic c w st
  | k + 1, body => ∀ st ∈ body, Basic c w st ∨
      ∃ s a, st = Stmt.call s a ∧ (w.subjects s).isSome ∧
        ∀ o, Tame c w k (callback_body w o a)

/-- What every returning statement of a callback keeps: the callbacks, the
depths, the set of live subjects, ready observers in the slots, and the length
of the list of every dispatching subject (it may only grow). -/
def Held {α : Type} (w w' : World α) : Prop :=
  SameCallbacks w w' ∧ (∀ x, depth w' x = depth w x) ∧
  (∀ x, (w'.subjects x).isSome = (w.subjects x).isSome) ∧
  (AllReady w → AllReady w') ∧
  (∀ x, depth w x ≠ 0 → (slots w x).length ≤ (slots w' x).length)

/-- The two ways a run from `w` can end here: normally, in a state that keeps
what `Held` lists, or, when `c` is true, in the null dereference of `clear`. -/
def Res {α : Type} (c : Bool) (w : World α) (out : Outcome (World α)) : Prop :=
  (c = true ∧ out = .fault .null_deref) ∨ ∃ w', out = .done w' ∧ Held w w'

/-- A program that builds subject 1 with the observers 10 and 11 linked in
this order; the callback of observer 10 unlinks observer 11 from subject 1 and
then clears subject 1, the callback of observer 11 leaves its argument as a
mark. -/
def clearing_listener : List (Stmt Nat) :=
  [ .subject_ctor 1,
    .observer_ctor 10 (some fun _ => [.remove_observer 1 11, .clear 1]),
    .observer_ctor 11 (some fun a => [.emit a]),
    .add_observer 1 10,
    .add_observer 1 11 ]

/-! ## Lists: the two reverse searches and `std::find` -/

theorem erase_last_of_mem {β : Type} [DecidableEq β] (x : β) (l : List β) (h : x ∈ l) :
    ∃ pre post, l = pre ++ x :: post ∧ x ∉ post ∧ erase_last x l = pre ++ post := by
  have hr : x ∈ l.reverse := List.mem_reverse.mpr h
  obtain ⟨l1, l2, hn, heq, her⟩ := List.exists_erase_eq hr
  refine ⟨l2.reverse, l1.reverse, ?_, ?_, ?_⟩
  · have := congrArg List.reverse heq
    simpa using this
  · simpa using hn
  · unfold erase_last
    rw [her]; simp

theorem erase_last_of_not_mem {β : Type} [DecidableEq β] (x : β) (l : List β) (h : x ∉ l) :
    erase_last x l = l := by
  unfold erase_last
  rw [List.erase_of_not_mem (by simpa using h)]; simp

theorem replace_first_of_mem {β : Type} [DecidableEq β] (x y : β) (l : List β) (h : x ∈ l) :
    ∃ pre post, l = pre ++ x :: post ∧ x ∉ pre ∧ replace_first x y l = some (pre ++ y :: post) := by
  induction l with
  | nil => simp at h
  | cons z zs ih =>
    by_cases hz : z = x
    · subst hz
      exact ⟨[], zs, rfl, by simp, by simp [replace_first]⟩
    · have hx : x ∈ zs := by
        rcases List.mem_cons.mp h with h1 | h1
        · exact absurd h1.symm hz
        · exact h1
      obtain ⟨pre, post, h1, h2, h3⟩ := ih hx
      refine ⟨z :: pre, post, by simp [h1], ?_, ?_⟩
      · simp [h2]; exact fun h => hz h.symm
      · simp [replace_first, hz, h3]

theorem replace_first_of_not_mem {β : Type} [DecidableEq β] (x y : β) (l : List β) (h : x ∉ l) :
    replace_first x y l = none := by
  induction l with
  | nil => rfl
  | cons z zs ih =>
    have hz : z ≠ x := fun e => h (by simp [e])
    have hx : x ∉ zs := fun e => h (by simp [e])
    simp [replace_first, hz, ih hx]

theorem replace_last_of_mem {β : Type} [DecidableEq β] (x y : β) (l : List β) (h : x ∈ l) :
    ∃ pre post, l = pre ++ x :: post ∧ x ∉ post ∧ replace_last x y l = pre ++ y :: post := by
  have hr : x ∈ l.reverse := List.mem_reverse.mpr h
  obtain ⟨l1, l2, heq, hn, her⟩ := replace_first_of_mem x y l.reverse hr
  refine ⟨l2.reverse, l1.reverse, ?_, ?_, ?_⟩
  · have := congrArg List.reverse heq
    simpa using this
  · simpa using hn
  · unfold replace_last
    rw [her]; simp

theorem replace_last_of_not_mem {β : Type} [DecidableEq β] (x y : β) (l : List β) (h : x ∉ l) :
    replace_last x y l = l := by
  unfold replace_last
  rw [replace_first_of_not_mem x y l.reverse (by simpa using h)]


/-! ## The link registry: `add_observer` and `remove_observer` -/

theorem add_observer_eq {α : Type} (w : World α) (s o : Addr) (sb : subject) (ob : observer α)
    (hs : w.subjects s = some sb) (ho : w.observers o = some ob) :
    subject.add_observer w s o = .done (set_observer
      (set_subject w s { sb with observers_ := sb.observers_ ++ [some o] })
      o { ob with subjects_ := ob.subjects_ ++ [s] }) := by
  simp [subject.add_observer, hs, ho]

theorem remove_observer_eq {α : Type} (w : World α) (s o : Addr) (sb : subject)
    (ob : observer α) (hs : w.subjects s = some sb) (ho : w.observers o = some ob) :
    subject.remove_observer w s o = .done (set_subject
      (set_observer w o { ob with subjects_ := erase_last s ob.subjects_ }) s
      { sb with observers_ :=
          if sb.notify_counter_ = 0 then erase_last (some o) sb.observers_
          else replace_last (some o) none sb.observers_ }) := by
  by_cases h : sb.notify_counter_ = 0 <;> simp [subject.remove_observer, hs, ho, h]

/-- C3: `add_observer(S, O)` on a live subject and a live observer returns
normally; `O` becomes the new last slot of `S` and `S` the new last entry of
`O`, the older entries of both lists stay in front unchanged, the counter, the
callback, every other subject and every other observer are unchanged, and there
is no duplicate check: the number of links of the pair grows by one whatever it
was before. -/
theorem C3_add_observer_appends {α : Type} (w : World α) (s o : Addr)
    (sb : subject) (ob : observer α)
    (hs : w.subjects s = some sb) (ho : w.observers o = some ob) :
    ∃ w', subject.add_observer w s o = .done w' ∧
      w'.subjects s = some { sb with observers_ := sb.observers_ ++ [some o] } ∧
      w'.observers o = some { ob with subjects_ := ob.subjects_ ++ [s] } ∧
      (∀ s', s' ≠ s → w'.subjects s' = w.subjects s') ∧
      (∀ o', o' ≠ o → w'.observers o' = w.observers o') ∧
      (slots w' s).count (some o) = (slots w s).count (some o) + 1 ∧
      (backrefs w' o).count s = (backrefs w o).count s + 1 ∧
      w'.trace = w.trace ∧ w'.output = w.output := by
  refine ⟨_, add_observer_eq w s o sb ob hs ho, ?_, ?_, ?_, ?_, ?_, ?_, rfl, rfl⟩
  · simp [set_observer, set_subject]
  · simp [set_observer, set_subject]
  · intro s' h; simp [set_observer, set_subject, h]
  · intro o' h; simp [set_observer, set_subject, h]
  · simp [slots, set_observer, set_subject, hs]
  · simp [backrefs, set_observer, set_subject, ho]

/-- C3 at a concrete state: subject 1 already holds observer 10 once, and a
second `add_observer(1, 10)` makes it two links. -/
theorem C3_add_observer_appends_witness :
    ∃ w', subject.add_observer (World.of_links [(1, 10)] (fun _ => none) [1] [10] : World Nat) 1 10
        = .done w' ∧
      w'.subjects 1 = some { observers_ := [some 10, some 10], notify_counter_ := 0 } ∧
      (backrefs w' 10).count 1 = 2 := by
  obtain ⟨w', h1, h2, _, _, _, _, h7, _⟩ :=
    C3_add_observer_appends (World.of_links [(1, 10)] (fun _ => none) [1] [10] : World Nat) 1 10
      { observers_ := [some 10], notify_counter_ := 0 } { function_ := none, subjects_ := [1] }
      rfl rfl
  exact ⟨w', h1, h2, h7⟩

/-- C4: on an idle subject `S` and an observer `O` linked to it,
`remove_observer(S, O)` returns normally, erases from the list of `S` exactly
the last slot holding `O` and from the list of `O` exactly the last entry
holding `S`; what is left of either list is the old list without that one
element (so in the old order), the number of links of the pair drops by one on
both sides, and no other subject or observer changes. -/
theorem C4_remove_observer_idle {α : Type} (w : World α) (s o : Addr)
    (sb : subject) (ob : observer α)
    (hs : w.subjects s = some sb) (ho : w.observers o = some ob)
    (hidle : sb.notify_counter_ = 0)
    (hso : some o ∈ sb.observers_) (hos : s ∈ ob.subjects_) :
    ∃ w' pre post pre2 post2, subject.remove_observer w s o = .done w' ∧
      sb.observers_ = pre ++ some o :: post ∧ some o ∉ post ∧
      w'.subjects s = some { sb with observers_ := pre ++ post } ∧
      ob.subjects_ = pre2 ++ s :: post2 ∧ s ∉ post2 ∧
      w'.observers o = some { ob with subjects_ := pre2 ++ post2 } ∧
      (slots w' s).count (some o) + 1 = (slots w s).count (some o) ∧
      (backrefs w' o).count s + 1 = (backrefs w o).count s ∧
      (∀ s', s' ≠ s → w'.subjects s' = w.subjects s') ∧
      (∀ o', o' ≠ o → w'.observers o' = w.observers o') ∧
      w'.trace = w.trace ∧ w'.output = w.output := by
  obtain ⟨pre, post, e1, n1, r1⟩ := erase_last_of_mem (some o) sb.observers_ hso
  obtain ⟨pre2, post2, e2, n2, r2⟩ := erase_last_of_mem s ob.subjects_ hos
  refine ⟨_, pre, post, pre2, post2, remove_observer_eq w s o sb ob hs ho,
    e1, n1, ?_, e2, n2, ?_, ?_, ?_, ?_, ?_, rfl, rfl⟩
  · simp [set_observer, set_subject, r1, hidle]
  · simp [set_observer, set_subject, r2]
  · simp only [slots, set_observer, set_subject, hs, if_true, hidle, r1]
    rw [e1]; simp [List.count_cons]; omega
  · simp only [backrefs, set_observer, set_subject, ho, if_true, r2]
    rw [e2]; simp [List.count_cons]; omega
  · intro s' h; simp [set_observer, set_subject, h]
  · intro o' h; simp [set_observer, set_subject, h]

/-- C4 at a concrete state: subject 1 holds `[10, 11, 10]`, observer 10 holds
`[1, 2, 1]`; the removal takes the last of each. -/
theorem C4_remove_observer_idle_witness :
    ∃ w', subject.remove_observer
        (World.of_links [(1, 10), (1, 11), (2, 10), (1, 10)] (fun _ => none) [1, 2] [10, 11]
          : World Nat) 1 10 = .done w' ∧
      slots w' 1 = [some 10, some 11] ∧ backrefs w' 10 = [1, 2] := by
  obtain ⟨w', pre, post, pre2, post2, h1, _, _, _, _, _, _, _, _, _, _, _, _⟩ :=
    C4_remove_observer_idle
      (World.of_links [(1, 10), (1, 11), (2, 10), (1, 10)] (fun _ => none) [1, 2] [10, 11]
          : World Nat) 1 10
      { observers_ := [some 10, some 11, some 10], notify_counter_ := 0 }
      { function_ := none, subjects_ := [1, 2, 1] } rfl rfl rfl (by decide) (by decide)
  refine ⟨w', h1, ?_, ?_⟩
  · have h : w' = _ := Outcome.done.inj (h1.symm.trans rfl)
    rw [h]; rfl
  · have h : w' = _ := Outcome.done.inj (h1.symm.trans rfl)
    rw [h]; rfl

/-- C5: on a subject `S` that is dispatching (`notify_counter_ > 0`) and an
observer `O` linked to it, `remove_observer(S, O)` returns normally and keeps
the length of the list of `S`: the last slot holding `O` becomes the null
placeholder, every other index keeps its content, the counter is unchanged;
the last entry holding `S` is erased from the list of `O` at once. -/
theorem C5_remove_observer_dispatching {α : Type} (w : World α) (s o : Addr)
    (sb : subject) (ob : observer α)
    (hs : w.subjects s = some sb) (ho : w.observers o = some ob)
    (hdepth : 0 < sb.notify_counter_)
    (hso : some o ∈ sb.observers_) (hos : s ∈ ob.subjects_) :
    ∃ w' pre post pre2 post2, subject.remove_observer w s o = .done w' ∧
      sb.observers_ = pre ++ some o :: post ∧ some o ∉ post ∧
      w'.subjects s = some { sb with observers_ := pre ++ none :: post } ∧
      (slots w' s).length = (slots w s).length ∧
      (∀ i, i ≠ pre.length → (slots w' s)[i]? = (slots w s)[i]?) ∧
      (slots w' s)[pre.length]? = some none ∧
      ob.subjects_ = pre2 ++ s :: post2 ∧ s ∉ post2 ∧
      w'.observers o = some { ob with subjects_ := pre2 ++ post2 } ∧
      (∀ s', s' ≠ s → w'.subjects s' = w.subjects s') ∧
      (∀ o', o' ≠ o → w'.observers o' = w.observers o') := by
  obtain ⟨pre, post, e1, n1, r1⟩ := replace_last_of_mem (some o) none sb.observers_ hso
  obtain ⟨pre2, post2, e2, n2, r2⟩ := erase_last_of_mem s ob.subjects_ hos
  have hne : sb.notify_counter_ ≠ 0 := by omega
  have hsl : slots (set_subject
      (set_observer w o { ob with subjects_ := erase_last s ob.subjects_ }) s
      { sb with observers_ :=
          if sb.notify_counter_ = 0 then erase_last (some o) sb.observers_
          else replace_last (some o) none sb.observers_ }) s = pre ++ none :: post := by
    simp [slots, set_subject, hne, r1]
  have hsl0 : slots w s = pre ++ some o :: post := by simp [slots, hs, e1]
  refine ⟨_, pre, post, pre2, post2, remove_observer_eq w s o sb ob hs ho,
    e1, n1, ?_, ?_, ?_, ?_, e2, n2, ?_, ?_, ?_⟩
  · simp [set_observer, set_subject, r1, hne]
  · rw [hsl, hsl0]; simp
  · intro i hi
    rw [hsl, hsl0]
    rcases Nat.lt_or_gt_of_ne hi with h | h
    · rw [List.getElem?_append_left h, List.getElem?_append_left h]
    · rw [List.getElem?_append_right (by omega), List.getElem?_append_right (by omega)]
      obtain ⟨k, hk⟩ : ∃ k, i - pre.length = k + 1 := ⟨i - pre.length - 1, by omega⟩
      rw [hk]; rfl
  · rw [hsl, List.getElem?_append_right (le_refl _)]; simp
  · simp [set_observer, set_subject, r2]
  · intro s' h; simp [set_observer, set_subject, h]
  · intro o' h; simp [set_observer, set_subject, h]

/-- C5 at a concrete state: subject 1 is dispatching with `[10, 11, 10]`. -/
theorem C5_remove_observer_dispatching_witness :
    ∃ w', subject.remove_observer
        (set_subject (World.of_links [(1, 10), (1, 11), (2, 10), (1, 10)] (fun _ => none)
          [1, 2] [10, 11] : World Nat) 1
          { observers_ := [some 10, some 11, some 10], notify_counter_ := 1 }) 1 10 = .done w' ∧
      slots w' 1 = [some 10, some 11, none] ∧ backrefs w' 10 = [1, 2] := by
  obtain ⟨w', pre, post, pre2, post2, h1, _⟩ :=
    C5_remove_observer_dispatching
      (set_subject (World.of_links [(1, 10), (1, 11), (2, 10), (1, 10)] (fun _ => none)
          [1, 2] [10, 11] : World Nat) 1
          { observers_ := [some 10, some 11, some 10], notify_counter_ := 1 }) 1 10
      { observers_ := [some 10, some 11, some 10], notify_counter_ := 1 }
      { function_ := none, subjects_ := [1, 2, 1] } rfl rfl (by decide) (by decide) (by decide)
  have h : w' = _ := Outcome.done.inj (h1.symm.trans rfl)
  exact ⟨w', h1, by rw [h]; rfl, by rw [h]; rfl⟩

/-! ## Concrete worlds -/

theorem of_links_slots_count (links : List (Addr × Addr)) (s o : Addr) :
    (((links.filter (fun l => l.1 = s)).map (fun l => some l.2)).count (some o)) =
      links.countP (fun l => decide (l.1 = s ∧ l.2 = o)) := by
  induction links with
  | nil => rfl
  | cons l rest ih =>
    by_cases h1 : l.1 = s <;> by_cases h2 : l.2 = o <;>
      simp [List.filter_cons, List.countP_cons, h1, h2, ih, List.count_cons]

theorem of_links_backrefs_count (links : List (Addr × Addr)) (s o : Addr) :
    (((links.filter (fun l => l.2 = o)).map (fun l => l.1)).count s) =
      links.countP (fun l => decide (l.1 = s ∧ l.2 = o)) := by
  induction links with
  | nil => rfl
  | cons l rest ih =>
    by_cases h1 : l.1 = s <;> by_cases h2 : l.2 = o <;>
      simp [List.filter_cons, List.countP_cons, h1, h2, ih, List.count_cons]

theorem of_links_sym {α : Type} (links : List (Addr × Addr)) (cb : Addr → Callback α)
    (ss os : List Addr) (h : ∀ l ∈ links, l.1 ∈ ss ∧ l.2 ∈ os) :
    Sym (World.of_links links cb ss os) := by
  intro s o
  have hz : ∀ (p : Addr × Addr → Bool), (∀ l ∈ links, p l = false) → links.countP p = 0 := by
    intro p hp
    rw [List.countP_eq_zero]
    intro l hl
    simp [hp l hl]
  by_cases hs : s ∈ ss <;> by_cases ho : o ∈ os
  · simp only [slots, backrefs, World.of_links, hs, ho, if_true]
    rw [of_links_slots_count, of_links_backrefs_count]
  · simp only [slots, backrefs, World.of_links, hs, ho, if_true, if_false]
    rw [of_links_slots_count, List.count_nil]
    apply hz
    intro l hl
    have := (h l hl).2
    simp only [decide_eq_false_iff_not, not_and]
    intro _ e
    exact ho (e ▸ this)
  · simp only [slots, backrefs, World.of_links, hs, ho, if_true, if_false]
    rw [of_links_backrefs_count, List.count_nil]
    symm
    apply hz
    intro l hl
    have := (h l hl).1
    simp only [decide_eq_false_iff_not, not_and]
    intro e _
    exact hs (e ▸ this)
  · simp [slots, backrefs, World.of_links, hs, ho]

/-! ## The operation `subject::clear` -/


theorem unlinked_idem {α : Type} (s : Addr) (ob : observer α) :
    unlinked s (unlinked s ob) = unlinked s ob := by
  simp [unlinked, List.filter_filter]

theorem unlink_all_done {α : Type} (s : Addr) (l : List (Option Addr)) :
    ∀ (w w' : World α), unlink_all s l w = .done w' →
      none ∉ l ∧ (∀ o, some o ∈ l → (w.observers o).isSome) ∧
      w'.subjects = w.subjects ∧ w'.trace = w.trace ∧ w'.output = w.output ∧
      ∀ o, w'.observers o =
        if some o ∈ l then (w.observers o).map (unlinked s) else w.observers o := by
  induction l with
  | nil =>
    intro w w' h
    simp [unlink_all] at h
    subst h
    simp
  | cons x rest ih =>
    intro w w' h
    cases x with
    | none => simp [unlink_all] at h
    | some o =>
      simp only [unlink_all] at h
      cases ho : w.observers o with
      | none => simp [ho] at h
      | some ob =>
        simp only [ho] at h
        obtain ⟨h1, h2, h3, h4, h5, h6⟩ := ih _ _ h
        refine ⟨by simpa using h1, ?_, h3, h4, h5, ?_⟩
        · intro o' ho'
          rcases List.mem_cons.mp ho' with e | e
          · cases e; simp [ho]
          · have := h2 o' e
            by_cases hoo : o' = o
            · subst hoo; simp [ho]
            · simpa [set_observer, hoo] using this
        · intro o'
          rw [h6 o']
          by_cases hoo : o' = o
          · subst hoo
            have : unlinked s (unlinked s ob) = unlinked s ob := unlinked_idem s ob
            by_cases hm : some o' ∈ rest
            · simp [hm, set_observer, ho, unlinked]
            · simp [hm, set_observer, ho, unlinked]
          · have hne : some o' ≠ some o := fun e => hoo (Option.some.inj e)
            simp [set_observer, hoo, List.mem_cons, hne]

theorem unlink_all_ok {α : Type} (s : Addr) (l : List (Option Addr)) :
    ∀ (w : World α), none ∉ l → (∀ o, some o ∈ l → (w.observers o).isSome) →
      ∃ w', unlink_all s l w = .done w' := by
  induction l with
  | nil => intro w _ _; exact ⟨w, rfl⟩
  | cons x rest ih =>
    intro w hn hl
    cases x with
    | none => simp at hn
    | some o =>
      have ho := hl o (by simp)
      obtain ⟨ob, hob⟩ := Option.isSome_iff_exists.mp ho
      simp only [unlink_all, hob]
      apply ih
      · simpa using hn
      · intro o' ho'
        by_cases hoo : o' = o
        · simp [set_observer, hoo]
        · simpa [set_observer, hoo] using hl o' (by simp [ho'])

theorem unlink_all_null {α : Type} (s : Addr) (l : List (Option Addr)) (w : World α)
    (h : none ∈ l) : ∀ w', unlink_all s l w ≠ .done w' := by
  intro w' hd
  exact (unlink_all_done s l w w' hd).1 h

theorem live_of_slot {α : Type} (w : World α) (hsym : Sym w) (s o : Addr)
    (h : some o ∈ slots w s) : (w.observers o).isSome := by
  have h1 : 0 < (slots w s).count (some o) := List.count_pos_iff.mpr h
  rw [hsym s o] at h1
  have h2 : s ∈ backrefs w o := List.count_pos_iff.mp h1
  unfold backrefs at h2
  cases ho : w.observers o with
  | none => simp [ho] at h2
  | some ob => simp

/-- C9: on a subject `S` whose list holds no placeholder, in a state with
symmetric links, `clear(S)` returns normally; afterwards no observer holds `S`,
`S` holds no observer, the list of `S` is empty when `S` was idle and keeps its
length with a placeholder in every slot when `S` was dispatching; the list of
every observer is its old list without the entries equal to `S` (the entries
for other subjects stay, in order); the counter of `S` and all other subjects
are unchanged. -/
theorem C9_clear_removes_all {α : Type} (w : World α) (s : Addr) (sb : subject)
    (hs : w.subjects s = some sb) (hnp : none ∉ sb.observers_) (hsym : Sym w) :
    ∃ w', subject.clear w s = .done w' ∧
      (∀ o, s ∉ backrefs w' o) ∧
      (∀ o, some o ∉ slots w' s) ∧
      (sb.notify_counter_ = 0 → slots w' s = []) ∧
      (0 < sb.notify_counter_ → slots w' s = List.replicate sb.observers_.length none) ∧
      (∀ o, backrefs w' o = (backrefs w o).filter (fun x => x ≠ s)) ∧
      depth w' s = depth w s ∧
      (∀ s', s' ≠ s → w'.subjects s' = w.subjects s') := by
  have hsl : slots w s = sb.observers_ := by simp [slots, hs]
  have hlive : ∀ o, some o ∈ sb.observers_ → (w.observers o).isSome := by
    intro o ho
    exact live_of_slot w hsym s o (by rw [hsl]; exact ho)
  obtain ⟨w1, hw1⟩ := unlink_all_ok s sb.observers_ w hnp hlive
  obtain ⟨_, _, e1, _, _, e4⟩ := unlink_all_done s sb.observers_ w w1 hw1
  have hback : ∀ o, backrefs w1 o = (backrefs w o).filter (fun x => x ≠ s) := by
    intro o
    unfold backrefs
    rw [e4 o]
    by_cases hm : some o ∈ sb.observers_
    · cases ho : w.observers o with
      | none => simp [hm]
      | some ob => simp [hm, unlinked]
    · have h0 : (slots w s).count (some o) = 0 := by
        rw [hsl]; exact List.count_eq_zero.mpr hm
      rw [hsym s o] at h0
      have hns : s ∉ backrefs w o := List.count_eq_zero.mp h0
      unfold backrefs at hns
      simp only [hm, if_false]
      cases ho : w.observers o with
      | none => simp
      | some ob =>
        simp only [ho] at hns
        symm
        simp only [List.filter_eq_self]
        intro x hx
        have : x ≠ s := fun e => hns (e ▸ hx)
        simpa using this
  by_cases hz : sb.notify_counter_ = 0
  · refine ⟨set_subject w1 s { sb with observers_ := [] }, ?_, ?_, ?_, ?_, ?_, ?_, ?_, ?_⟩
    · simp [subject.clear, hs, hw1, Outcome.bind, hz]
    · intro o
      have : backrefs (set_subject w1 s { sb with observers_ := [] }) o = backrefs w1 o := rfl
      rw [this, hback o]; simp
    · intro o; simp [slots, set_subject]
    · intro _; simp [slots, set_subject]
    · intro h; omega
    · intro o; exact hback o
    · simp [depth, set_subject, hs]
    · intro s' h; simp [set_subject, h, e1]
  · refine ⟨set_subject w1 s { sb with observers_ := sb.observers_.map (fun _ => none) },
      ?_, ?_, ?_, ?_, ?_, ?_, ?_, ?_⟩
    · simp [subject.clear, hs, hw1, Outcome.bind, hz]
    · intro o
      have : backrefs (set_subject w1 s
          { sb with observers_ := sb.observers_.map (fun _ => none) }) o = backrefs w1 o := rfl
      rw [this, hback o]; simp
    · intro o; simp [slots, set_subject]
    · intro h; exact absurd h hz
    · intro _; simp [slots, set_subject]
    · intro o; exact hback o
    · simp [depth, set_subject, hs]
    · intro s' h; simp [set_subject, h, e1]

/-- C9 at a concrete state: subject 1 holds `[10, 11, 10]`, subject 2 holds `[10]`. -/
theorem C9_clear_removes_all_witness :
    ∃ w', subject.clear
        (World.of_links [(1, 10), (1, 11), (2, 10), (1, 10)] (fun _ => none) [1, 2] [10, 11]
          : World Nat) 1 = .done w' ∧
      slots w' 1 = [] ∧ backrefs w' 10 = [2] ∧ backrefs w' 11 = [] := by
  have hsym : Sym (World.of_links [(1, 10), (1, 11), (2, 10), (1, 10)] (fun _ => none)
      [1, 2] [10, 11] : World Nat) := of_links_sym _ _ _ _ (by decide)
  obtain ⟨w', h1, _⟩ :=
    C9_clear_removes_all
      (World.of_links [(1, 10), (1, 11), (2, 10), (1, 10)] (fun _ => none) [1, 2] [10, 11]
          : World Nat) 1
      { observers_ := [some 10, some 11, some 10], notify_counter_ := 0 } rfl (by decide) hsym
  have h : w' = _ := Outcome.done.inj (h1.symm.trans rfl)
  exact ⟨w', h1, by rw [h]; rfl, by rw [h]; rfl, by rw [h]; rfl⟩

/-- C10 (the code at the failing input): in `clear_after_removal` the
invocation of subject 1 calls observer 10, whose callback removes the link
(slot 0 becomes the null placeholder, the counter is 1) and then calls
`clear`; the first loop of `clear` reads `observer->subjects_` through slot 0,
a null pointer, so the program stops there instead of skipping the slot. The
same happens on the state built by hand: a dispatching subject with the list
`[nullptr, 11]`. -/
theorem C10_clear_dereferences_placeholder :
    run 3 clear_after_removal (World.empty Nat) = .fault .null_deref ∧
    subject.clear
      (set_subject (World.of_links [(1, 11)] (fun _ => none) [1] [10, 11] : World Nat) 1
        { observers_ := [none, some 11], notify_counter_ := 1 }) 1 = .fault .null_deref :=
  ⟨rfl, rfl⟩

/-! ## Dispatch: `subject::operator()` -/

theorem exec_call {α : Type} (fuel : Nat) (s : Addr) (a : α) (w : World α) :
    exec (fuel + 1) (.call s a) w = subject.call (run fuel) w s a := rfl

theorem notify_loop_quiet {α : Type} (rn : List (Stmt α) → World α → Outcome (World α))
    (s : Addr) (a : α) (l : List (Option Addr)) (c : Int) (P : World α → Prop)
    (hnp : none ∉ l)
    (hcb : ∀ w1 o, P w1 → some o ∈ l →
      ∃ w2, observer.on_notify rn w1 o a = .done w2 ∧ P w2 ∧
        w2.subjects = w1.subjects ∧ (∀ x, backrefs w2 x = backrefs w1 x) ∧
        w2.trace = w1.trace ++ [(o, a)]) :
    ∀ (k i : Nat) (w1 : World α), P w1 →
      w1.subjects s = some { observers_ := l, notify_counter_ := c } → i + k = l.length →
      ∃ w2, notify_loop rn s a k i w1 = .done w2 ∧ P w2 ∧
        w2.subjects = w1.subjects ∧ (∀ x, backrefs w2 x = backrefs w1 x) ∧
        w2.trace = w1.trace ++ ((l.drop i).reduceOption).map (fun o => (o, a)) := by
  intro k
  induction k with
  | zero =>
    intro i w1 hP _ hik
    refine ⟨w1, rfl, hP, rfl, fun _ => rfl, ?_⟩
    have : l.drop i = [] := List.drop_eq_nil_of_le (by omega)
    simp [this]
  | succ k ih =>
    intro i w1 hP hs hik
    have hi : i < l.length := by omega
    have hget : l[i]? = some l[i] := List.getElem?_eq_getElem hi
    have hmem : l[i] ∈ l := List.getElem_mem hi
    cases hx : l[i] with
    | none => rw [hx] at hmem; exact absurd hmem hnp
    | some o =>
      rw [hx] at hmem hget
      obtain ⟨w2, e1, hP2, e2, e3, e4⟩ := hcb w1 o hP hmem
      obtain ⟨w3, f1, hP3, f2, f3, f4⟩ := ih (i + 1) w2 hP2 (by rw [e2]; exact hs) (by omega)
      refine ⟨w3, ?_, hP3, f2.trans e2, fun x => (f3 x).trans (e3 x), ?_⟩
      · simp only [notify_loop, hs, hget, e1, Outcome.bind]
        exact f1
      · rw [f4, e4, List.drop_eq_getElem_cons hi, hx]
        simp [List.reduceOption_cons_of_some]


theorem filter_isSome_of_no_null (l : List (Option Addr)) (h : none ∉ l) :
    l.filter (fun x => x.isSome) = l := by
  rw [List.filter_eq_self]
  intro x hx
  cases x with
  | none => exact absurd hx h
  | some _ => rfl

/-- C1: let `S` be an idle subject whose list `[o1, ..., oN]` holds no
placeholder, and let the callbacks be harmless during the pass: there is an
invariant `P` of the states of the pass such that `on_notify` of every linked
observer, run in a state satisfying `P`, returns normally in a state
satisfying `P`, changes no subject and no link list of an observer, and makes
no notification besides its own. Then invoking `S` with `a` returns normally,
the notifications made are exactly `(o1, a), ..., (oN, a)` in this order (one
per slot, `on_notify` running the callback stored in the observer at that
moment), and every subject (list and counter) and every observer's link list
is as before the call. -/
theorem C1_dispatch_delivers_in_order {α : Type} (fuel : Nat) (w : World α) (s : Addr)
    (a : α) (sb : subject) (P : World α → Prop)
    (hs : w.subjects s = some sb) (hidle : sb.notify_counter_ = 0)
    (hnp : none ∉ sb.observers_)
    (hP : P (set_subject w s { sb with notify_counter_ := 1 }))
    (hcb : ∀ w1 o, P w1 → some o ∈ sb.observers_ →
      ∃ w2, observer.on_notify (run fuel) w1 o a = .done w2 ∧ P w2 ∧
        w2.subjects = w1.subjects ∧ (∀ x, backrefs w2 x = backrefs w1 x) ∧
        w2.trace = w1.trace ++ [(o, a)]) :
    ∃ w', exec (fuel + 1) (.call s a) w = .done w' ∧
      w'.trace = w.trace ++ sb.observers_.reduceOption.map (fun o => (o, a)) ∧
      w'.subjects = w.subjects ∧
      (∀ o, backrefs w' o = backrefs w o) := by
  obtain ⟨w2, e1, _, e2, e3, e4⟩ :=
    notify_loop_quiet (run fuel) s a sb.observers_ 1 P hnp hcb sb.observers_.length 0
      (set_subject w s { sb with notify_counter_ := 1 }) hP (by simp [set_subject]) (by simp)
  have hs2 : w2.subjects s = some { observers_ := sb.observers_, notify_counter_ := 1 } := by
    rw [e2]; simp [set_subject]
  refine ⟨set_subject w2 s
    { observers_ := sb.observers_.filter (fun x => x.isSome), notify_counter_ := 0 },
    ?_, ?_, ?_, ?_⟩
  · rw [exec_call]
    simp only [subject.call, hs, hidle]
    simp only [zero_add] at *
    rw [if_neg (by decide), e1]
    simp [Outcome.bind, finish_call, hs2]
  · simpa [set_subject] using e4
  · funext x
    by_cases hx : x = s
    · subst hx
      rw [hs]
      simp only [set_subject, if_true]
      rw [filter_isSome_of_no_null _ hnp, ← hidle]
    · simp [set_subject, hx, e2]
  · intro o
    exact e3 o


/-- C1 at a concrete state, reached by a `set_function` on observer 10: the
three slots are served in order with the argument 7, and the marks in the
output show that observer 10 ran the callback given last. -/
theorem C1_dispatch_delivers_in_order_witness :
    observer.set_function
        (World.of_links [(1, 10), (1, 11), (1, 10)]
          (fun o => some fun a => [.emit (o + a)]) [1] [10, 11] : World Nat)
        10 (some fun a => [.emit (500 + a)]) = .done two_listeners ∧
    ∃ w', exec 2 (.call 1 7) two_listeners = .done w' ∧
      w'.trace = [(10, 7), (11, 7), (10, 7)] ∧
      w'.subjects = two_listeners.subjects ∧
      w'.output = [507, 18, 507] := by
  refine ⟨rfl, ?_⟩
  obtain ⟨w', h1, h2, h3, _⟩ :=
    C1_dispatch_delivers_in_order 1 two_listeners 1 7
      { observers_ := [some 10, some 11, some 10], notify_counter_ := 0 }
      (fun w1 => w1.observers = two_listeners.observers)
      rfl rfl (by decide) rfl
      (by
        intro w1 o hP hmem
        have ho : o = 10 ∨ o = 11 := by
          simp only [List.mem_cons, Option.some.injEq, List.mem_singleton] at hmem
          rcases hmem with h | h | h | h
          · exact Or.inl h
          · exact Or.inr h
          · exact Or.inl h
          · cases h
        rcases ho with rfl | rfl
        · refine ⟨{ w1 with trace := w1.trace ++ [(10, 7)], output := w1.output ++ [507] },
            ?_, hP, rfl, fun _ => rfl, rfl⟩
          simp only [observer.on_notify, hP]
          rfl
        · refine ⟨{ w1 with trace := w1.trace ++ [(11, 7)], output := w1.output ++ [18] },
            ?_, hP, rfl, fun _ => rfl, rfl⟩
          simp only [observer.on_notify, hP]
          rfl)
  have h : w' = _ := Outcome.done.inj (h1.symm.trans rfl)
  exact ⟨w', h1, h2, h3, by rw [h]; rfl⟩

theorem notify_loop_rule {α : Type} (rn : List (Stmt α) → World α → Outcome (World α))
    (s : Addr) (a : α) (n : Nat) (I : Nat → World α → Prop)
    (hstep : ∀ i w1, I i w1 → i < n → ∃ sb, w1.subjects s = some sb ∧
      ((sb.observers_[i]? = some none ∧ I (i + 1) w1) ∨
       (∃ o w2, sb.observers_[i]? = some (some o) ∧
          observer.on_notify rn w1 o a = .done w2 ∧ I (i + 1) w2))) :
    ∀ (k i : Nat) (w1 : World α), i + k = n → I i w1 →
      ∃ w2, notify_loop rn s a k i w1 = .done w2 ∧ I n w2 := by
  intro k
  induction k with
  | zero =>
    intro i w1 hik hI
    have : i = n := by omega
    subst this
    exact ⟨w1, rfl, hI⟩
  | succ k ih =>
    intro i w1 hik hI
    obtain ⟨sb, hs, h⟩ := hstep i w1 hI (by omega)
    rcases h with ⟨hn, hI2⟩ | ⟨o, w2, ho, hc, hI2⟩
    · obtain ⟨w3, e, hI3⟩ := ih (i + 1) w1 (by omega) hI2
      exact ⟨w3, by simp only [notify_loop, hs, hn]; exact e, hI3⟩
    · obtain ⟨w3, e, hI3⟩ := ih (i + 1) w2 (by omega) hI2
      exact ⟨w3, by simp only [notify_loop, hs, ho, hc, Outcome.bind]; exact e, hI3⟩

theorem run_quiet {α : Type} (fuel : Nat) (body : List (Stmt α)) (hq : Quiet body) :
    ∀ w1 : World α, ∃ out, run (fuel + 1) body w1 = .done { w1 with output := out } := by
  induction body with
  | nil => intro w1; exact ⟨w1.output, rfl⟩
  | cons st rest ih =>
    intro w1
    obtain ⟨v, rfl⟩ := hq st (by simp)
    obtain ⟨out, h⟩ := ih (fun st h => hq st (by simp [h])) { w1 with output := w1.output ++ [v] }
    exact ⟨out, by
      show (exec (fuel + 1) (Stmt.emit v) w1).bind (run_body (exec (fuel + 1)) rest) = _
      simp only [exec, Outcome.bind]
      exact h⟩

theorem on_notify_quiet {α : Type} (fuel : Nat) (w1 : World α) (o : Addr) (a : α)
    (ob : observer α) (f : α → List (Stmt α))
    (ho : w1.observers o = some ob) (hf : ob.function_ = some f) (hq : Quiet (f a)) :
    ∃ out, observer.on_notify (run (fuel + 1)) w1 o a =
      .done { w1 with trace := w1.trace ++ [(o, a)], output := out } := by
  obtain ⟨out, h⟩ := run_quiet fuel (f a) hq { w1 with trace := w1.trace ++ [(o, a)] }
  exact ⟨out, by simp only [observer.on_notify, ho, hf]; exact h⟩

theorem split_of_count_one {β : Type} [BEq β] [LawfulBEq β] (x : β) (l : List β)
    (h : l.count x = 1) : ∃ pre post, l = pre ++ x :: post ∧ x ∉ pre ∧ x ∉ post := by
  have hm : x ∈ l := List.count_pos_iff.mp (by omega)
  obtain ⟨pre, post, e⟩ := List.append_of_mem hm
  refine ⟨pre, post, e, ?_, ?_⟩
  · rw [e] at h
    simp [List.count_cons] at h
    exact List.count_eq_zero.mp (by omega)
  · rw [e] at h
    simp [List.count_cons] at h
    exact List.count_eq_zero.mp (by omega)

theorem replace_first_split {β : Type} [DecidableEq β] (x y : β) (l1 l2 : List β)
    (h : x ∉ l1) : replace_first x y (l1 ++ x :: l2) = some (l1 ++ y :: l2) := by
  induction l1 with
  | nil => simp [replace_first]
  | cons z zs ih =>
    have hz : z ≠ x := fun e => h (by simp [e])
    have hx : x ∉ zs := fun e => h (by simp [e])
    simp [replace_first, hz, ih hx]

theorem replace_last_split {β : Type} [DecidableEq β] (x y : β) (l1 l2 : List β)
    (h : x ∉ l2) : replace_last x y (l1 ++ x :: l2) = l1 ++ y :: l2 := by
  unfold replace_last
  have : (l1 ++ x :: l2).reverse = l2.reverse ++ x :: l1.reverse := by simp
  rw [this, replace_first_split x y _ _ (by simpa using h)]
  simp

theorem erase_last_split {β : Type} [DecidableEq β] (x : β) (l1 l2 : List β)
    (h : x ∉ l2) : erase_last x (l1 ++ x :: l2) = l1 ++ l2 := by
  unfold erase_last
  have : (l1 ++ x :: l2).reverse = l2.reverse ++ x :: l1.reverse := by simp
  rw [this, List.erase_append_right _ (by simpa using h)]
  simp

theorem count_reduceOption (l : List (Option Addr)) (o : Addr) :
    l.reduceOption.count o = l.count (some o) := by
  induction l with
  | nil => rfl
  | cons x rest ih =>
    cases x with
    | none => simp [List.reduceOption_cons_of_none, ih, List.count_cons]
    | some y => simp [List.reduceOption_cons_of_some, ih, List.count_cons]

theorem take_succ_reduceOption (l : List (Option Addr)) (i : Nat) (o : Addr)
    (h : l[i]? = some (some o)) :
    (l.take (i + 1)).reduceOption = (l.take i).reduceOption ++ [o] := by
  rw [List.take_succ, List.reduceOption_append, h]
  rfl

/-- C6: let `S` be idle with a list without placeholder in which `O` occurs
once, let the list of `O` hold `S` once, let the callback of `O` be
`remove_observer(S, O)` and let the callbacks of the other linked observers
only leave marks. Then invoking `S` returns normally; the pass notifies every
slot once in list order, so `O` exactly once; afterwards the list of `S` is the
old list without the slot of `O`, it holds no placeholder, the list of `O` does
not hold `S`, and the counter is back at zero. -/
theorem C6_self_removal_during_dispatch {α : Type} (fuel : Nat) (w : World α) (s o : Addr)
    (a : α) (sb : subject) (ob : observer α) (f : α → List (Stmt α))
    (hs : w.subjects s = some sb) (hidle : sb.notify_counter_ = 0)
    (hnp : none ∉ sb.observers_)
    (ho : w.observers o = some ob) (hf : ob.function_ = some f)
    (hbody : f a = [Stmt.remove_observer s o])
    (hone : sb.observers_.count (some o) = 1) (hback : ob.subjects_.count s = 1)
    (hothers : ∀ o', o' ≠ o → some o' ∈ sb.observers_ →
      ∃ ob' f', w.observers o' = some ob' ∧ ob'.function_ = some f' ∧ Quiet (f' a)) :
    ∃ w', exec (fuel + 2) (.call s a) w = .done w' ∧
      w'.trace = w.trace ++ sb.observers_.reduceOption.map (fun x => (x, a)) ∧
      sb.observers_.reduceOption.count o = 1 ∧
      slots w' s = sb.observers_.erase (some o) ∧
      some o ∉ slots w' s ∧ none ∉ slots w' s ∧ s ∉ backrefs w' o ∧ depth w' s = 0 := by
  obtain ⟨pre, post, hL, hpre, hpost⟩ := split_of_count_one (some o) sb.observers_ hone
  have hnpre : none ∉ pre := fun h => hnp (by rw [hL]; simp [h])
  have hnpost : none ∉ post := fun h => hnp (by rw [hL]; simp [h])
  have hrl : replace_last (some o) none sb.observers_ = pre ++ none :: post := by
    rw [hL]; exact replace_last_split _ _ _ _ hpost
  obtain ⟨pre2, post2, hB, hpre2, hpost2⟩ := split_of_count_one s ob.subjects_ hback
  have hel : erase_last s ob.subjects_ = pre2 ++ post2 := by
    rw [hB]; exact erase_last_split _ _ _ hpost2
  let L := sb.observers_
  let SA : Addr → Option subject := (set_subject w s { sb with notify_counter_ := 1 }).subjects
  let SB : Addr → Option subject :=
    (set_subject w s { observers_ := pre ++ none :: post, notify_counter_ := 1 }).subjects
  let OB : Addr → Option (observer α) :=
    (set_observer w o { ob with subjects_ := pre2 ++ post2 }).observers
  let I : Nat → World α → Prop := fun i w1 =>
    w1.trace = w.trace ++ ((L.take i).reduceOption).map (fun x => (x, a)) ∧
    (i ≤ pre.length → w1.subjects = SA ∧ w1.observers = w.observers) ∧
    (pre.length < i → w1.subjects = SB ∧ w1.observers = OB)
  have hlen : L.length = pre.length + 1 + post.length := by
    show sb.observers_.length = _
    rw [hL]; simp; omega
  have hstep : ∀ i w1, I i w1 → i < L.length → ∃ sb1, w1.subjects s = some sb1 ∧
      ((sb1.observers_[i]? = some none ∧ I (i + 1) w1) ∨
       (∃ o' w2, sb1.observers_[i]? = some (some o') ∧
          observer.on_notify (run (fuel + 1)) w1 o' a = .done w2 ∧ I (i + 1) w2)) := by
    intro i w1 hI hi
    obtain ⟨ht, hA, hB⟩ := hI
    have hget : L[i]? = some L[i] := List.getElem?_eq_getElem hi
    have hmem : L[i] ∈ L := List.getElem_mem hi
    rcases Nat.lt_trichotomy i pre.length with hlt | heq | hgt
    · -- before the slot of `o`
      obtain ⟨hS, hO⟩ := hA (by omega)
      have hLi : L[i]? = pre[i]? := by
        show sb.observers_[i]? = _
        rw [hL, List.getElem?_append_left hlt]
      cases hx : L[i] with
      | none => rw [hx] at hmem; exact absurd hmem hnp
      | some o' =>
        rw [hx] at hget hmem
        have hne : o' ≠ o := by
          intro e
          subst e
          have : some o' ∈ pre := List.getElem?_mem (by rw [← hLi, hget])
          exact hpre this
        obtain ⟨ob', f', h1, h2, h3⟩ := hothers o' hne hmem
        obtain ⟨out, hrun⟩ := on_notify_quiet fuel w1 o' a ob' f' (by rw [hO]; exact h1) h2 h3
        refine ⟨{ sb with notify_counter_ := 1 }, by rw [hS]; simp [SA, set_subject], Or.inr
          ⟨o', _, hget, hrun, ?_, fun _ => ⟨hS, hO⟩, fun h => by omega⟩⟩
        show w1.trace ++ [(o', a)] = _
        rw [ht, take_succ_reduceOption L i o' hget]
        simp
    · -- the slot of `o`
      subst heq
      obtain ⟨hS, hO⟩ := hA (le_refl _)
      have hget' : L[pre.length]? = some (some o) := by
        show sb.observers_[pre.length]? = _
        rw [hL, List.getElem?_append_right (le_refl _)]
        simp
      have hs1 : w1.subjects s = some { sb with notify_counter_ := 1 } := by
        rw [hS]; simp [SA, set_subject]
      have ho1 : w1.observers o = some ob := by rw [hO]; exact ho
      have hrun : observer.on_notify (run (fuel + 1)) w1 o a = .done
          (set_subject (set_observer { w1 with trace := w1.trace ++ [(o, a)] } o
            { ob with subjects_ := erase_last s ob.subjects_ }) s
            { observers_ := replace_last (some o) none sb.observers_, notify_counter_ := 1 }) := by
        simp only [observer.on_notify, ho1, hf, hbody]
        show (exec (fuel + 1) (Stmt.remove_observer s o) _).bind _ = _
        simp only [exec]
        rw [remove_observer_eq { w1 with trace := w1.trace ++ [(o, a)] } s o
          { sb with notify_counter_ := 1 } ob hs1 ho1]
        simp [Outcome.bind, run_body, hf]
      refine ⟨{ sb with notify_counter_ := 1 }, hs1, Or.inr ⟨o, _, hget', hrun, ?_⟩⟩
      · refine ⟨?_, fun h => by omega, fun _ => ⟨?_, ?_⟩⟩
        · show w1.trace ++ [(o, a)] = _
          rw [ht, take_succ_reduceOption L pre.length o hget']
          simp
        · funext x
          by_cases hx : x = s
          · subst hx; simp [SB, set_subject, set_observer, hrl]
          · simp [SB, set_subject, set_observer, hx, hS, SA]
        · funext x
          by_cases hx : x = o
          · subst hx; simp [OB, set_subject, set_observer, hel]
          · simp [OB, set_subject, set_observer, hx, hO]
    · -- after the slot of `o`
      obtain ⟨hS, hO⟩ := hB hgt
      have hLi : L[i]? = (pre ++ none :: post)[i]? := by
        show sb.observers_[i]? = _
        rw [hL, List.getElem?_append_right (by omega), List.getElem?_append_right (by omega)]
        obtain ⟨k, hk⟩ : ∃ k, i - pre.length = k + 1 := ⟨i - pre.length - 1, by omega⟩
        rw [hk]; rfl
      have hpost' : L[i]? = post[i - pre.length - 1]? := by
        show sb.observers_[i]? = _
        rw [hL, List.getElem?_append_right (by omega)]
        obtain ⟨k, hk⟩ : ∃ k, i - pre.length = k + 1 := ⟨i - pre.length - 1, by omega⟩
        rw [hk]; simp
      cases hx : L[i] with
      | none => rw [hx] at hmem; exact absurd hmem hnp
      | some o' =>
        rw [hx] at hget hmem
        have hne : o' ≠ o := by
          intro e
          subst e
          have : some o' ∈ post := List.getElem?_mem (by rw [← hpost', hget])
          exact hpost this
        obtain ⟨ob', f', h1, h2, h3⟩ := hothers o' hne hmem
        have ho1 : w1.observers o' = some ob' := by
          rw [hO]; simp [OB, set_observer, hne, h1]
        obtain ⟨out, hrun⟩ := on_notify_quiet fuel w1 o' a ob' f' ho1 h2 h3
        refine ⟨{ observers_ := pre ++ none :: post, notify_counter_ := 1 },
          by rw [hS]; simp [SB, set_subject], Or.inr
          ⟨o', _, by rw [← hLi]; exact hget, hrun, ?_, fun h => by omega, fun _ => ⟨hS, hO⟩⟩⟩
        show w1.trace ++ [(o', a)] = _
        rw [ht, take_succ_reduceOption L i o' hget]
        simp
  have hI0 : I 0 (set_subject w s { sb with notify_counter_ := 1 }) := by
    refine ⟨by simp [set_subject], fun _ => ⟨rfl, rfl⟩, fun h => by omega⟩
  obtain ⟨w2, hloop, ht2, _, hB2⟩ :=
    notify_loop_rule (run (fuel + 1)) s a L.length I hstep L.length 0 _ (by simp) hI0
  obtain ⟨hS2, hO2⟩ := hB2 (by omega)
  have hs2 : w2.subjects s = some { observers_ := pre ++ none :: post, notify_counter_ := 1 } := by
    rw [hS2]; simp [SB, set_subject]
  have hfin : (pre ++ none :: post).filter (fun x => x.isSome) = pre ++ post := by
    rw [List.filter_append, List.filter_cons]
    simp [filter_isSome_of_no_null _ hnpre, filter_isSome_of_no_null _ hnpost]
  have herase : sb.observers_.erase (some o) = pre ++ post := by
    rw [hL, List.erase_append_right _ hpre]; simp
  refine ⟨set_subject w2 s { observers_ := pre ++ post, notify_counter_ := 0 },
    ?_, ?_, ?_, ?_, ?_, ?_, ?_, ?_⟩
  · rw [exec_call]
    simp only [subject.call, hs, hidle]
    simp only [zero_add]
    rw [if_neg (by decide), hloop]
    simp [Outcome.bind, finish_call, hs2, hfin]
  · show w2.trace = _
    rw [ht2, List.take_length]
  · rw [count_reduceOption]; exact hone
  · simp [slots, set_subject, herase]
  · simp [slots, set_subject, hpre, hpost]
  · simp [slots, set_subject, hnpre, hnpost]
  · show s ∉ backrefs w2 o
    simp [backrefs, hO2, OB, set_observer, hpre2, hpost2]
  · simp [depth, set_subject]

/-- C6 at a concrete state: the pass serves 11, 10, 12; afterwards subject 1
holds `[11, 12]` and observer 10 holds only subject 2. -/
theorem C6_self_removal_during_dispatch_witness :
    ∃ w', exec 2 (.call 1 7) self_remover = .done w' ∧
      w'.trace = [(11, 7), (10, 7), (12, 7)] ∧
      slots w' 1 = [some 11, some 12] ∧ backrefs w' 10 = [2] ∧ w'.output = [18, 19] := by
  obtain ⟨w', h1, h2, _, h4, _⟩ :=
    C6_self_removal_during_dispatch 0 self_remover 1 10 7
      { observers_ := [some 11, some 10, some 12], notify_counter_ := 0 }
      { function_ := some (fun _ => [Stmt.remove_observer 1 10]), subjects_ := [1, 2] }
      (fun _ => [Stmt.remove_observer 1 10])
      rfl rfl (by decide) rfl rfl rfl (by decide) (by decide)
      (by
        intro o' hne hmem
        simp only [List.mem_cons, Option.some.injEq, List.mem_singleton] at hmem
        rcases hmem with h | h | h | h
        · subst h
          exact ⟨_, _, rfl, rfl, fun st hst => ⟨11 + 7, by simpa using hst⟩⟩
        · exact absurd h hne
        · subst h
          exact ⟨_, _, rfl, rfl, fun st hst => ⟨12 + 7, by simpa using hst⟩⟩
        · cases h)
  have h : w' = _ := Outcome.done.inj (h1.symm.trans rfl)
  exact ⟨w', h1, h2, h4, by rw [h]; rfl, by rw [h]; rfl⟩

theorem SameCallbacks.live {α : Type} {w w1 : World α} (h : SameCallbacks w w1) (p : Addr)
    (hp : (w.observers p).isSome) : ∃ ob, w1.observers p = some ob := by
  have := h p
  cases h1 : w1.observers p with
  | none =>
    rw [h1] at this
    cases h0 : w.observers p with
    | none => rw [h0] at hp; cases hp
    | some _ => rw [h0] at this; cases this
  | some ob => exact ⟨ob, rfl⟩

theorem run_adder {α : Type} (fuel : Nat) (w : World α) (s : Addr) (body : List (Stmt α))
    (hb : Adder (fun p => (w.observers p).isSome) s body) :
    ∀ (w1 : World α) (sb1 : subject), SameCallbacks w w1 → w1.subjects s = some sb1 →
      ∃ w2, run (fuel + 1) body w1 = .done w2 ∧ SameCallbacks w w2 ∧
        w2.subjects s = some
          { sb1 with observers_ := sb1.observers_ ++ (added s body).map some } ∧
        w2.trace = w1.trace := by
  induction body with
  | nil =>
    intro w1 sb1 hc hs1
    exact ⟨w1, rfl, hc, by simp [added, hs1], rfl⟩
  | cons st rest ih =>
    intro w1 sb1 hc hs1
    have hrest : Adder (fun p => (w.observers p).isSome) s rest :=
      fun st h => hb st (by simp [h])
    rcases hb st (by simp) with ⟨v, rfl⟩ | ⟨p, rfl, hp⟩
    · obtain ⟨w2, e1, e2, e3, e4⟩ := ih hrest { w1 with output := w1.output ++ [v] } sb1 hc hs1
      refine ⟨w2, ?_, e2, by simpa [added] using e3, e4⟩
      show (exec (fuel + 1) (Stmt.emit v) w1).bind (run_body (exec (fuel + 1)) rest) = _
      simp only [exec, Outcome.bind]
      exact e1
    · obtain ⟨obp, hobp⟩ := hc.live p hp
      have hc1 : SameCallbacks w (set_observer
          (set_subject w1 s { sb1 with observers_ := sb1.observers_ ++ [some p] })
          p { obp with subjects_ := obp.subjects_ ++ [s] }) := by
        intro o
        by_cases ho : o = p
        · subst ho
          have := hc o
          rw [hobp] at this
          simpa [set_observer, set_subject] using this
        · simpa [set_observer, set_subject, ho] using hc o
      obtain ⟨w2, e1, e2, e3, e4⟩ := ih hrest _
        { sb1 with observers_ := sb1.observers_ ++ [some p] } hc1
        (by simp [set_observer, set_subject])
      refine ⟨w2, ?_, e2, by simpa [added] using e3, e4⟩
      show (exec (fuel + 1) (Stmt.add_observer s p) w1).bind
        (run_body (exec (fuel + 1)) rest) = _
      simp only [exec]
      rw [add_observer_eq w1 s p sb1 obp hs1 hobp]
      simp only [Outcome.bind]
      exact e1

theorem adder_pass {α : Type} (fuel : Nat) (w : World α) (s : Addr) (a : α) (sb : subject)
    (hs : w.subjects s = some sb) (hidle : sb.notify_counter_ = 0)
    (hnp : none ∉ sb.observers_)
    (hlive : ∀ o, some o ∈ sb.observers_ → (w.observers o).isSome)
    (hcb : ∀ o ob, w.observers o = some ob →
      ∃ f, ob.function_ = some f ∧ ∀ x, Adder (fun p => (w.observers p).isSome) s (f x)) :
    ∃ w', exec (fuel + 2) (.call s a) w = .done w' ∧
      w'.trace = w.trace ++ sb.observers_.reduceOption.map (fun x => (x, a)) ∧
      w'.subjects s = some
        { observers_ := sb.observers_ ++ (news w s a sb.observers_).map some,
          notify_counter_ := 0 } ∧
      SameCallbacks w w' := by
  let L := sb.observers_
  let I : Nat → World α → Prop := fun i w1 =>
    w1.subjects s = some
      { observers_ := L ++ (news w s a (L.take i)).map some, notify_counter_ := 1 } ∧
    SameCallbacks w w1 ∧
    w1.trace = w.trace ++ ((L.take i).reduceOption).map (fun x => (x, a))
  have hstep : ∀ i w1, I i w1 → i < L.length → ∃ sb1, w1.subjects s = some sb1 ∧
      ((sb1.observers_[i]? = some none ∧ I (i + 1) w1) ∨
       (∃ o' w2, sb1.observers_[i]? = some (some o') ∧
          observer.on_notify (run (fuel + 1)) w1 o' a = .done w2 ∧ I (i + 1) w2)) := by
    intro i w1 hI hi
    obtain ⟨hS, hC, hT⟩ := hI
    have hget : L[i]? = some L[i] := List.getElem?_eq_getElem hi
    have hmem : L[i] ∈ L := List.getElem_mem hi
    cases hx : L[i] with
    | none => rw [hx] at hmem; exact absurd hmem hnp
    | some o =>
      rw [hx] at hget hmem
      obtain ⟨ob1, hob1⟩ := hC.live o (hlive o hmem)
      obtain ⟨ob0, hob0⟩ := Option.isSome_iff_exists.mp (hlive o hmem)
      obtain ⟨f, hf, hadd⟩ := hcb o ob0 hob0
      have hf1 : ob1.function_ = some f := by
        have := hC o
        rw [hob1, hob0] at this
        simp at this
        rw [this, hf]
      have hbody : callback_body w o a = f a := by
        simp [callback_body, hob0, hf]
      obtain ⟨w2, e1, e2, e3, e4⟩ := run_adder fuel w s (f a) (hadd a)
        { w1 with trace := w1.trace ++ [(o, a)] } _ hC hS
      refine ⟨_, hS, Or.inr ⟨o, w2, ?_, ?_, ?_, e2, ?_⟩⟩
      · show (L ++ _)[i]? = _
        rw [List.getElem?_append_left hi]; exact hget
      · simp only [observer.on_notify, hob1, hf1]
        exact e1
      · rw [e3]
        simp only [news, take_succ_reduceOption L i o hget, List.flatMap_append,
          List.flatMap_singleton, hbody, List.map_append, List.append_assoc]
      · rw [e4]
        show w1.trace ++ [(o, a)] = _
        rw [hT, take_succ_reduceOption L i o hget]
        simp
  have hI0 : I 0 (set_subject w s { sb with notify_counter_ := 1 }) := by
    refine ⟨by simp [set_subject, news, L], fun _ => rfl, by simp [set_subject]⟩
  obtain ⟨w2, hloop, hS2, hC2, hT2⟩ :=
    notify_loop_rule (run (fuel + 1)) s a L.length I hstep L.length 0 _ (by simp) hI0
  have hfin : (L ++ (news w s a (L.take L.length)).map some).filter (fun x => x.isSome)
      = L ++ (news w s a L).map some := by
    rw [List.take_length]
    apply filter_isSome_of_no_null
    simp only [List.mem_append, List.mem_map, not_or]
    exact ⟨hnp, by simp⟩
  refine ⟨set_subject w2 s
    { observers_ := L ++ (news w s a L).map some, notify_counter_ := 0 }, ?_, ?_, ?_, ?_⟩
  · rw [exec_call]
    simp only [subject.call, hs, hidle]
    simp only [zero_add]
    rw [if_neg (by decide), hloop]
    simp only [Outcome.bind, finish_call, hS2, hfin]
    simp
  · show w2.trace = _
    rw [hT2, List.take_length]
  · simp [set_subject, L]
  · exact hC2

theorem reduceOption_map_some (l : List Addr) : (l.map some).reduceOption = l := by
  induction l with
  | nil => rfl
  | cons x rest ih => simp [List.reduceOption_cons_of_some, ih]

theorem added_live {α : Type} (live : Addr → Prop) (s : Addr) (body : List (Stmt α))
    (hb : Adder live s body) : ∀ p ∈ added s body, live p := by
  induction body with
  | nil => intro p hp; simp [added] at hp
  | cons st rest ih =>
    intro p hp
    have hrest : Adder live s rest := fun st h => hb st (by simp [h])
    rcases hb st (by simp) with ⟨v, rfl⟩ | ⟨q, rfl, hq⟩
    · exact ih hrest p (by simpa [added] using hp)
    · simp only [added, if_true, List.mem_cons] at hp
      rcases hp with rfl | hp
      · exact hq
      · exact ih hrest p hp

/-- C7: let `S` be idle with a list `L` without placeholder, and let every
callback consist of marks and of `add_observer(S, P)` calls on live observers
`P`. Then invoking `S` returns normally and notifies exactly the slots of `L`,
once each and in order: the slots appended during the pass are not visited.
After the pass the list of `S` is `L` followed by the observers that were
added, in the order of their addition, and the counter is zero; the next
invocation returns normally and notifies all of them, so every observer `P`
that was added is in the list of `S` and is notified by the next pass. -/
theorem C7_addition_during_dispatch {α : Type} (fuel : Nat) (w : World α) (s : Addr)
    (a a2 : α) (sb : subject)
    (hs : w.subjects s = some sb) (hidle : sb.notify_counter_ = 0)
    (hnp : none ∉ sb.observers_)
    (hlive : ∀ o, some o ∈ sb.observers_ → (w.observers o).isSome)
    (hcb : ∀ o ob, w.observers o = some ob →
      ∃ f, ob.function_ = some f ∧ ∀ x, Adder (fun p => (w.observers p).isSome) s (f x)) :
    ∃ w' w'', exec (fuel + 2) (.call s a) w = .done w' ∧
      w'.trace = w.trace ++ sb.observers_.reduceOption.map (fun x => (x, a)) ∧
      slots w' s = sb.observers_ ++ (news w s a sb.observers_).map some ∧
      depth w' s = 0 ∧
      exec (fuel + 2) (.call s a2) w' = .done w'' ∧
      w''.trace = w'.trace ++
        (sb.observers_.reduceOption ++ news w s a sb.observers_).map (fun x => (x, a2)) ∧
      ∀ p ∈ news w s a sb.observers_,
        some p ∈ slots w' s ∧
        (p, a2) ∈ (sb.observers_.reduceOption ++ news w s a sb.observers_).map
          (fun x => (x, a2)) := by
  obtain ⟨w', e1, e2, e3, e4⟩ := adder_pass fuel w s a sb hs hidle hnp hlive hcb
  have hnews : ∀ p ∈ news w s a sb.observers_, (w.observers p).isSome := by
    intro p hp
    simp only [news, List.mem_flatMap] at hp
    obtain ⟨o, ho, hp⟩ := hp
    have hso : some o ∈ sb.observers_ := List.reduceOption_mem_iff.mp ho
    obtain ⟨ob0, hob0⟩ := Option.isSome_iff_exists.mp (hlive o hso)
    obtain ⟨f, hf, hadd⟩ := hcb o ob0 hob0
    have hbody : callback_body w o a = f a := by simp [callback_body, hob0, hf]
    rw [hbody] at hp
    exact added_live _ s (f a) (hadd a) p hp
  have hlive' : ∀ p, (w.observers p).isSome → (w'.observers p).isSome := by
    intro p hp
    obtain ⟨ob, hob⟩ := e4.live p hp
    simp [hob]
  obtain ⟨w'', f1, f2, _, _⟩ := adder_pass fuel w' s a2
    { observers_ := sb.observers_ ++ (news w s a sb.observers_).map some, notify_counter_ := 0 }
    e3 rfl
    (by
      simp only [List.mem_append, List.mem_map, not_or]
      exact ⟨hnp, by simp⟩)
    (by
      intro o ho
      simp only [List.mem_append, List.mem_map, Option.some.injEq, exists_eq_right] at ho
      rcases ho with ho | ho
      · exact hlive' o (hlive o ho)
      · exact hlive' o (hnews o ho))
    (by
      intro o ob' hob'
      have hc := e4 o
      rw [hob'] at hc
      cases h0 : w.observers o with
      | none => rw [h0] at hc; cases hc
      | some ob0 =>
        rw [h0] at hc
        simp only [Option.map_some', Option.some.injEq] at hc
        obtain ⟨f, hf, hadd⟩ := hcb o ob0 h0
        refine ⟨f, by rw [hc, hf], fun x st hst => ?_⟩
        rcases hadd x st hst with h | ⟨p, hp1, hp2⟩
        · exact Or.inl h
        · exact Or.inr ⟨p, hp1, hlive' p hp2⟩)
  refine ⟨w', w'', e1, e2, by simp [slots, e3], by simp [depth, e3], f1, ?_, ?_⟩
  · rw [f2, List.reduceOption_append, reduceOption_map_some]
  · intro p hp
    refine ⟨?_, ?_⟩
    · simp [slots, e3, hp]
    · simp only [List.mem_map, List.mem_append]
      exact ⟨p, Or.inr hp, rfl⟩

/-- C7 at a concrete state: the first pass serves 10 and 11 only, the second
pass serves 10, 11 and the observer 12 that the first pass added. -/
theorem C7_addition_during_dispatch_witness :
    ∃ w' w'', exec 2 (.call 1 7) late_joiner = .done w' ∧
      w'.trace = [(10, 7), (11, 7)] ∧ slots w' 1 = [some 10, some 11, some 12] ∧
      exec 2 (.call 1 8) w' = .done w'' ∧
      w''.trace = [(10, 7), (11, 7), (10, 8), (11, 8), (12, 8)] := by
  obtain ⟨w', w'', h1, h2, h3, _, h5, h6, _⟩ :=
    C7_addition_during_dispatch 0 late_joiner 1 7 8
      { observers_ := [some 10, some 11], notify_counter_ := 0 } rfl rfl (by decide)
      (by
        intro o ho
        simp only [List.mem_cons, Option.some.injEq, List.mem_singleton] at ho
        rcases ho with h | h | h
        · subst h; rfl
        · subst h; rfl
        · cases h)
      (by
        intro o ob hob
        by_cases hin : o = 10 ∨ o = 11 ∨ o = 12
        · rcases hin with h | h | h
          · subst h
            have : ob = _ := Option.some.inj (hob.symm.trans rfl)
            subst this
            exact ⟨_, rfl, fun x st hst => Or.inr ⟨12, by simpa using hst, rfl⟩⟩
          · subst h
            have : ob = _ := Option.some.inj (hob.symm.trans rfl)
            subst this
            exact ⟨_, rfl, fun x st hst => Or.inl ⟨11 + x, by simpa using hst⟩⟩
          · subst h
            have : ob = _ := Option.some.inj (hob.symm.trans rfl)
            subst this
            exact ⟨_, rfl, fun x st hst => Or.inl ⟨12 + x, by simpa using hst⟩⟩
        · have : late_joiner.observers o = none := by
            have hn : o ∉ [10, 11, 12] := by simpa using hin
            simp only [late_joiner, World.of_links, hn, if_false]
          rw [this] at hob
          cases hob)
  have hw : w' = _ := Outcome.done.inj (h1.symm.trans rfl)
  refine ⟨w', w'', h1, h2, ?_, h5, ?_⟩
  · rw [hw]; rfl
  · rw [h6, h2]; rfl

theorem Thinned.refl (l : List (Option Addr)) : Thinned l l :=
  List.forall₂_same.mpr (fun _ _ => Or.inl rfl)

theorem Thinned.trans {l1 l2 l3 : List (Option Addr)} (h12 : Thinned l1 l2)
    (h23 : Thinned l2 l3) : Thinned l1 l3 := by
  unfold Thinned at *
  induction h12 generalizing l3 with
  | nil => cases h23; exact List.Forall₂.nil
  | cons hxy _ ih =>
    cases h23 with
    | cons hyz hrest =>
      refine List.Forall₂.cons ?_ (ih hrest)
      rcases hyz with rfl | rfl
      · exact hxy
      · exact Or.inr rfl

theorem Thinned.length_eq {l l' : List (Option Addr)} (h : Thinned l l') :
    l'.length = l.length :=
  (List.Forall₂.length_eq h).symm

theorem Thinned.sublist {l l' : List (Option Addr)} (h : Thinned l l') :
    l'.reduceOption.Sublist l.reduceOption := by
  unfold Thinned at h
  induction h with
  | nil => exact List.Sublist.refl _
  | @cons x y _ _ hxy _ ih =>
    rcases hxy with rfl | rfl
    · cases y with
      | none => simpa [List.reduceOption_cons_of_none] using ih
      | some v => simpa [List.reduceOption_cons_of_some] using ih
    · cases x with
      | none => simpa [List.reduceOption_cons_of_none] using ih
      | some v =>
        simp only [List.reduceOption_cons_of_none, List.reduceOption_cons_of_some]
        exact List.Sublist.cons _ ih

theorem Thinned.getElem {l l' : List (Option Addr)} (h : Thinned l l') (i : Nat)
    (x : Option Addr) (hx : l[i]? = some x) : l'[i]? = some x ∨ l'[i]? = some none := by
  unfold Thinned at h
  induction h generalizing i with
  | nil => simp at hx
  | cons hxy _ ih =>
    cases i with
    | zero =>
      simp only [List.getElem?_cons_zero, Option.some.injEq] at hx ⊢
      subst hx
      exact hxy
    | succ j =>
      simp only [List.getElem?_cons_succ] at hx ⊢
      exact ih j hx

theorem Thinned.slice {l l' : List (Option Addr)} (h : Thinned l l') (i k : Nat) :
    Thinned ((l.drop i).take k) ((l'.drop i).take k) :=
  List.forall₂_take k (List.forall₂_drop i h)

theorem thinned_replace_last (p : Addr) (l : List (Option Addr)) :
    Thinned l (replace_last (some p) none l) := by
  by_cases h : some p ∈ l
  · obtain ⟨pre, post, e1, _, e3⟩ := replace_last_of_mem (some p) none l h
    rw [e3]
    nth_rewrite 1 [e1]
    exact List.rel_append (Thinned.refl pre)
      (List.Forall₂.cons (Or.inr rfl) (Thinned.refl post))
  · rw [replace_last_of_not_mem _ _ _ h]
    exact Thinned.refl l

theorem slice_succ (l : List (Option Addr)) (i k : Nat) (h : i < l.length) :
    (l.drop i).take (k + 1) = l[i] :: (l.drop (i + 1)).take k := by
  rw [List.drop_eq_getElem_cons h, List.take_succ_cons]

theorem run_remover {α : Type} (fuel : Nat) (w : World α) (s : Addr)
    (l0 : List (Option Addr)) (body : List (Stmt α))
    (hb : Remover (fun p => (w.observers p).isSome) s body) :
    ∀ (w1 : World α), RemovalPass w s l0 w1 →
      ∃ w2, run (fuel + 1) body w1 = .done w2 ∧ RemovalPass w s l0 w2 ∧
        Thinned (slots w1 s) (slots w2 s) ∧ w2.trace = w1.trace := by
  induction body with
  | nil =>
    intro w1 h
    exact ⟨w1, rfl, h, Thinned.refl _, rfl⟩
  | cons st rest ih =>
    intro w1 h
    have hrest : Remover (fun p => (w.observers p).isSome) s rest :=
      fun st h => hb st (by simp [h])
    rcases hb st (by simp) with ⟨v, rfl⟩ | ⟨p, rfl, hp⟩
    · obtain ⟨w2, e1, e2, e3, e4⟩ := ih hrest { w1 with output := w1.output ++ [v] } h
      refine ⟨w2, ?_, e2, e3, e4⟩
      show (exec (fuel + 1) (Stmt.emit v) w1).bind (run_body (exec (fuel + 1)) rest) = _
      simp only [exec, Outcome.bind]
      exact e1
    · obtain ⟨l1, hs1, ht1, hc1⟩ := h
      obtain ⟨obp, hobp⟩ := hc1.live p hp
      have hstep : RemovalPass w s l0 (set_subject
          (set_observer w1 p { obp with subjects_ := erase_last s obp.subjects_ }) s
          { observers_ := replace_last (some p) none l1, notify_counter_ := 1 }) := by
        refine ⟨_, by simp [set_subject], ht1.trans (thinned_replace_last p l1), ?_⟩
        intro o
        by_cases ho : o = p
        · subst ho
          have := hc1 o
          rw [hobp] at this
          simpa [set_observer, set_subject] using this
        · simpa [set_observer, set_subject, ho] using hc1 o
      obtain ⟨w2, e1, e2, e3, e4⟩ := ih hrest _ hstep
      refine ⟨w2, ?_, e2, ?_, e4⟩
      · show (exec (fuel + 1) (Stmt.remove_observer s p) w1).bind
          (run_body (exec (fuel + 1)) rest) = _
        simp only [exec]
        rw [remove_observer_eq w1 s p _ obp hs1 hobp]
        simp only [Outcome.bind]
        rw [if_neg (by decide)]
        exact e1
      · have h1 : slots w1 s = l1 := by simp [slots, hs1]
        rw [h1]
        refine (thinned_replace_last p l1).trans ?_
        simpa [slots, set_subject] using e3

theorem on_notify_remover {α : Type} (fuel : Nat) (w : World α) (s : Addr) (a : α)
    (l0 : List (Option Addr))
    (hcb : ∀ o ob, w.observers o = some ob →
      ∃ f, ob.function_ = some f ∧ ∀ x, Remover (fun p => (w.observers p).isSome) s (f x))
    (w1 : World α) (h : RemovalPass w s l0 w1) (o : Addr) (ho : (w.observers o).isSome) :
    ∃ w2, observer.on_notify (run (fuel + 1)) w1 o a = .done w2 ∧ RemovalPass w s l0 w2 ∧
      Thinned (slots w1 s) (slots w2 s) ∧ w2.trace = w1.trace ++ [(o, a)] := by
  obtain ⟨ob0, hob0⟩ := Option.isSome_iff_exists.mp ho
  obtain ⟨f, hf, hrem⟩ := hcb o ob0 hob0
  obtain ⟨l1, hs1, ht1, hc1⟩ := h
  obtain ⟨ob1, hob1⟩ := hc1.live o ho
  have hf1 : ob1.function_ = some f := by
    have := hc1 o
    rw [hob1, hob0] at this
    simp at this
    rw [this, hf]
  obtain ⟨w2, e1, e2, e3, e4⟩ := run_remover fuel w s l0 (f a) (hrem a)
    { w1 with trace := w1.trace ++ [(o, a)] } ⟨l1, hs1, ht1, hc1⟩
  exact ⟨w2, by simp only [observer.on_notify, hob1, hf1]; exact e1, e2, e3, e4⟩

theorem notify_loop_split {α : Type} (rn : List (Stmt α) → World α → Outcome (World α))
    (s : Addr) (a : α) (k2 : Nat) :
    ∀ (k1 i : Nat) (w : World α),
      notify_loop rn s a (k1 + k2) i w =
        (notify_loop rn s a k1 i w).bind (notify_loop rn s a k2 (i + k1)) := by
  intro k1
  induction k1 with
  | zero => intro i w; simp [notify_loop, Outcome.bind]
  | succ k ih =>
    intro i w
    have e : k + 1 + k2 = (k + k2) + 1 := by omega
    rw [e]
    simp only [notify_loop]
    cases hs : w.subjects s with
    | none => simp [Outcome.bind]
    | some sb =>
      simp only []
      cases hg : sb.observers_[i]? with
      | none => simp [Outcome.bind]
      | some x =>
        cases x with
        | none =>
          simp only []
          rw [ih (i + 1) w]
          have : i + 1 + k = i + (k + 1) := by omega
          rw [this]
        | some o =>
          simp only []
          cases hc : observer.on_notify rn w o a with
          | done w2 =>
            simp only [Outcome.bind]
            rw [ih (i + 1) w2]
            have : i + 1 + k = i + (k + 1) := by omega
            rw [this]
            rfl
          | fault f => simp [Outcome.bind]
          | timeout => simp [Outcome.bind]

theorem thinned_source {l0 l1 : List (Option Addr)} (h : Thinned l0 l1) (i : Nat) (o : Addr)
    (h1 : l1[i]? = some (some o)) : l0[i]? = some (some o) := by
  have hi : i < l0.length := by
    rw [← h.length_eq]
    exact (List.getElem?_eq_some_iff.mp h1).1
  have h0 : l0[i]? = some l0[i] := List.getElem?_eq_getElem hi
  rcases h.getElem i _ h0 with e | e
  · rw [h1] at e
    rw [h0, ← Option.some.inj e]
  · rw [h1] at e
    cases e

theorem remover_loop {α : Type} (fuel : Nat) (w : World α) (s : Addr) (a : α)
    (l0 : List (Option Addr))
    (hlive : ∀ o, some o ∈ l0 → (w.observers o).isSome)
    (hcb : ∀ o ob, w.observers o = some ob →
      ∃ f, ob.function_ = some f ∧ ∀ x, Remover (fun p => (w.observers p).isSome) s (f x)) :
    ∀ (k i : Nat) (w1 : World α), RemovalPass w s l0 w1 → i + k ≤ l0.length →
      ∃ w2 called, notify_loop (run (fuel + 1)) s a k i w1 = .done w2 ∧
        RemovalPass w s l0 w2 ∧ Thinned (slots w1 s) (slots w2 s) ∧
        w2.trace = w1.trace ++ called.map (fun x => (x, a)) ∧
        called.Sublist (((slots w1 s).drop i).take k).reduceOption ∧
        ((((slots w2 s).drop i).take k).reduceOption).Sublist called := by
  intro k
  induction k with
  | zero =>
    intro i w1 h _
    exact ⟨w1, [], rfl, h, Thinned.refl _, by simp, by simp, by simp⟩
  | succ k ih =>
    intro i w1 h hik
    obtain ⟨l1, hs1, ht1, hc1⟩ := h
    have hsl1 : slots w1 s = l1 := by simp [slots, hs1]
    have hi : i < l1.length := by rw [ht1.length_eq]; omega
    have hget : l1[i]? = some l1[i] := List.getElem?_eq_getElem hi
    cases hx : l1[i] with
    | none =>
      rw [hx] at hget
      obtain ⟨w2, called, e1, e2, e3, e4, e5, e6⟩ :=
        ih (i + 1) w1 ⟨l1, hs1, ht1, hc1⟩ (by omega)
      refine ⟨w2, called, ?_, e2, e3, e4, ?_, ?_⟩
      · simp only [notify_loop, hs1, hget]
        exact e1
      · rw [hsl1, slice_succ l1 i k hi, hx, List.reduceOption_cons_of_none]
        rw [hsl1] at e5
        exact e5
      · have hi2 : i < (slots w2 s).length := by
          rw [e3.length_eq, hsl1]; exact hi
        have hn : (slots w2 s)[i]? = some none := by
          rw [hsl1] at e3
          rcases e3.getElem i _ hget with e | e <;> exact e
        have hn' : (slots w2 s)[i] = none := by
          have := List.getElem?_eq_getElem hi2
          rw [hn] at this
          exact (Option.some.inj this).symm
        rw [slice_succ _ i k hi2, hn', List.reduceOption_cons_of_none]
        exact e6
    | some o =>
      rw [hx] at hget
      have hsrc : l0[i]? = some (some o) := thinned_source ht1 i o hget
      have hol : (w.observers o).isSome := hlive o (List.getElem?_mem hsrc)
      obtain ⟨w1', c1, c2, c3, c4⟩ :=
        on_notify_remover fuel w s a l0 hcb w1 ⟨l1, hs1, ht1, hc1⟩ o hol
      obtain ⟨w2, called, e1, e2, e3, e4, e5, e6⟩ := ih (i + 1) w1' c2 (by omega)
      refine ⟨w2, o :: called, ?_, e2, c3.trans e3, ?_, ?_, ?_⟩
      · simp only [notify_loop, hs1, hget, c1, Outcome.bind]
        exact e1
      · rw [e4, c4]; simp
      · rw [hsl1, slice_succ l1 i k hi, hx, List.reduceOption_cons_of_some]
        rw [hsl1] at c3
        exact List.Sublist.cons₂ _ (e5.trans (c3.slice (i + 1) k).sublist)
      · have hi2 : i < (slots w2 s).length := by
          rw [(c3.trans e3).length_eq, hsl1]; exact hi
        have h2 := (c3.trans e3)
        rw [hsl1] at h2
        rw [slice_succ _ i k hi2]
        rcases h2.getElem i _ hget with e | e
        · have : (slots w2 s)[i] = some o := by
            have := List.getElem?_eq_getElem hi2
            rw [e] at this
            exact (Option.some.inj this).symm
          rw [this, List.reduceOption_cons_of_some]
          exact List.Sublist.cons₂ _ e6
        · have : (slots w2 s)[i] = none := by
            have := List.getElem?_eq_getElem hi2
            rw [e] at this
            exact (Option.some.inj this).symm
          rw [this, List.reduceOption_cons_of_none]
          exact List.Sublist.cons _ e6

theorem reduceOption_filter_isSome (l : List (Option Addr)) :
    (l.filter (fun x => x.isSome)).reduceOption = l.reduceOption := by
  induction l with
  | nil => rfl
  | cons x rest ih =>
    cases x with
    | none => simp [List.filter_cons, List.reduceOption_cons_of_none, ih]
    | some v => simp [List.filter_cons, List.reduceOption_cons_of_some, ih]

theorem no_null_filter_isSome (l : List (Option Addr)) :
    none ∉ l.filter (fun x => x.isSome) := by
  intro h
  have := (List.mem_filter.mp h).2
  simp at this

/-- C8: let `S` be idle with a list `L` of length `n` of live observers, and
let every callback consist of marks and of `remove_observer(S, P)` calls on
live observers `P`. Then the invocation returns normally, and
* for every index `i < n` the pass reaches `i` (state `wi`) and leaves it
  (state `wj`); at `wi` the list still has length `n`, and slot `i` is either
  the placeholder, and then nothing is notified, or still `L[i]`, and then
  exactly that observer is notified once;
* the observers notified, in order, form a sublist of `L`, and the slots that
  are live after the call form a sublist of the observers notified: nothing
  is served twice or out of order, and nothing that stays linked is skipped;
* so an observer none of whose links was removed is notified once per link. -/
theorem C8_removal_never_skips {α : Type} (fuel : Nat) (w : World α) (s : Addr) (a : α)
    (sb : subject)
    (hs : w.subjects s = some sb) (hidle : sb.notify_counter_ = 0)
    (hlive : ∀ o, some o ∈ sb.observers_ → (w.observers o).isSome)
    (hcb : ∀ o ob, w.observers o = some ob →
      ∃ f, ob.function_ = some f ∧ ∀ x, Remover (fun p => (w.observers p).isSome) s (f x)) :
    ∃ w' wn called,
      notify_loop (run (fuel + 1)) s a sb.observers_.length 0 (enter w s) = .done wn ∧
      finish_call wn s = .done w' ∧
      exec (fuel + 2) (.call s a) w = .done w' ∧
      w'.trace = w.trace ++ called.map (fun x => (x, a)) ∧
      called.Sublist sb.observers_.reduceOption ∧
      (slots w' s).reduceOption.Sublist called ∧
      none ∉ slots w' s ∧ depth w' s = 0 ∧
      (∀ o, (slots w' s).count (some o) = sb.observers_.count (some o) →
        called.count o = sb.observers_.count (some o)) ∧
      (∀ i, i < sb.observers_.length → ∃ wi wj,
        notify_loop (run (fuel + 1)) s a i 0 (enter w s) = .done wi ∧
        notify_loop (run (fuel + 1)) s a (i + 1) 0 (enter w s) = .done wj ∧
        (slots wi s).length = sb.observers_.length ∧
        (((slots wi s)[i]? = some none ∧ wj.trace = wi.trace) ∨
         ((slots wi s)[i]? = sb.observers_[i]? ∧
            ∃ o, sb.observers_[i]? = some (some o) ∧ wj.trace = wi.trace ++ [(o, a)]))) := by
  have hent : enter w s = set_subject w s { sb with notify_counter_ := 1 } := by
    simp [enter, modify_subject, hs, hidle]
  have h0 : RemovalPass w s sb.observers_ (enter w s) := by
    rw [hent]
    exact ⟨sb.observers_, by simp [set_subject], Thinned.refl _, fun _ => rfl⟩
  have hsl0 : slots (enter w s) s = sb.observers_ := by
    rw [hent]; simp [slots, set_subject]
  obtain ⟨wn, called, e1, e2, e3, e4, e5, e6⟩ :=
    remover_loop fuel w s a sb.observers_ hlive hcb sb.observers_.length 0 (enter w s) h0
      (by simp)
  obtain ⟨ln, hsn, htn, _⟩ := e2
  have hsln : slots wn s = ln := by simp [slots, hsn]
  have hlen : ln.length = sb.observers_.length := htn.length_eq
  have hfin : finish_call wn s = .done (set_subject wn s
      { observers_ := ln.filter (fun x => x.isSome), notify_counter_ := 0 }) := by
    simp [finish_call, hsn]
  have hslw : slots (set_subject wn s
      { observers_ := ln.filter (fun x => x.isSome), notify_counter_ := 0 }) s
      = ln.filter (fun x => x.isSome) := by
    simp [slots, set_subject]
  have hsub1 : called.Sublist sb.observers_.reduceOption := by
    rw [hsl0] at e5
    simpa using e5
  have hsub2 : (ln.filter (fun x => x.isSome)).reduceOption.Sublist called := by
    rw [reduceOption_filter_isSome]
    rw [hsln] at e6
    have : (List.drop 0 ln).take sb.observers_.length = ln := by
      rw [← hlen]; simp
    rw [this] at e6
    exact e6
  refine ⟨_, wn, called, e1, hfin, ?_, ?_, hsub1, ?_, ?_, ?_, ?_, ?_⟩
  · rw [exec_call]
    simp only [subject.call, hs, hidle]
    simp only [zero_add]
    rw [if_neg (by decide), ← hent, e1]
    simp only [Outcome.bind]
    exact hfin
  · show wn.trace = _
    rw [e4, hent]
    simp [set_subject]
  · rw [hslw]; exact hsub2
  · rw [hslw]; exact no_null_filter_isSome ln
  · simp [depth, set_subject]
  · intro o ho
    rw [hslw] at ho
    have h1 := hsub1.count_le o
    have h2 := hsub2.count_le o
    rw [count_reduceOption] at h1 h2
    omega
  · intro i hi
    obtain ⟨wi, ci, f1, f2, f3, _, _, _⟩ :=
      remover_loop fuel w s a sb.observers_ hlive hcb i 0 (enter w s) h0 (by omega)
    obtain ⟨li, hsi, hti, hci⟩ := f2
    have hsli : slots wi s = li := by simp [slots, hsi]
    have hleni : li.length = sb.observers_.length := hti.length_eq
    have hgeti : li[i]? = some li[i] := List.getElem?_eq_getElem (by omega)
    have hsplit := notify_loop_split (run (fuel + 1)) s a 1 i 0 (enter w s)
    rw [f1] at hsplit
    simp only [Outcome.bind, zero_add] at hsplit
    cases hx : li[i] with
    | none =>
      rw [hx] at hgeti
      refine ⟨wi, wi, f1, ?_, by rw [hsli, hleni], Or.inl ⟨by rw [hsli]; exact hgeti, rfl⟩⟩
      rw [hsplit]
      simp [notify_loop, hsi, hgeti]
    | some o =>
      rw [hx] at hgeti
      have hsrc : sb.observers_[i]? = some (some o) := thinned_source hti i o hgeti
      obtain ⟨wj, c1, _, _, c4⟩ :=
        on_notify_remover fuel w s a sb.observers_ hcb wi ⟨li, hsi, hti, hci⟩ o
          (hlive o (List.getElem?_mem hsrc))
      refine ⟨wi, wj, f1, ?_, by rw [hsli, hleni],
        Or.inr ⟨by rw [hsli, hgeti, hsrc], o, hsrc, c4⟩⟩
      rw [hsplit]
      simp [notify_loop, hsi, hgeti, c1, Outcome.bind]

/-- C8 at a concrete state: the pass serves 12, then 10, whose callback
removes 11 and 10; slot 2 is then a placeholder and is passed over, and 13 is
still served; afterwards subject 1 holds `[12, 13]`. -/
theorem C8_removal_never_skips_witness :
    ∃ w', exec 2 (.call 1 7) remover_world = .done w' ∧
      w'.trace = [(12, 7), (10, 7), (13, 7)] ∧ slots w' 1 = [some 12, some 13] ∧
      backrefs w' 11 = [] := by
  obtain ⟨w', _, _, _, _, h3, _⟩ :=
    C8_removal_never_skips 0 remover_world 1 7
      { observers_ := [some 12, some 10, some 11, some 13], notify_counter_ := 0 } rfl rfl
      (by
        intro o ho
        simp only [List.mem_cons, Option.some.injEq, List.mem_singleton] at ho
        rcases ho with h | h | h | h | h
        · subst h; rfl
        · subst h; rfl
        · subst h; rfl
        · subst h; rfl
        · cases h)
      (by
        intro o ob hob
        by_cases hin : o = 10 ∨ o = 11 ∨ o = 12 ∨ o = 13
        · rcases hin with h | h | h | h
          · subst h
            have : ob = _ := Option.some.inj (hob.symm.trans rfl)
            subst this
            refine ⟨_, rfl, fun x st hst => Or.inr ?_⟩
            simp only [List.mem_cons, List.mem_singleton] at hst
            rcases hst with h | h | h
            · exact ⟨11, h, rfl⟩
            · exact ⟨10, h, rfl⟩
            · cases h
          · subst h
            have : ob = _ := Option.some.inj (hob.symm.trans rfl)
            subst this
            exact ⟨_, rfl, fun x st hst => Or.inl ⟨11 + x, by simpa using hst⟩⟩
          · subst h
            have : ob = _ := Option.some.inj (hob.symm.trans rfl)
            subst this
            exact ⟨_, rfl, fun x st hst => Or.inl ⟨12 + x, by simpa using hst⟩⟩
          · subst h
            have : ob = _ := Option.some.inj (hob.symm.trans rfl)
            subst this
            exact ⟨_, rfl, fun x st hst => Or.inl ⟨13 + x, by simpa using hst⟩⟩
        · have : remover_world.observers o = none := by
            have hn : o ∉ [10, 11, 12, 13] := by simpa using hin
            simp only [remover_world, World.of_links, hn, if_false]
          rw [this] at hob
          cases hob)
  have hw : w' = _ := Outcome.done.inj (h3.symm.trans rfl)
  exact ⟨w', h3, by rw [hw]; rfl, by rw [hw]; rfl, by rw [hw]; rfl⟩

/-! ## The symmetry invariant -/

@[simp] theorem slots_set_subject {α : Type} (w : World α) (s s' : Addr) (sb : subject) :
    slots (set_subject w s sb) s' = if s' = s then sb.observers_ else slots w s' := by
  by_cases h : s' = s <;> simp [slots, set_subject, h]

@[simp] theorem slots_set_observer {α : Type} (w : World α) (o s' : Addr) (ob : observer α) :
    slots (set_observer w o ob) s' = slots w s' := rfl

@[simp] theorem backrefs_set_observer {α : Type} (w : World α) (o o' : Addr)
    (ob : observer α) :
    backrefs (set_observer w o ob) o' = if o' = o then ob.subjects_ else backrefs w o' := by
  by_cases h : o' = o <;> simp [backrefs, set_observer, h]

@[simp] theorem backrefs_set_subject {α : Type} (w : World α) (s o' : Addr) (sb : subject) :
    backrefs (set_subject w s sb) o' = backrefs w o' := rfl

@[simp] theorem slots_drop_subject {α : Type} (w : World α) (s s' : Addr) :
    slots (drop_subject w s) s' = if s' = s then [] else slots w s' := by
  by_cases h : s' = s <;> simp [slots, drop_subject, h]

@[simp] theorem backrefs_drop_subject {α : Type} (w : World α) (s o' : Addr) :
    backrefs (drop_subject w s) o' = backrefs w o' := rfl

@[simp] theorem slots_drop_observer {α : Type} (w : World α) (o s' : Addr) :
    slots (drop_observer w o) s' = slots w s' := rfl

@[simp] theorem backrefs_drop_observer {α : Type} (w : World α) (o o' : Addr) :
    backrefs (drop_observer w o) o' = if o' = o then [] else backrefs w o' := by
  by_cases h : o' = o <;> simp [backrefs, drop_observer, h]

theorem slots_of_some {α : Type} {w : World α} {s : Addr} {sb : subject}
    (h : w.subjects s = some sb) : slots w s = sb.observers_ := by
  simp [slots, h]

theorem slots_of_none {α : Type} {w : World α} {s : Addr}
    (h : w.subjects s = none) : slots w s = [] := by
  simp [slots, h]

theorem backrefs_of_some {α : Type} {w : World α} {o : Addr} {ob : observer α}
    (h : w.observers o = some ob) : backrefs w o = ob.subjects_ := by
  simp [backrefs, h]

theorem backrefs_of_none {α : Type} {w : World α} {o : Addr}
    (h : w.observers o = none) : backrefs w o = [] := by
  simp [backrefs, h]

theorem Sym.congr {α : Type} {w w' : World α} (h : Sym w)
    (hs : ∀ s, slots w' s = slots w s) (hb : ∀ o, backrefs w' o = backrefs w o) : Sym w' := by
  intro s o
  rw [hs, hb]
  exact h s o

theorem count_erase_last {β : Type} [DecidableEq β] [BEq β] [LawfulBEq β] (x y : β)
    (l : List β) :
    (erase_last y l).count x = if x = y then l.count x - 1 else l.count x := by
  by_cases hm : y ∈ l
  · obtain ⟨pre, post, e1, _, e3⟩ := erase_last_of_mem y l hm
    subst e1
    rw [e3]
    by_cases h : x = y
    · subst h; simp [List.count_cons]
    · have : (y == x) = false := by simpa using fun e => h e.symm
      simp [List.count_cons, h, this]
  · rw [erase_last_of_not_mem _ _ hm]
    by_cases h : x = y
    · subst h
      have : l.count x = 0 := List.count_eq_zero.mpr hm
      simp [this]
    · simp [h]

theorem count_replace_first {β : Type} [DecidableEq β] [BEq β] [LawfulBEq β] (x y z : β)
    (hxy : x ≠ y) :
    ∀ (l l' : List β), replace_first x y l = some l' →
      l'.count z + (if z = x then 1 else 0) = l.count z + (if z = y then 1 else 0) := by
  intro l
  induction l with
  | nil => intro l' h; simp [replace_first] at h
  | cons a rest ih =>
    intro l' h
    by_cases ha : a = x
    · subst ha
      simp only [replace_first, if_true, Option.some.injEq] at h
      subst h
      by_cases h1 : z = a <;> by_cases h2 : z = y <;>
        simp [List.count_cons, h1, h2, hxy, Ne.symm hxy, eq_comm]
    · simp only [replace_first, ha, if_false, Option.map_eq_some'] at h
      obtain ⟨r, hr, rfl⟩ := h
      have := ih r hr
      simp only [List.count_cons]
      omega

theorem count_replace_last_none (o o' : Addr) (l : List (Option Addr)) :
    (replace_last (some o) none l).count (some o') =
      if o' = o then l.count (some o') - 1 else l.count (some o') := by
  by_cases hm : some o ∈ l
  · obtain ⟨pre, post, e1, _, e3⟩ := replace_last_of_mem (some o) none l hm
    subst e1
    rw [e3]
    by_cases h : o' = o
    · subst h; simp [List.count_cons]
    · have : (some o == some o') = false := by simpa using fun e => h e.symm
      simp [List.count_cons, h, this]
  · rw [replace_last_of_not_mem _ _ _ hm]
    by_cases h : o' = o
    · subst h
      have : l.count (some o') = 0 := List.count_eq_zero.mpr hm
      simp [this]
    · simp [h]

theorem add_observer_done {α : Type} {w w' : World α} {s o : Addr}
    (h : subject.add_observer w s o = .done w') :
    ∃ sb ob, w.subjects s = some sb ∧ w.observers o = some ob ∧
      w' = set_observer (set_subject w s { sb with observers_ := sb.observers_ ++ [some o] })
        o { ob with subjects_ := ob.subjects_ ++ [s] } := by
  unfold subject.add_observer at h
  cases hs : w.subjects s with
  | none => simp [hs] at h
  | some sb =>
    cases ho : w.observers o with
    | none => simp [hs, ho] at h
    | some ob =>
      simp only [hs, ho, Outcome.done.injEq] at h
      exact ⟨sb, ob, rfl, rfl, h.symm⟩

theorem add_observer_sym {α : Type} {w w' : World α} {s o : Addr} (hsym : Sym w)
    (h : subject.add_observer w s o = .done w') : Sym w' := by
  obtain ⟨sb, ob, hs, ho, rfl⟩ := add_observer_done h
  intro s' o'
  have := hsym s' o'
  simp only [slots_set_observer, slots_set_subject, backrefs_set_observer,
    backrefs_set_subject]
  by_cases h1 : s' = s <;> by_cases h2 : o' = o
  · subst h1; subst h2
    rw [slots_of_some hs, backrefs_of_some ho] at this
    simp [this]
  · subst h1
    rw [slots_of_some hs] at this
    have hne : (some o == some o') = false := by simpa using fun e => h2 e.symm
    simp [h2, List.count_cons, hne, this]
  · subst h2
    rw [backrefs_of_some ho] at this
    have hne : (s == s') = false := by simpa using fun e => h1 e.symm
    simp [h1, List.count_cons, hne, this]
  · simp [h1, h2, this]

theorem remove_observer_done {α : Type} {w w' : World α} {s o : Addr}
    (h : subject.remove_observer w s o = .done w') :
    ∃ sb ob, w.subjects s = some sb ∧ w.observers o = some ob ∧
      w' = set_subject
        (set_observer w o { ob with subjects_ := erase_last s ob.subjects_ }) s
        { sb with observers_ :=
            if sb.notify_counter_ = 0 then erase_last (some o) sb.observers_
            else replace_last (some o) none sb.observers_ } := by
  cases hs : w.subjects s with
  | none => simp [subject.remove_observer, hs] at h
  | some sb =>
    cases ho : w.observers o with
    | none => simp [subject.remove_observer, hs, ho] at h
    | some ob =>
      rw [remove_observer_eq w s o sb ob hs ho] at h
      exact ⟨sb, ob, rfl, rfl, (Outcome.done.inj h).symm⟩

theorem remove_observer_sym {α : Type} {w w' : World α} {s o : Addr} (hsym : Sym w)
    (h : subject.remove_observer w s o = .done w') : Sym w' := by
  obtain ⟨sb, ob, hs, ho, rfl⟩ := remove_observer_done h
  intro s' o'
  have := hsym s' o'
  simp only [slots_set_observer, slots_set_subject, backrefs_set_observer,
    backrefs_set_subject]
  have hcnt : ∀ x : Addr, (if sb.notify_counter_ = 0 then erase_last (some o) sb.observers_
      else replace_last (some o) none sb.observers_).count (some x) =
      if x = o then sb.observers_.count (some x) - 1 else sb.observers_.count (some x) := by
    intro x
    by_cases hz : sb.notify_counter_ = 0
    · simp only [hz, if_true]
      have := count_erase_last (some x) (some o) sb.observers_
      simpa using this
    · simp only [hz, if_false]
      exact count_replace_last_none o x sb.observers_
  by_cases h1 : s' = s <;> by_cases h2 : o' = o
  · subst h1; subst h2
    rw [slots_of_some hs, backrefs_of_some ho] at this
    simp only [if_true, hcnt, count_erase_last]
    omega
  · subst h1
    rw [slots_of_some hs] at this
    simp only [if_true, hcnt, h2, if_false]
    exact this
  · subst h2
    rw [backrefs_of_some ho] at this
    simp only [if_true, h1, if_false, count_erase_last]
    exact this
  · simp only [h1, h2, if_false]
    exact this

theorem unlink_all_backrefs {α : Type} {w w1 : World α} {s : Addr} {l : List (Option Addr)}
    (hsym : Sym w) (hl : slots w s = l) (h : unlink_all s l w = .done w1) :
    w1.subjects = w.subjects ∧
      ∀ o, backrefs w1 o = (backrefs w o).filter (fun x => x ≠ s) := by
  obtain ⟨_, _, e1, _, _, e4⟩ := unlink_all_done s l w w1 h
  refine ⟨e1, ?_⟩
  intro o
  unfold backrefs
  rw [e4 o]
  by_cases hm : some o ∈ l
  · cases ho : w.observers o with
    | none => simp [hm]
    | some ob => simp [hm, unlinked]
  · have h0 : (slots w s).count (some o) = 0 := by
      rw [hl]; exact List.count_eq_zero.mpr hm
    rw [hsym s o] at h0
    have hns : s ∉ backrefs w o := List.count_eq_zero.mp h0
    unfold backrefs at hns
    simp only [hm, if_false]
    cases ho : w.observers o with
    | none => simp
    | some ob =>
      simp only [ho] at hns
      symm
      simp only [List.filter_eq_self]
      intro x hx
      have : x ≠ s := fun e => hns (e ▸ hx)
      simpa using this

theorem count_filter_ne (s x : Addr) (l : List Addr) :
    (l.filter (fun y => y ≠ s)).count x = if x = s then 0 else l.count x := by
  by_cases hx : x = s
  · subst hx
    simp only [if_true]
    apply List.count_eq_zero.mpr
    intro hm
    have := (List.mem_filter.mp hm).2
    simp at this
  · simp only [hx, if_false]
    exact List.count_filter (by simpa using hx)

/-- A world whose links are those of a symmetric world `w` except that
subject `s` holds no observer and no observer holds `s` is symmetric. -/
theorem sym_after_unlink {α : Type} {w w' : World α} (s : Addr) (hsym : Sym w)
    (hs : ∀ o, (slots w' s).count (some o) = 0)
    (hother : ∀ s', s' ≠ s → slots w' s' = slots w s')
    (hb : ∀ o, backrefs w' o = (backrefs w o).filter (fun x => x ≠ s)) : Sym w' := by
  intro s' o
  rw [hb o, count_filter_ne]
  by_cases h : s' = s
  · subst h; simp [hs o]
  · simp only [h, if_false]
    rw [hother s' h]
    exact hsym s' o

theorem count_some_map_none (l : List (Option Addr)) (o : Addr) :
    (l.map (fun _ => (none : Option Addr))).count (some o) = 0 := by
  apply List.count_eq_zero.mpr
  simp

theorem clear_done {α : Type} {w w' : World α} {s : Addr}
    (h : subject.clear w s = .done w') :
    ∃ sb w1, w.subjects s = some sb ∧ unlink_all s sb.observers_ w = .done w1 ∧
      w' = set_subject w1 s { sb with observers_ :=
        if sb.notify_counter_ = 0 then [] else sb.observers_.map (fun _ => none) } := by
  unfold subject.clear at h
  cases hs : w.subjects s with
  | none => simp [hs] at h
  | some sb =>
    simp only [hs] at h
    cases hu : unlink_all s sb.observers_ w with
    | done w1 =>
      simp only [hu, Outcome.bind] at h
      refine ⟨sb, w1, rfl, hu, ?_⟩
      by_cases hz : sb.notify_counter_ = 0
      · simp only [hz, if_true, Outcome.done.injEq] at h ⊢
        exact h.symm
      · simp only [hz, if_false, Outcome.done.injEq] at h ⊢
        exact h.symm
    | fault f => simp [hu, Outcome.bind] at h
    | timeout => simp [hu, Outcome.bind] at h

theorem clear_sym {α : Type} {w w' : World α} {s : Addr} (hsym : Sym w)
    (h : subject.clear w s = .done w') :
    Sym w' ∧ (∀ o, (slots w' s).count (some o) = 0) ∧ (w'.subjects s).isSome ∧
      (∀ s', s' ≠ s → w'.subjects s' = w.subjects s') := by
  obtain ⟨sb, w1, hs, hu, rfl⟩ := clear_done h
  obtain ⟨e1, e2⟩ := unlink_all_backrefs hsym (slots_of_some hs) hu
  have hcount : ∀ o, (slots (set_subject w1 s { sb with observers_ :=
        if sb.notify_counter_ = 0 then [] else sb.observers_.map (fun _ => none) }) s).count
        (some o) = 0 := by
    intro o
    simp only [slots_set_subject, if_true]
    by_cases hz : sb.notify_counter_ = 0
    · simp [hz]
    · simp only [hz, if_false]; exact count_some_map_none _ o
  refine ⟨sym_after_unlink s hsym hcount ?_ ?_, hcount, by simp [set_subject], ?_⟩
  · intro s' hne
    simp only [slots_set_subject, hne, if_false]
    simp only [slots, e1]
  · intro o
    exact e2 o
  · intro s' hne
    simp [set_subject, hne, e1]

theorem subject_dtor_sym {α : Type} {w w' : World α} {s : Addr} (hsym : Sym w)
    (h : subject.dtor w s = .done w') : Sym w' := by
  unfold subject.dtor at h
  cases hs : w.subjects s with
  | none => simp [hs] at h
  | some sb =>
    simp only [hs] at h
    cases hu : unlink_all s sb.observers_ w with
    | done w1 =>
      simp only [hu, Outcome.bind, Outcome.done.injEq] at h
      subst h
      obtain ⟨e1, e2⟩ := unlink_all_backrefs hsym (slots_of_some hs) hu
      refine sym_after_unlink s hsym (by simp) ?_ ?_
      · intro s' hne
        simp only [slots_drop_subject, hne, if_false]
        simp only [slots, e1]
      · intro o
        exact e2 o
    | fault f => simp [hu, Outcome.bind] at h
    | timeout => simp [hu, Outcome.bind] at h

theorem subject_ctor_sym {α : Type} {w w' : World α} {s : Addr} (hsym : Sym w)
    (h : subject.ctor w s = .done w') : Sym w' := by
  unfold subject.ctor at h
  cases hs : w.subjects s with
  | some sb => simp [hs] at h
  | none =>
    simp only [hs, Outcome.done.injEq] at h
    subst h
    refine hsym.congr ?_ (fun _ => rfl)
    intro s'
    by_cases h1 : s' = s
    · subst h1; simp [slots_of_none hs]
    · simp [h1]

theorem link_all_sym {α : Type} (s : Addr) (l : List (Option Addr)) :
    ∀ (w w' : World α), Sym w → link_all s l w = .done w' → Sym w' := by
  induction l with
  | nil =>
    intro w w' hsym h
    simp only [link_all, Outcome.done.injEq] at h
    subst h; exact hsym
  | cons x rest ih =>
    intro w w' hsym h
    cases x with
    | none => simp [link_all] at h
    | some o =>
      simp only [link_all] at h
      cases ha : subject.add_observer w s o with
      | done w1 =>
        rw [ha] at h
        exact ih w1 w' (add_observer_sym hsym ha) h
      | fault f => rw [ha] at h; cases h
      | timeout => rw [ha] at h; cases h

theorem sym_fresh_subject {α : Type} {w : World α} {s : Addr} (hsym : Sym w)
    (hs : w.subjects s = none) (c : Int) :
    Sym (set_subject w s { observers_ := [], notify_counter_ := c }) := by
  refine hsym.congr ?_ (fun _ => rfl)
  intro s'
  by_cases h1 : s' = s
  · subst h1; simp [slots_of_none hs]
  · simp [h1]

theorem subject_copy_ctor_sym {α : Type} {w w' : World α} {s other : Addr} (hsym : Sym w)
    (h : subject.copy_ctor w s other = .done w') : Sym w' := by
  unfold subject.copy_ctor at h
  cases hs : w.subjects s with
  | some sb => simp [hs] at h
  | none =>
    cases ho : w.subjects other with
    | none => simp [hs, ho] at h
    | some src =>
      simp only [hs, ho] at h
      exact link_all_sym s _ _ _ (sym_fresh_subject hsym hs 0) h

theorem subject_copy_assign_sym {α : Type} {w w' : World α} {s other : Addr} (hsym : Sym w)
    (h : subject.copy_assign w s other = .done w') : Sym w' := by
  unfold subject.copy_assign at h
  cases hc : subject.clear w s with
  | done w1 =>
    simp only [hc, Outcome.bind] at h
    cases ho : w1.subjects other with
    | none => simp [ho] at h
    | some src =>
      simp only [ho] at h
      exact link_all_sym s _ _ _ (clear_sym hsym hc).1 h
  | fault f => simp [hc, Outcome.bind] at h
  | timeout => simp [hc, Outcome.bind] at h

/-- What the fix-up loop of a moved subject does to the lists of the
observers: for every observer, as many entries `old` became `new` as the
observer has slots in `l`. -/
theorem retarget_subject_counts {α : Type} (old new : Addr) (hne : old ≠ new)
    (l : List (Option Addr)) :
    ∀ (w w' : World α), retarget_subject old new l w = .done w' →
      w'.subjects = w.subjects ∧
      ∀ o x, (backrefs w' o).count x + (if x = old then l.count (some o) else 0) =
        (backrefs w o).count x + (if x = new then l.count (some o) else 0) := by
  induction l with
  | nil =>
    intro w w' h
    simp only [retarget_subject, Outcome.done.injEq] at h
    subst h
    exact ⟨rfl, fun o x => by simp⟩
  | cons y rest ih =>
    intro w w' h
    cases y with
    | none => simp [retarget_subject] at h
    | some p =>
      simp only [retarget_subject] at h
      cases hp : w.observers p with
      | none => simp [hp] at h
      | some ob =>
        simp only [hp] at h
        cases hr : replace_first old new ob.subjects_ with
        | none => simp [hr] at h
        | some l1 =>
          simp only [hr] at h
          obtain ⟨e1, e2⟩ := ih _ _ h
          refine ⟨e1, ?_⟩
          intro o x
          have h2 := e2 o x
          simp only [backrefs_set_observer] at h2
          by_cases hop : o = p
          · subst hop
            have hc := count_replace_first old new x hne _ _ hr
            rw [backrefs_of_some hp]
            simp only [if_true] at h2
            simp only [List.count_cons, beq_self_eq_true, if_true]
            have hno : ¬ new = old := fun e => hne e.symm
            by_cases h1 : x = old
            · subst h1
              simp only [if_true, hne, if_false] at h2 hc ⊢
              omega
            · by_cases h2' : x = new
              · subst h2'
                simp only [if_true, hno, if_false] at h2 hc ⊢
                omega
              · simp only [h1, h2', if_false] at h2 hc ⊢
                omega
          · have hne' : (some p == some o) = false := by simpa using fun e => hop e.symm
            simp only [hop, if_false] at h2
            simp only [List.count_cons, hne']
            simpa using h2

theorem Sym.of_counts {α : Type} {wb w : World α} (h : Sym wb)
    (hs : ∀ s o, (slots w s).count (some o) = (slots wb s).count (some o))
    (hb : ∀ o s, (backrefs w o).count s = (backrefs wb o).count s) : Sym w := by
  intro s o
  rw [hs, hb]
  exact h s o

/-- The common part of the two move operations of `subject`: the moved list
`l` sits in `s`, the source `other` is empty, the observers still refer to
`other`, and the fix-up loop runs over `l`. -/
theorem subject_move_core {α : Type} (wb w3 w' : World α) (s other : Addr)
    (l : List (Option Addr)) (hsym : Sym wb) (hne : s ≠ other)
    (h1 : slots w3 s = l) (h2 : slots w3 other = [])
    (h3 : ∀ s', s' ≠ s → s' ≠ other → slots w3 s' = slots wb s')
    (h4 : ∀ o, backrefs w3 o = backrefs wb o)
    (h5 : slots wb other = l) (h6 : ∀ o, (slots wb s).count (some o) = 0)
    (h : retarget_subject other s l w3 = .done w') : Sym w' := by
  obtain ⟨e1, e2⟩ := retarget_subject_counts other s (fun e => hne e.symm) l w3 w' h
  have hsl : ∀ s', slots w' s' = slots w3 s' := by
    intro s'; simp only [slots, e1]
  intro s' o
  rw [hsl]
  have hc := e2 o s'
  rw [h4] at hc
  by_cases ha : s' = s
  · subst ha
    have hz : (backrefs wb o).count s' = 0 := by rw [← hsym s' o]; exact h6 o
    simp only [hne, if_false, if_true] at hc
    rw [h1]; omega
  · by_cases hb : s' = other
    · subst hb
      have hz : (backrefs wb o).count s' = l.count (some o) := by rw [← hsym s' o, h5]
      simp only [if_true, ha, if_false] at hc
      rw [h2]
      simp only [List.count_nil]
      omega
    · simp only [ha, hb, if_false] at hc
      rw [h3 s' ha hb, hsym s' o]
      omega

theorem subject_move_ctor_sym {α : Type} {w w' : World α} {s other : Addr} (hsym : Sym w)
    (h : subject.move_ctor w s other = .done w') : Sym w' := by
  unfold subject.move_ctor at h
  cases hs : w.subjects s with
  | some sb => simp [hs] at h
  | none =>
    cases ho : w.subjects other with
    | none => simp [hs, ho] at h
    | some src =>
      simp only [hs, ho] at h
      have hne : s ≠ other := by
        intro e; rw [e, ho] at hs; cases hs
      refine subject_move_core w _ w' s other src.observers_ hsym hne ?_ ?_ ?_ ?_
        (slots_of_some ho) ?_ h
      · simp
      · simp [hne, Ne.symm hne]
      · intro s' h1 h2; simp [h1, h2]
      · intro o; rfl
      · intro o; simp [slots_of_none hs]

theorem subject_move_assign_sym {α : Type} {w w' : World α} {s other : Addr} (hsym : Sym w)
    (h : subject.move_assign w s other = .done w') : Sym w' := by
  unfold subject.move_assign at h
  cases hc : subject.clear w s with
  | fault f => simp [hc, Outcome.bind] at h
  | timeout => simp [hc, Outcome.bind] at h
  | done w1 =>
    simp only [hc, Outcome.bind] at h
    obtain ⟨hsym1, hz, hlive, _⟩ := clear_sym hsym hc
    obtain ⟨me, hme⟩ := Option.isSome_iff_exists.mp hlive
    cases ho : w1.subjects other with
    | none => simp [ho] at h
    | some src =>
      simp only [ho] at h
      by_cases hne : s = other
      · subst hne
        have hw3 : modify_subject (modify_subject w1 s
              (fun me => { me with observers_ := src.observers_ })) s
              (fun x => { x with observers_ := [] }) =
            set_subject (set_subject w1 s { me with observers_ := src.observers_ }) s
              { me with observers_ := [] } := by
          have e1 : modify_subject w1 s (fun me => { me with observers_ := src.observers_ })
              = set_subject w1 s { me with observers_ := src.observers_ } := by
            simp [modify_subject, hme]
          rw [e1]
          simp [modify_subject, set_subject]
        rw [hw3] at h
        simp only [slots_set_subject, if_true, retarget_subject, Outcome.done.injEq] at h
        subst h
        refine hsym1.of_counts ?_ (fun _ _ => rfl)
        intro s' o
        by_cases h1 : s' = s
        · subst h1; simp [hz o]
        · simp [h1]
      · have hno : ¬ other = s := fun e => hne e.symm
        have hw3 : modify_subject (modify_subject w1 s
              (fun me => { me with observers_ := src.observers_ })) other
              (fun x => { x with observers_ := [] }) =
            set_subject (set_subject w1 s { me with observers_ := src.observers_ }) other
              { src with observers_ := [] } := by
          have e1 : modify_subject w1 s (fun me => { me with observers_ := src.observers_ })
              = set_subject w1 s { me with observers_ := src.observers_ } := by
            simp [modify_subject, hme]
          rw [e1]
          simp [modify_subject, set_subject, hno, ho]
        rw [hw3] at h
        have hsl : slots (set_subject (set_subject w1 s
            { me with observers_ := src.observers_ }) other { src with observers_ := [] }) s
            = src.observers_ := by simp [hne]
        rw [hsl] at h
        refine subject_move_core w1 _ w' s other src.observers_ hsym1 hne hsl ?_ ?_
          ?_ (slots_of_some ho) hz h
        · simp
        · intro s' h1 h2; simp [h1, h2]
        · intro o; rfl

@[simp] theorem slots_modify_observer {α : Type} (w : World α) (o s' : Addr)
    (f : observer α → observer α) : slots (modify_observer w o f) s' = slots w s' := by
  unfold modify_observer
  cases w.observers o <;> rfl

theorem backrefs_modify_observer {α : Type} (w : World α) (o o' : Addr)
    (f : observer α → observer α) :
    backrefs (modify_observer w o f) o' =
      if o' = o then ((w.observers o).map (fun ob => (f ob).subjects_)).getD []
      else backrefs w o' := by
  unfold modify_observer
  cases ho : w.observers o with
  | none =>
    by_cases h : o' = o
    · subst h; simp [backrefs, ho]
    · simp [h]
  | some ob =>
    by_cases h : o' = o
    · subst h; simp
    · simp [h]

theorem observer_clear_sym {α : Type} (o : Addr) :
    ∀ (fuel : Nat) (w w' : World α), Sym w → observer.clear fuel w o = .done w' →
      Sym w' ∧ backrefs w' o = [] ∧ (w'.observers o).isSome := by
  intro fuel
  induction fuel with
  | zero => intro w w' _ h; simp [observer.clear] at h
  | succ n ih =>
    intro w w' hsym h
    simp only [observer.clear] at h
    cases ho : w.observers o with
    | none => simp [ho] at h
    | some ob =>
      simp only [ho] at h
      cases hl : ob.subjects_.getLast? with
      | none =>
        simp only [hl, Outcome.done.injEq] at h
        subst h
        have : ob.subjects_ = [] := List.getLast?_eq_none_iff.mp hl
        exact ⟨hsym, by simp [backrefs, ho, this], by simp [ho]⟩
      | some s =>
        simp only [hl] at h
        cases hr : subject.remove_observer w s o with
        | done w1 =>
          simp only [hr, Outcome.bind] at h
          exact ih w1 w' (remove_observer_sym hsym hr) h
        | fault f => simp [hr, Outcome.bind] at h
        | timeout => simp [hr, Outcome.bind] at h

theorem sym_fresh_observer {α : Type} {w : World α} {o : Addr} (hsym : Sym w)
    (ho : backrefs w o = []) (f : Callback α) :
    Sym (set_observer w o { function_ := f, subjects_ := [] }) := by
  refine hsym.congr (fun _ => rfl) ?_
  intro o'
  by_cases h1 : o' = o
  · subst h1; simp [ho]
  · simp [h1]

theorem observer_ctor_sym {α : Type} {w w' : World α} {o : Addr} {f : Callback α}
    (hsym : Sym w) (h : observer.ctor w o f = .done w') : Sym w' := by
  unfold observer.ctor at h
  cases ho : w.observers o with
  | some ob => simp [ho] at h
  | none =>
    simp only [ho, Outcome.done.injEq] at h
    subst h
    exact sym_fresh_observer hsym (backrefs_of_none ho) f

theorem observer_copy_ctor_sym {α : Type} {w w' : World α} {o other : Addr}
    (hsym : Sym w) (h : observer.copy_ctor w o other = .done w') : Sym w' := by
  unfold observer.copy_ctor at h
  cases ho : w.observers o with
  | some ob => simp [ho] at h
  | none =>
    cases hsrc : w.observers other with
    | none => simp [ho, hsrc] at h
    | some src =>
      simp only [ho, hsrc, Outcome.done.injEq] at h
      subst h
      exact sym_fresh_observer hsym (backrefs_of_none ho) _

theorem observer_dtor_sym {α : Type} {fuel : Nat} {w w' : World α} {o : Addr}
    (hsym : Sym w) (h : observer.dtor fuel w o = .done w') : Sym w' := by
  unfold observer.dtor at h
  cases hc : observer.clear fuel w o with
  | done w1 =>
    simp only [hc, Outcome.bind, Outcome.done.injEq] at h
    subst h
    obtain ⟨h1, h2, _⟩ := observer_clear_sym o fuel w w1 hsym hc
    refine h1.congr (fun _ => rfl) ?_
    intro o'
    by_cases e : o' = o
    · subst e; simp [h2]
    · simp [e]
  | fault f => simp [hc, Outcome.bind] at h
  | timeout => simp [hc, Outcome.bind] at h

theorem observer_copy_assign_sym {α : Type} {fuel : Nat} {w w' : World α} {o other : Addr}
    (hsym : Sym w) (h : observer.copy_assign fuel w o other = .done w') : Sym w' := by
  unfold observer.copy_assign at h
  cases hc : observer.clear fuel w o with
  | done w1 =>
    simp only [hc, Outcome.bind] at h
    obtain ⟨h1, _, h3⟩ := observer_clear_sym o fuel w w1 hsym hc
    cases hsrc : w1.observers other with
    | none => simp [hsrc] at h
    | some src =>
      simp only [hsrc, Outcome.done.injEq] at h
      subst h
      refine h1.congr (fun _ => by simp) ?_
      intro o'
      rw [backrefs_modify_observer]
      by_cases e : o' = o
      · subst e
        obtain ⟨me, hme⟩ := Option.isSome_iff_exists.mp h3
        simp [hme, backrefs]
      · simp [e]
  | fault f => simp [hc, Outcome.bind] at h
  | timeout => simp [hc, Outcome.bind] at h

theorem set_function_sym {α : Type} {w w' : World α} {o : Addr} {f : Callback α}
    (hsym : Sym w) (h : observer.set_function w o f = .done w') : Sym w' := by
  unfold observer.set_function at h
  cases ho : w.observers o with
  | none => simp [ho] at h
  | some ob =>
    simp only [ho, Outcome.done.injEq] at h
    subst h
    refine hsym.congr (fun _ => rfl) ?_
    intro o'
    by_cases e : o' = o
    · subst e; simp [backrefs_of_some ho]
    · simp [e]

/-- What the fix-up loop of a moved observer does to the lists of the
subjects: in every subject, as many slots `old` became `new` as the subject
has entries in `l`. -/
theorem retarget_observer_counts {α : Type} (old new : Addr) (hne : old ≠ new)
    (l : List Addr) :
    ∀ (w w' : World α), retarget_observer old new l w = .done w' →
      w'.observers = w.observers ∧
      ∀ s x, (slots w' s).count x + (if x = some old then l.count s else 0) =
        (slots w s).count x + (if x = some new then l.count s else 0) := by
  induction l with
  | nil =>
    intro w w' h
    simp only [retarget_observer, Outcome.done.injEq] at h
    subst h
    exact ⟨rfl, fun s x => by simp⟩
  | cons p rest ih =>
    intro w w' h
    simp only [retarget_observer] at h
    cases hp : w.subjects p with
    | none => simp [hp] at h
    | some sb =>
      simp only [hp] at h
      cases hr : replace_first (some old) (some new) sb.observers_ with
      | none => simp [hr] at h
      | some l1 =>
        simp only [hr] at h
        obtain ⟨e1, e2⟩ := ih _ _ h
        refine ⟨e1, ?_⟩
        intro s x
        have h2 := e2 s x
        simp only [slots_set_subject] at h2
        have hne' : (some old : Option Addr) ≠ some new := fun e => hne (Option.some.inj e)
        by_cases hsp : s = p
        · subst hsp
          have hc := count_replace_first (some old) (some new) x hne' _ _ hr
          rw [slots_of_some hp]
          simp only [if_true] at h2
          simp only [List.count_cons, beq_self_eq_true, if_true]
          have hno : ¬ (some new : Option Addr) = some old := fun e => hne' e.symm
          by_cases h1 : x = some old
          · subst h1
            simp only [if_true, hne', if_false] at h2 hc ⊢
            omega
          · by_cases h2' : x = some new
            · subst h2'
              simp only [if_true, hno, if_false] at h2 hc ⊢
              omega
            · simp only [h1, h2', if_false] at h2 hc ⊢
              omega
        · have hne'' : (p == s) = false := by simpa using fun e => hsp e.symm
          simp only [hsp, if_false] at h2
          simp only [List.count_cons, hne'']
          simpa using h2

/-- The common part of the two move operations of `observer`: the moved list
`l` sits in `o`, the source `other` has no entries, the subjects still hold
`other`, and the fix-up loop runs over `l`. -/
theorem observer_move_core {α : Type} (wb w5 w' : World α) (o other : Addr)
    (l : List Addr) (hsym : Sym wb) (hne : o ≠ other)
    (h1 : backrefs w5 o = l) (h2 : backrefs w5 other = [])
    (h3 : ∀ o', o' ≠ o → o' ≠ other → backrefs w5 o' = backrefs wb o')
    (h4 : ∀ s, slots w5 s = slots wb s)
    (h5 : backrefs wb other = l) (h6 : backrefs wb o = [])
    (h : retarget_observer other o l w5 = .done w') : Sym w' := by
  obtain ⟨e1, e2⟩ := retarget_observer_counts other o (fun e => hne e.symm) l w5 w' h
  have hbr : ∀ o', backrefs w' o' = backrefs w5 o' := by
    intro o'; simp only [backrefs, e1]
  intro s o'
  rw [hbr]
  have hc := e2 s (some o')
  rw [h4] at hc
  have hinj : ∀ a b : Addr, (some a = some b) = (a = b) := by
    intro a b; simp
  simp only [hinj] at hc
  by_cases ha : o' = o
  · subst ha
    have hz : (slots wb s).count (some o') = 0 := by rw [hsym s o', h6]; rfl
    simp only [hne, if_false, if_true] at hc
    rw [h1]; omega
  · by_cases hb : o' = other
    · subst hb
      have hz : (slots wb s).count (some o') = l.count s := by rw [hsym s o', h5]
      simp only [if_true, ha, if_false] at hc
      rw [h2]
      simp only [List.count_nil]
      omega
    · simp only [ha, hb, if_false] at hc
      rw [h3 o' ha hb, ← hsym s o']
      omega

theorem observer_move_ctor_sym {α : Type} {w w' : World α} {o other : Addr} (hsym : Sym w)
    (h : observer.move_ctor w o other = .done w') : Sym w' := by
  unfold observer.move_ctor at h
  cases ho : w.observers o with
  | some ob => simp [ho] at h
  | none =>
    cases hsrc : w.observers other with
    | none => simp [ho, hsrc] at h
    | some src =>
      simp only [ho, hsrc] at h
      have hne : o ≠ other := by
        intro e; rw [e, hsrc] at ho; cases ho
      refine observer_move_core w _ w' o other src.subjects_ hsym hne ?_ ?_ ?_ ?_
        (backrefs_of_some hsrc) (backrefs_of_none ho) h
      · simp
      · simp [hne, Ne.symm hne]
      · intro o' h1 h2; simp [h1, h2]
      · intro s; rfl

theorem modify_observer_observers {α : Type} (w : World α) (o x : Addr)
    (f : observer α → observer α) :
    (modify_observer w o f).observers x =
      if x = o then (w.observers o).map f else w.observers x := by
  unfold modify_observer
  cases ho : w.observers o with
  | none =>
    by_cases h : x = o
    · subst h; simp [ho]
    · simp [h]
  | some ob =>
    by_cases h : x = o
    · subst h; simp [set_observer]
    · simp [set_observer, h]

theorem backrefs_eq {α : Type} (w : World α) (x : Addr) :
    backrefs w x = ((w.observers x).map (fun ob => ob.subjects_)).getD [] := by
  unfold backrefs
  cases w.observers x <;> rfl

theorem take_members_links {α : Type} (w : World α) (o other : Addr) (f : Callback α)
    (ho : (w.observers o).isSome) (hother : (w.observers other).isSome) :
    (∀ s, slots (observer.take_members w o other f) s = slots w s) ∧
    ∀ o', backrefs (observer.take_members w o other f) o' =
      if o' = other then [] else if o' = o then backrefs w other else backrefs w o' := by
  refine ⟨fun s => by simp [observer.take_members], ?_⟩
  intro o'
  obtain ⟨ob, hob⟩ := Option.isSome_iff_exists.mp ho
  obtain ⟨src, hsrc⟩ := Option.isSome_iff_exists.mp hother
  simp only [observer.take_members, backrefs_eq, modify_observer_observers]
  by_cases h1 : o' = other
  · subst h1
    by_cases h2 : o = o'
    · subst h2; simp [hob]
    · have h3 : ¬ o' = o := fun e => h2 e.symm
      simp [h2, h3, hsrc]
  · by_cases h2 : o' = o
    · subst h2
      have h3 : ¬ other = o' := fun e => h1 e.symm
      simp [h1, h3, hob, hsrc]
    · simp [h1, h2]

theorem observer_move_assign_sym {α : Type} {fuel : Nat} {w w' : World α} {o other : Addr}
    (hsym : Sym w) (h : observer.move_assign fuel w o other = .done w') : Sym w' := by
  unfold observer.move_assign at h
  cases hc : observer.clear fuel w o with
  | fault f => simp [hc, Outcome.bind] at h
  | timeout => simp [hc, Outcome.bind] at h
  | done w1 =>
    simp only [hc, Outcome.bind] at h
    obtain ⟨hsym1, hz, hlive⟩ := observer_clear_sym o fuel w w1 hsym hc
    cases hsrc : w1.observers other with
    | none => simp [hsrc] at h
    | some src =>
      simp only [hsrc] at h
      obtain ⟨t1, t2⟩ := take_members_links w1 o other src.function_ hlive (by simp [hsrc])
      by_cases hne : o = other
      · subst hne
        have hl : backrefs (observer.take_members w1 o o src.function_) o = [] := by
          rw [t2]; simp
        rw [hl] at h
        simp only [retarget_observer, Outcome.done.injEq] at h
        subst h
        refine hsym1.congr t1 ?_
        intro o'
        rw [t2]
        by_cases e : o' = o
        · subst e; simp [hz]
        · simp [e]
      · have hno : ¬ other = o := fun e => hne e.symm
        have hl : backrefs (observer.take_members w1 o other src.function_) o
            = backrefs w1 other := by
          rw [t2]; simp [hne]
        rw [hl] at h
        refine observer_move_core w1 _ w' o other (backrefs w1 other) hsym1 hne hl ?_ ?_ t1
          rfl hz h
        · rw [t2]; simp
        · intro o' h1 h2; rw [t2]; simp [h1, h2]

theorem count_some_filter_isSome (l : List (Option Addr)) (o : Addr) :
    (l.filter (fun x => x.isSome)).count (some o) = l.count (some o) :=
  List.count_filter (by simp)

theorem finish_call_sym {α : Type} {w w' : World α} {s : Addr} (hsym : Sym w)
    (h : finish_call w s = .done w') : Sym w' := by
  unfold finish_call at h
  cases hs : w.subjects s with
  | none => simp [hs] at h
  | some sb =>
    simp only [hs] at h
    by_cases h1 : sb.notify_counter_ = -2147483648
    · simp [h1] at h
    · simp only [h1, if_false] at h
      by_cases h2 : sb.notify_counter_ - 1 = 0
      · simp only [h2, if_true, Outcome.done.injEq] at h
        subst h
        refine hsym.of_counts ?_ (fun _ _ => rfl)
        intro s' o
        by_cases e : s' = s
        · subst e
          simp [slots_of_some hs, count_some_filter_isSome]
        · simp [e]
      · simp only [h2, if_false, Outcome.done.injEq] at h
        subst h
        refine hsym.congr ?_ (fun _ => rfl)
        intro s'
        by_cases e : s' = s
        · subst e; simp [slots_of_some hs]
        · simp [e]

theorem on_notify_sym {α : Type} (rn : List (Stmt α) → World α → Outcome (World α))
    (hrn : ∀ body w w', Sym w → rn body w = .done w' → Sym w')
    {w w' : World α} {o : Addr} {a : α} (hsym : Sym w)
    (h : observer.on_notify rn w o a = .done w') : Sym w' := by
  unfold observer.on_notify at h
  cases ho : w.observers o with
  | none => simp [ho] at h
  | some ob =>
    simp only [ho] at h
    cases hf : ob.function_ with
    | none => simp [hf] at h
    | some f =>
      simp only [hf] at h
      exact hrn (f a) { w with trace := w.trace ++ [(o, a)] } w'
        (hsym.congr (fun _ => rfl) (fun _ => rfl)) h

theorem notify_loop_sym {α : Type} (rn : List (Stmt α) → World α → Outcome (World α))
    (hrn : ∀ body w w', Sym w → rn body w = .done w' → Sym w') (s : Addr) (a : α) :
    ∀ (k i : Nat) (w w' : World α), Sym w → notify_loop rn s a k i w = .done w' → Sym w' := by
  intro k
  induction k with
  | zero =>
    intro i w w' hsym h
    simp only [notify_loop, Outcome.done.injEq] at h
    subst h; exact hsym
  | succ k ih =>
    intro i w w' hsym h
    simp only [notify_loop] at h
    cases hs : w.subjects s with
    | none => simp [hs] at h
    | some sb =>
      simp only [hs] at h
      cases hg : sb.observers_[i]? with
      | none => simp [hg] at h
      | some x =>
        cases x with
        | none =>
          simp only [hg] at h
          exact ih (i + 1) w w' hsym h
        | some o =>
          simp only [hg] at h
          cases hc : observer.on_notify rn w o a with
          | done w1 =>
            simp only [hc, Outcome.bind] at h
            exact ih (i + 1) w1 w' (on_notify_sym rn hrn hsym hc) h
          | fault f => simp [hc, Outcome.bind] at h
          | timeout => simp [hc, Outcome.bind] at h

theorem call_sym {α : Type} (rn : List (Stmt α) → World α → Outcome (World α))
    (hrn : ∀ body w w', Sym w → rn body w = .done w' → Sym w')
    {w w' : World α} {s : Addr} {a : α} (hsym : Sym w)
    (h : subject.call rn w s a = .done w') : Sym w' := by
  unfold subject.call at h
  cases hs : w.subjects s with
  | none => simp [hs] at h
  | some sb =>
    simp only [hs] at h
    by_cases h1 : sb.notify_counter_ = 2147483647
    · simp [h1] at h
    · simp only [h1, if_false] at h
      cases hl : notify_loop rn s a sb.observers_.length 0
          (set_subject w s { sb with notify_counter_ := sb.notify_counter_ + 1 }) with
      | done w2 =>
        simp only [hl, Outcome.bind] at h
        have hsym1 : Sym (set_subject w s
            { sb with notify_counter_ := sb.notify_counter_ + 1 }) := by
          refine hsym.congr ?_ (fun _ => rfl)
          intro s'
          by_cases e : s' = s
          · subst e; simp [slots_of_some hs]
          · simp [e]
        exact finish_call_sym (notify_loop_sym rn hrn s a _ _ _ _ hsym1 hl) h
      | fault f => simp [hl, Outcome.bind] at h
      | timeout => simp [hl, Outcome.bind] at h

theorem run_body_sym {α : Type} (step : Stmt α → World α → Outcome (World α))
    (hstep : ∀ st w w', Sym w → step st w = .done w' → Sym w') :
    ∀ (body : List (Stmt α)) (w w' : World α), Sym w → run_body step body w = .done w' →
      Sym w' := by
  intro body
  induction body with
  | nil =>
    intro w w' hsym h
    simp only [run_body, Outcome.done.injEq] at h
    subst h; exact hsym
  | cons st rest ih =>
    intro w w' hsym h
    simp only [run_body] at h
    cases hc : step st w with
    | done w1 =>
      simp only [hc, Outcome.bind] at h
      exact ih w1 w' (hstep st w w1 hsym hc) h
    | fault f => simp [hc, Outcome.bind] at h
    | timeout => simp [hc, Outcome.bind] at h

theorem exec_sym {α : Type} :
    ∀ (fuel : Nat) (st : Stmt α) (w w' : World α), Sym w → exec fuel st w = .done w' →
      Sym w' := by
  intro fuel
  induction fuel with
  | zero => intro st w w' _ h; simp [exec] at h
  | succ n ih =>
    intro st w w' hsym h
    cases st with
    | emit v =>
      simp only [exec, Outcome.done.injEq] at h
      subst h
      exact hsym.congr (fun _ => rfl) (fun _ => rfl)
    | subject_ctor s => exact subject_ctor_sym hsym h
    | subject_dtor s => exact subject_dtor_sym hsym h
    | subject_copy_ctor s other => exact subject_copy_ctor_sym hsym h
    | subject_copy_assign s other => exact subject_copy_assign_sym hsym h
    | subject_move_ctor s other => exact subject_move_ctor_sym hsym h
    | subject_move_assign s other => exact subject_move_assign_sym hsym h
    | add_observer s o => exact add_observer_sym hsym h
    | remove_observer s o => exact remove_observer_sym hsym h
    | clear s => exact (clear_sym hsym h).1
    | call s a => exact call_sym _ (run_body_sym _ ih) hsym h
    | observer_ctor o f => exact observer_ctor_sym hsym h
    | observer_dtor o => exact observer_dtor_sym hsym h
    | observer_copy_ctor o other => exact observer_copy_ctor_sym hsym h
    | observer_copy_assign o other => exact observer_copy_assign_sym hsym h
    | observer_move_ctor o other => exact observer_move_ctor_sym hsym h
    | observer_move_assign o other => exact observer_move_assign_sym hsym h
    | set_function o f => exact set_function_sym hsym h

theorem NoLinks.sym {α : Type} {w : World α} (h : NoLinks w) : Sym w := by
  intro s o
  rw [h.1 s, h.2 o]
  rfl

/-- C2: start from any world in which no subject and no observer has a link
and run any program, that is any sequence of constructions, `add_observer`,
`remove_observer`, `clear`, invocations (with callbacks that are themselves
such programs, to any depth), copies, moves and destructions. If the program
runs to its end, then in the state reached, for every subject `S` and observer
`O`, the number of live slots of `S` holding `O` equals the number of entries
of `O` holding `S`; in particular `O` occupies a live slot of `S` if and only
if `S` occurs in the list of `O`. -/
theorem C2_symmetry_is_invariant {α : Type} (fuel : Nat) (prog : List (Stmt α))
    (w0 w' : World α) (h0 : NoLinks w0) (hrun : run fuel prog w0 = .done w') :
    (∀ s o, (slots w' s).count (some o) = (backrefs w' o).count s) ∧
    (∀ s o, some o ∈ slots w' s ↔ s ∈ backrefs w' o) := by
  have hsym : Sym w' := run_body_sym (exec fuel) (exec_sym fuel) prog w0 w' h0.sym hrun
  refine ⟨hsym, ?_⟩
  intro s o
  rw [← List.count_pos_iff, ← List.count_pos_iff, hsym s o]

/-- C2 at a concrete run: `busy_program` started in the empty world runs to
its end; subjects 2 and 3 then hold `[13]`, observer 13 holds `[1, 3, 2]`, and
the counts agree for all pairs. -/
theorem C2_symmetry_is_invariant_witness :
    ∃ w', run 6 busy_program (World.empty Nat) = .done w' ∧
      slots w' 2 = [some 13] ∧ slots w' 3 = [some 13] ∧ backrefs w' 13 = [1, 3, 2] ∧
      (∀ s o, (slots w' s).count (some o) = (backrefs w' o).count s) ∧
      (∀ s o, some o ∈ slots w' s ↔ s ∈ backrefs w' o) := by
  refine ⟨_, rfl, rfl, rfl, rfl, ?_⟩
  exact C2_symmetry_is_invariant 6 busy_program (World.empty Nat) _
    ⟨fun _ => rfl, fun _ => rfl⟩ rfl

/-! ## Delivery with callbacks that only leave marks -/

theorem run_quiet_marks {α : Type} (fuel : Nat) (body : List (Stmt α)) (hq : Quiet body) :
    ∀ w1 : World α,
      run (fuel + 1) body w1 = .done { w1 with output := w1.output ++ marks body } := by
  induction body with
  | nil => intro w1; simp [run, run_body, marks]
  | cons st rest ih =>
    intro w1
    obtain ⟨v, rfl⟩ := hq st (by simp)
    have h := ih (fun st h => hq st (by simp [h])) { w1 with output := w1.output ++ [v] }
    refine Eq.trans (b := run (fuel + 1) rest { w1 with output := w1.output ++ [v] }) rfl ?_
    rw [h]
    simp [marks]

/-- Dispatch with callbacks that only leave marks: an idle subject without
placeholder notifies its slots in order, every callback leaves its marks, and
no subject and no observer changes. -/
theorem quiet_call {α : Type} (fuel : Nat) (w : World α) (s : Addr) (a : α) (sb : subject)
    (hs : w.subjects s = some sb) (hidle : sb.notify_counter_ = 0)
    (hnp : none ∉ sb.observers_)
    (hq : ∀ o, some o ∈ sb.observers_ →
      ∃ ob f, w.observers o = some ob ∧ ob.function_ = some f ∧ Quiet (f a)) :
    ∃ w', exec (fuel + 2) (.call s a) w = .done w' ∧
      w'.trace = w.trace ++ sb.observers_.reduceOption.map (fun x => (x, a)) ∧
      w'.output = w.output ++
        sb.observers_.reduceOption.flatMap (fun o => marks (callback_body w o a)) ∧
      w'.subjects = w.subjects ∧ w'.observers = w.observers := by
  let L := sb.observers_
  let I : Nat → World α → Prop := fun i w1 =>
    w1.subjects = (set_subject w s { sb with notify_counter_ := 1 }).subjects ∧
    w1.observers = w.observers ∧
    w1.trace = w.trace ++ ((L.take i).reduceOption).map (fun x => (x, a)) ∧
    w1.output = w.output ++
      ((L.take i).reduceOption).flatMap (fun o => marks (callback_body w o a))
  have hstep : ∀ i w1, I i w1 → i < L.length → ∃ sb1, w1.subjects s = some sb1 ∧
      ((sb1.observers_[i]? = some none ∧ I (i + 1) w1) ∨
       (∃ o' w2, sb1.observers_[i]? = some (some o') ∧
          observer.on_notify (run (fuel + 1)) w1 o' a = .done w2 ∧ I (i + 1) w2)) := by
    intro i w1 hI hi
    obtain ⟨hS, hO, hT, hU⟩ := hI
    have hget : L[i]? = some L[i] := List.getElem?_eq_getElem hi
    have hmem : L[i] ∈ L := List.getElem_mem hi
    cases hx : L[i] with
    | none => rw [hx] at hmem; exact absurd hmem hnp
    | some o =>
      rw [hx] at hget hmem
      obtain ⟨ob, f, h1, h2, h3⟩ := hq o hmem
      have hbody : callback_body w o a = f a := by simp [callback_body, h1, h2]
      have hrun : observer.on_notify (run (fuel + 1)) w1 o a = .done
          { w1 with trace := w1.trace ++ [(o, a)], output := w1.output ++ marks (f a) } := by
        simp only [observer.on_notify, hO, h1, h2]
        exact run_quiet_marks fuel (f a) h3 _
      refine ⟨{ sb with notify_counter_ := 1 }, by rw [hS]; simp [set_subject], Or.inr
        ⟨o, _, hget, hrun, hS, hO, ?_, ?_⟩⟩
      · show w1.trace ++ [(o, a)] = _
        rw [hT, take_succ_reduceOption L i o hget]
        simp
      · show w1.output ++ marks (f a) = _
        rw [hU, take_succ_reduceOption L i o hget]
        simp [hbody]
  have hI0 : I 0 (set_subject w s { sb with notify_counter_ := 1 }) := by
    refine ⟨rfl, rfl, by simp [set_subject], by simp [set_subject]⟩
  obtain ⟨w2, hloop, hS2, hO2, hT2, hU2⟩ :=
    notify_loop_rule (run (fuel + 1)) s a L.length I hstep L.length 0 _ (by simp) hI0
  have hs2 : w2.subjects s = some { observers_ := sb.observers_, notify_counter_ := 1 } := by
    rw [hS2]; simp [set_subject]
  refine ⟨set_subject w2 s
    { observers_ := sb.observers_.filter (fun x => x.isSome), notify_counter_ := 0 },
    ?_, ?_, ?_, ?_, ?_⟩
  · rw [exec_call]
    simp only [subject.call, hs, hidle]
    simp only [zero_add]
    rw [if_neg (by decide), hloop]
    simp [Outcome.bind, finish_call, hs2]
  · show w2.trace = _
    rw [hT2, List.take_length]
  · show w2.output = _
    rw [hU2, List.take_length]
  · funext x
    by_cases hx : x = s
    · subst hx
      rw [hs]
      simp only [set_subject, if_true]
      rw [filter_isSome_of_no_null _ hnp, ← hidle]
    · simp [set_subject, hx, hS2]
  · exact hO2

/-! ## Copies and destruction -/

/-- C15: copy-constructing an observer `C` (at a free address) from a live
observer `O` returns normally; `C` has the callback of `O` and an empty link
list; every subject and every other observer, `O` included, is unchanged. In
a state with symmetric links no slot of any subject holds `C` afterwards, so
an idle subject without placeholder whose callbacks only leave marks notifies
exactly its old slots when invoked, and `C` is not among them. -/
theorem C15_observer_copy_has_no_links {α : Type} (w : World α) (c o : Addr)
    (ob : observer α) (hc : w.observers c = none) (ho : w.observers o = some ob) :
    ∃ w', observer.copy_ctor w c o = .done w' ∧
      w'.observers c = some { function_ := ob.function_, subjects_ := [] } ∧
      (∀ x, x ≠ c → w'.observers x = w.observers x) ∧
      w'.observers o = some ob ∧
      w'.subjects = w.subjects ∧
      (Sym w → ∀ s, some c ∉ slots w' s) ∧
      (Sym w → ∀ (fuel : Nat) (s : Addr) (a : α) (sb : subject),
        w.subjects s = some sb → sb.notify_counter_ = 0 → none ∉ sb.observers_ →
        (∀ x, some x ∈ sb.observers_ →
          ∃ obx f, w.observers x = some obx ∧ obx.function_ = some f ∧ Quiet (f a)) →
        ∃ w'', exec (fuel + 2) (.call s a) w' = .done w'' ∧
          w''.trace = w'.trace ++ sb.observers_.reduceOption.map (fun x => (x, a)) ∧
          (c, a) ∉ sb.observers_.reduceOption.map (fun x => (x, a))) := by
  have hne : o ≠ c := by
    intro e; rw [e, hc] at ho; cases ho
  have hfree : Sym w → ∀ s, some c ∉ slots w s := by
    intro hsym s hm
    have h1 : 0 < (slots w s).count (some c) := List.count_pos_iff.mpr hm
    rw [hsym s c, backrefs_of_none hc] at h1
    simp at h1
  refine ⟨set_observer w c { function_ := ob.function_, subjects_ := [] },
    by simp [observer.copy_ctor, hc, ho], by simp [set_observer], ?_, ?_, rfl, ?_, ?_⟩
  · intro x hx; simp [set_observer, hx]
  · simp [set_observer, hne, ho]
  · intro hsym s
    exact hfree hsym s
  · intro hsym fuel s a sb hs hidle hnp hq
    have hcs : some c ∉ sb.observers_ := by
      have := hfree hsym s
      rwa [slots_of_some hs] at this
    obtain ⟨w'', e1, e2, _⟩ := quiet_call fuel
      (set_observer w c { function_ := ob.function_, subjects_ := [] }) s a sb hs hidle hnp
      (by
        intro x hx
        obtain ⟨obx, f, h1, h2, h3⟩ := hq x hx
        have hxc : x ≠ c := fun e => hcs (e ▸ hx)
        exact ⟨obx, f, by simp [set_observer, hxc, h1], h2, h3⟩)
    refine ⟨w'', e1, e2, ?_⟩
    intro hm
    simp only [List.mem_map, Prod.mk.injEq] at hm
    obtain ⟨x, hx, rfl, _⟩ := hm
    exact hcs (List.reduceOption_mem_iff.mp hx)

/-- C15 at a concrete state: observer 11 is copied from observer 10, which is
linked to subject 1 twice. -/
theorem C15_observer_copy_has_no_links_witness :
    ∃ w', observer.copy_ctor
        (World.of_links [(1, 10), (1, 10)] (fun _ => none) [1] [10] : World Nat) 11 10
        = .done w' ∧
      backrefs w' 11 = [] ∧ backrefs w' 10 = [1, 1] ∧ slots w' 1 = [some 10, some 10] := by
  obtain ⟨w', h1, _⟩ := C15_observer_copy_has_no_links
    (World.of_links [(1, 10), (1, 10)] (fun _ => none) [1] [10] : World Nat) 11 10
    { function_ := none, subjects_ := [1, 1] } rfl rfl
  have h : w' = _ := Outcome.done.inj (h1.symm.trans rfl)
  exact ⟨w', h1, by rw [h]; rfl, by rw [h]; rfl, by rw [h]; rfl⟩

/-- C16: destroying a subject `S` whose list holds no placeholder and only
live observers returns normally; afterwards `S` is gone, every observer that
was linked to `S` (once or several times) holds its old list without the
entries equal to `S`, so no reference to `S` and the references to other
subjects in their old order; all other observers and subjects are unchanged. -/
theorem C16_subject_destruction_unlinks {α : Type} (w : World α) (s : Addr) (sb : subject)
    (hs : w.subjects s = some sb) (hnp : none ∉ sb.observers_)
    (hlive : ∀ o, some o ∈ sb.observers_ → (w.observers o).isSome) :
    ∃ w', subject.dtor w s = .done w' ∧
      w'.subjects s = none ∧
      (∀ o, some o ∈ sb.observers_ →
        backrefs w' o = (backrefs w o).filter (fun x => x ≠ s) ∧ s ∉ backrefs w' o) ∧
      (∀ o, some o ∉ sb.observers_ → w'.observers o = w.observers o) ∧
      (∀ s', s' ≠ s → w'.subjects s' = w.subjects s') := by
  obtain ⟨w1, hw1⟩ := unlink_all_ok s sb.observers_ w hnp hlive
  obtain ⟨_, _, e1, _, _, e4⟩ := unlink_all_done s sb.observers_ w w1 hw1
  refine ⟨drop_subject w1 s, by simp [subject.dtor, hs, hw1, Outcome.bind],
    by simp [drop_subject], ?_, ?_, ?_⟩
  · intro o ho
    have hb : backrefs (drop_subject w1 s) o = (backrefs w o).filter (fun x => x ≠ s) := by
      show backrefs w1 o = _
      unfold backrefs
      rw [e4 o]
      cases hob : w.observers o with
      | none => simp [ho]
      | some ob => simp [ho, unlinked]
    refine ⟨hb, ?_⟩
    rw [hb]
    simp
  · intro o ho
    show w1.observers o = _
    rw [e4 o]; simp [ho]
  · intro s' h
    simp [drop_subject, h, e1]

/-- C16 at a concrete state: subject 1 held `[10, 11, 10]`, subject 2 holds `[10]`. -/
theorem C16_subject_destruction_unlinks_witness :
    ∃ w', subject.dtor
        (World.of_links [(1, 10), (1, 11), (2, 10), (1, 10)] (fun _ => none) [1, 2] [10, 11]
          : World Nat) 1 = .done w' ∧
      backrefs w' 10 = [2] ∧ backrefs w' 11 = [] ∧ slots w' 2 = [some 10] := by
  obtain ⟨w', h1, _⟩ := C16_subject_destruction_unlinks
    (World.of_links [(1, 10), (1, 11), (2, 10), (1, 10)] (fun _ => none) [1, 2] [10, 11]
      : World Nat) 1
    { observers_ := [some 10, some 11, some 10], notify_counter_ := 0 } rfl (by decide)
    (by
      intro o ho
      simp only [List.mem_cons, Option.some.injEq, List.mem_singleton] at ho
      rcases ho with h | h | h | h
      · subst h; rfl
      · subst h; rfl
      · subst h; rfl
      · cases h)
  have h : w' = _ := Outcome.done.inj (h1.symm.trans rfl)
  exact ⟨w', h1, by rw [h]; rfl, by rw [h]; rfl, by rw [h]; rfl⟩

/-! ## The operation `remove_observer` outside the invariant -/

theorem set_subject_self {α : Type} (w : World α) (s : Addr) (sb : subject)
    (h : w.subjects s = some sb) : set_subject w s sb = w := by
  cases w with
  | mk subjects observers trace output =>
    simp only [set_subject, World.mk.injEq, and_true, true_and]
    funext x
    by_cases hx : x = s
    · subst hx; simp [← h]
    · simp [hx]

theorem set_observer_self {α : Type} (w : World α) (o : Addr) (ob : observer α)
    (h : w.observers o = some ob) : set_observer w o ob = w := by
  cases w with
  | mk subjects observers trace output =>
    simp only [set_observer, World.mk.injEq, and_true, true_and]
    funext x
    by_cases hx : x = o
    · subst hx; simp [← h]
    · simp [hx]

theorem erase_last_eq_self_iff {β : Type} [DecidableEq β] (x : β) (l : List β) :
    erase_last x l = l ↔ x ∉ l := by
  constructor
  · intro h hm
    obtain ⟨pre, post, e1, _, e3⟩ := erase_last_of_mem x l hm
    subst e1
    have := congrArg List.length (e3.symm.trans h)
    simp at this
  · exact erase_last_of_not_mem x l

theorem replace_last_none_eq_self_iff (o : Addr) (l : List (Option Addr)) :
    replace_last (some o) none l = l ↔ some o ∉ l := by
  constructor
  · intro h hm
    obtain ⟨pre, post, e1, _, e3⟩ := replace_last_of_mem (some o) none l hm
    subst e1
    have := List.append_cancel_left (e3.symm.trans h)
    simp at this
  · exact replace_last_of_not_mem (some o) none l

/-- C18 (what the code does instead): `remove_observer` holds no assertion.
In the state where only observer 10 lists subject 1 it returns normally and
erases that entry; in the state where only subject 1 has a slot for observer
10 it returns normally and erases that slot. -/
theorem C18_one_sided_removal_is_silent :
    (∃ w', subject.remove_observer observer_side_only 1 10 = .done w' ∧
      backrefs observer_side_only 10 = [1] ∧ slots observer_side_only 1 = [] ∧
      backrefs w' 10 = [] ∧ slots w' 1 = []) ∧
    (∃ w', subject.remove_observer subject_side_only 1 10 = .done w' ∧
      backrefs subject_side_only 10 = [] ∧ slots subject_side_only 1 = [some 10] ∧
      backrefs w' 10 = [] ∧ slots w' 1 = []) :=
  ⟨⟨_, rfl, rfl, rfl, rfl, rfl⟩, ⟨_, rfl, rfl, rfl, rfl, rfl⟩⟩

/-- C18 (amended): on a live subject `S` and a live observer `O`,
`remove_observer(S, O)` always returns normally. The two sides are searched
independently: the list of `O` loses its last entry `S` if it has one, the
list of `S` loses (or, while dispatching, nulls) its last slot `O` if it has
one, and nothing else changes. The whole state is unchanged exactly when the
pair is found on neither side. -/
theorem C18_remove_observer_never_fails {α : Type} (w : World α) (s o : Addr)
    (sb : subject) (ob : observer α)
    (hs : w.subjects s = some sb) (ho : w.observers o = some ob) :
    ∃ w', subject.remove_observer w s o = .done w' ∧
      w'.observers o = some { ob with subjects_ := erase_last s ob.subjects_ } ∧
      w'.subjects s = some
        { sb with observers_ :=
            if sb.notify_counter_ = 0 then erase_last (some o) sb.observers_
            else replace_last (some o) none sb.observers_ } ∧
      (∀ s', s' ≠ s → w'.subjects s' = w.subjects s') ∧
      (∀ o', o' ≠ o → w'.observers o' = w.observers o') ∧
      (w' = w ↔ (s ∉ ob.subjects_ ∧ some o ∉ sb.observers_)) := by
  refine ⟨_, remove_observer_eq w s o sb ob hs ho, by simp [set_subject, set_observer],
    by simp [set_subject], ?_, ?_, ?_⟩
  · intro s' h; simp [set_subject, set_observer, h]
  · intro o' h; simp [set_subject, set_observer, h]
  · constructor
    · intro h
      have h1 := congrArg (fun x => backrefs x o) h
      have h2 := congrArg (fun x => slots x s) h
      simp only [backrefs_set_subject, backrefs_set_observer, if_true, slots_set_subject,
        backrefs_of_some ho, slots_of_some hs] at h1 h2
      refine ⟨(erase_last_eq_self_iff s _).mp h1, ?_⟩
      by_cases hz : sb.notify_counter_ = 0
      · simp only [hz, if_true] at h2
        exact (erase_last_eq_self_iff _ _).mp h2
      · simp only [hz, if_false] at h2
        exact (replace_last_none_eq_self_iff o _).mp h2
    · intro ⟨h1, h2⟩
      rw [erase_last_of_not_mem _ _ h1, erase_last_of_not_mem _ _ h2,
        replace_last_of_not_mem _ _ _ h2]
      simp only [ite_self]
      rw [set_observer_self w o ob ho]
      exact set_subject_self w s sb hs

/-- C18 (amended) at a concrete state: the pair (1, 12) is found on neither
side and the state is unchanged. -/
theorem C18_remove_observer_never_fails_witness :
    ∃ w', subject.remove_observer
        (World.of_links [(1, 10)] (fun _ => none) [1] [10, 12] : World Nat) 1 12 = .done w' ∧
      w' = (World.of_links [(1, 10)] (fun _ => none) [1] [10, 12] : World Nat) := by
  obtain ⟨w', h1, _, _, _, _, h6⟩ := C18_remove_observer_never_fails
    (World.of_links [(1, 10)] (fun _ => none) [1] [10, 12] : World Nat) 1 12
    { observers_ := [some 10], notify_counter_ := 0 } { function_ := none, subjects_ := [] }
    rfl rfl
  exact ⟨w', h1, h6.mpr ⟨by decide, by decide⟩⟩

/-! ## Copies of a subject -/

theorem link_all_spec {α : Type} (s : Addr) (l : List (Option Addr)) :
    ∀ (w : World α) (sb : subject), w.subjects s = some sb → none ∉ l →
      (∀ o, some o ∈ l → (w.observers o).isSome) →
      ∃ w', link_all s l w = .done w' ∧
        w'.subjects s = some { sb with observers_ := sb.observers_ ++ l } ∧
        (∀ x, x ≠ s → w'.subjects x = w.subjects x) ∧
        (∀ o, w'.observers o = (w.observers o).map (linked s (l.count (some o)))) ∧
        w'.trace = w.trace ∧ w'.output = w.output := by
  induction l with
  | nil =>
    intro w sb hs _ _
    refine ⟨w, rfl, by simp [hs], fun _ _ => rfl, ?_, rfl, rfl⟩
    intro o
    cases w.observers o <;> simp [linked]
  | cons x rest ih =>
    intro w sb hs hn hl
    cases x with
    | none => simp at hn
    | some p =>
      obtain ⟨obp, hobp⟩ := Option.isSome_iff_exists.mp (hl p (by simp))
      obtain ⟨w', e1, e2, e3, e4, e5, e6⟩ := ih
        (set_observer (set_subject w s { sb with observers_ := sb.observers_ ++ [some p] })
          p { obp with subjects_ := obp.subjects_ ++ [s] })
        { sb with observers_ := sb.observers_ ++ [some p] }
        (by simp [set_observer, set_subject]) (by simpa using hn)
        (by
          intro o ho
          by_cases hop : o = p
          · simp [set_observer, hop]
          · simpa [set_observer, set_subject, hop] using hl o (by simp [ho]))
      refine ⟨w', ?_, ?_, ?_, ?_, e5, e6⟩
      · simp only [link_all]
        rw [add_observer_eq w s p sb obp hs hobp]
        simp only [Outcome.bind]
        exact e1
      · rw [e2]; simp
      · intro x hx
        rw [e3 x hx]; simp [set_observer, set_subject, hx]
      · intro o
        rw [e4 o]
        by_cases hop : o = p
        · subst hop
          simp [set_observer, hobp, linked, List.count_cons]
          rw [← List.replicate_succ, List.replicate_succ']
        · have hne : (some p == some o) = false := by simpa using fun e => hop e.symm
          simp [set_observer, set_subject, hop, List.count_cons, hne]

theorem erase_last_append_replicate {β : Type} [DecidableEq β] (x : β) (l : List β) (n : Nat) :
    erase_last x (l ++ List.replicate (n + 1) x) = l ++ List.replicate n x := by
  have h := erase_last_split x (l ++ List.replicate n x) [] (by simp)
  rw [List.replicate_succ', ← List.append_assoc]
  simpa using h

theorem backrefs_map_linked {α : Type} (w w' : World α) (s : Addr) (n : Addr → Nat)
    (h : ∀ o, w'.observers o = (w.observers o).map (linked s (n o)))
    (hz : ∀ o, w.observers o = none → n o = 0) :
    ∀ o, backrefs w' o = backrefs w o ++ List.replicate (n o) s := by
  intro o
  unfold backrefs
  rw [h o]
  cases ho : w.observers o with
  | none => simp [hz o ho]
  | some ob => simp [linked]

/-- C13: let `S` be a live subject whose list `L` holds no placeholder and
only live observers, and `T` a free address. Copy-constructing `T` from `S`
returns normally; `T` then holds exactly `L` with counter zero, `S` and every
other subject are unchanged, and every observer has `T` appended to its list
once per slot it has in `L` (callbacks unchanged). The new links are
independent of the old ones: removing a linked observer `O` from `T`
afterwards erases the last slot `O` of `T` and one entry `T` of `O`, and
leaves `S` and the references of `O` to `S` as they were. -/
theorem C13_subject_copy_is_independent {α : Type} (w : World α) (t s : Addr) (sb : subject)
    (ht : w.subjects t = none) (hs : w.subjects s = some sb)
    (hnp : none ∉ sb.observers_)
    (hlive : ∀ o, some o ∈ sb.observers_ → (w.observers o).isSome) :
    ∃ w', subject.copy_ctor w t s = .done w' ∧
      w'.subjects t = some { observers_ := sb.observers_, notify_counter_ := 0 } ∧
      w'.subjects s = some sb ∧
      (∀ x, x ≠ t → w'.subjects x = w.subjects x) ∧
      (∀ o, backrefs w' o =
        backrefs w o ++ List.replicate (sb.observers_.count (some o)) t) ∧
      SameCallbacks w w' ∧
      ∀ o, some o ∈ sb.observers_ →
        ∃ w'', subject.remove_observer w' t o = .done w'' ∧
          w''.subjects s = some sb ∧
          slots w'' t = erase_last (some o) sb.observers_ ∧
          backrefs w'' o =
            backrefs w o ++ List.replicate (sb.observers_.count (some o) - 1) t ∧
          (backrefs w'' o).count s = (backrefs w o).count s := by
  have hne : s ≠ t := by
    intro e; rw [e, ht] at hs; cases hs
  obtain ⟨w', e1, e2, e3, e4, _, _⟩ := link_all_spec t sb.observers_
    (set_subject w t { observers_ := [], notify_counter_ := 0 })
    { observers_ := [], notify_counter_ := 0 } (by simp [set_subject]) hnp hlive
  have hst : w'.subjects s = some sb := by
    rw [e3 s hne]; simp [set_subject, hne, hs]
  have hback : ∀ o, backrefs w' o =
      backrefs w o ++ List.replicate (sb.observers_.count (some o)) t := by
    refine backrefs_map_linked w w' t (fun o => sb.observers_.count (some o)) e4 ?_
    intro o ho
    apply List.count_eq_zero.mpr
    intro hm
    have := hlive o hm
    rw [ho] at this
    cases this
  refine ⟨w', by simp [subject.copy_ctor, ht, hs, e1], by simpa using e2, hst, ?_, hback,
    ?_, ?_⟩
  · intro x hx
    rw [e3 x hx]; simp [set_subject, hx]
  · intro o
    rw [e4 o]
    cases hob : w.observers o <;> simp [set_subject, hob, linked]
  · intro o hmem
    obtain ⟨ob, hob⟩ := Option.isSome_iff_exists.mp (hlive o hmem)
    have hob' : w'.observers o = some (linked t (sb.observers_.count (some o)) ob) := by
      rw [e4 o]; simp [set_subject, hob]
    have hpos : 0 < sb.observers_.count (some o) := List.count_pos_iff.mpr hmem
    obtain ⟨k, hk⟩ : ∃ k, sb.observers_.count (some o) = k + 1 := ⟨_, (Nat.succ_pred_eq_of_pos hpos).symm⟩
    have hbw : backrefs w o = ob.subjects_ := backrefs_of_some hob
    have herase : erase_last t (linked t (sb.observers_.count (some o)) ob).subjects_
        = ob.subjects_ ++ List.replicate k t := by
      simp only [linked, hk]
      exact erase_last_append_replicate t ob.subjects_ k
    have hts : ¬ t = s := fun e => hne e.symm
    refine ⟨_, remove_observer_eq w' t o _ _ (by simpa using e2) hob', ?_, ?_, ?_, ?_⟩
    · simp [set_subject, set_observer, hne, hst]
    · rw [slots_set_subject]; simp
    · simp only [backrefs_set_subject, backrefs_set_observer, if_true]
      rw [herase, hbw, hk]
      simp
    · simp only [backrefs_set_subject, backrefs_set_observer, if_true]
      rw [herase, hbw]
      simp [List.count_replicate, hts]

/-- C13 at a concrete state: subject 1 holds `[10, 11, 10]`; subject 2 is
copied from it, and afterwards observer 10 is removed from subject 2. -/
theorem C13_subject_copy_is_independent_witness :
    ∃ w' w'', subject.copy_ctor
        (World.of_links [(1, 10), (1, 11), (1, 10)] (fun _ => none) [1] [10, 11] : World Nat)
        2 1 = .done w' ∧
      slots w' 2 = [some 10, some 11, some 10] ∧ slots w' 1 = [some 10, some 11, some 10] ∧
      backrefs w' 10 = [1, 1, 2, 2] ∧ backrefs w' 11 = [1, 2] ∧
      subject.remove_observer w' 2 10 = .done w'' ∧
      slots w'' 2 = [some 10, some 11] ∧ slots w'' 1 = [some 10, some 11, some 10] ∧
      backrefs w'' 10 = [1, 1, 2] := by
  obtain ⟨w', h1, _⟩ := C13_subject_copy_is_independent
    (World.of_links [(1, 10), (1, 11), (1, 10)] (fun _ => none) [1] [10, 11] : World Nat) 2 1
    { observers_ := [some 10, some 11, some 10], notify_counter_ := 0 } rfl rfl (by decide)
    (by
      intro o ho
      simp only [List.mem_cons, Option.some.injEq, List.mem_singleton] at ho
      rcases ho with h | h | h | h
      · subst h; rfl
      · subst h; rfl
      · subst h; rfl
      · cases h)
  have h : w' = _ := Outcome.done.inj (h1.symm.trans rfl)
  subst h
  exact ⟨_, _, h1, rfl, rfl, rfl, rfl, rfl, rfl, rfl, rfl⟩

/-- Copy assignment between two different subjects, in a state with symmetric
links and without placeholders in either list: the target, if idle, ends with
the list of the source; the source is unchanged; every observer loses its
entries for the target and then gets one per slot it has in the source. -/
theorem copy_assign_distinct {α : Type} (w : World α) (t s : Addr) (tb sb : subject)
    (ht : w.subjects t = some tb) (hs : w.subjects s = some sb) (hne : t ≠ s)
    (hidle : tb.notify_counter_ = 0)
    (hnpt : none ∉ tb.observers_) (hnps : none ∉ sb.observers_) (hsym : Sym w) :
    ∃ w', subject.copy_assign w t s = .done w' ∧
      w'.subjects t = some { tb with observers_ := sb.observers_ } ∧
      w'.subjects s = some sb ∧
      ∀ o, backrefs w' o = (backrefs w o).filter (fun x => x ≠ t) ++
        List.replicate (sb.observers_.count (some o)) t := by
  have hlt : ∀ o, some o ∈ tb.observers_ → (w.observers o).isSome := fun o ho =>
    live_of_slot w hsym t o (by rw [slots_of_some ht]; exact ho)
  have hls : ∀ o, some o ∈ sb.observers_ → (w.observers o).isSome := fun o ho =>
    live_of_slot w hsym s o (by rw [slots_of_some hs]; exact ho)
  obtain ⟨w1, hw1⟩ := unlink_all_ok t tb.observers_ w hnpt hlt
  obtain ⟨e1, e2⟩ := unlink_all_backrefs hsym (slots_of_some ht) hw1
  obtain ⟨_, _, _, _, _, e4⟩ := unlink_all_done t tb.observers_ w w1 hw1
  have hclear : subject.clear w t = .done (set_subject w1 t { tb with observers_ := [] }) := by
    simp [subject.clear, ht, hw1, Outcome.bind, hidle]
  have hlive1 : ∀ o, some o ∈ sb.observers_ →
      ((set_subject w1 t { tb with observers_ := [] }).observers o).isSome := by
    intro o ho
    show (w1.observers o).isSome
    rw [e4 o]
    obtain ⟨ob, hob⟩ := Option.isSome_iff_exists.mp (hls o ho)
    by_cases hm : some o ∈ tb.observers_ <;> simp [hm, hob]
  have hst : ¬ s = t := fun e => hne e.symm
  obtain ⟨w', f1, f2, f3, f4, _, _⟩ := link_all_spec t sb.observers_
    (set_subject w1 t { tb with observers_ := [] }) { tb with observers_ := [] }
    (by simp [set_subject]) hnps hlive1
  refine ⟨w', ?_, by simpa using f2, ?_, ?_⟩
  · simp only [subject.copy_assign, hclear, Outcome.bind]
    have : (set_subject w1 t { tb with observers_ := [] }).subjects s = some sb := by
      simp [set_subject, hst, e1, hs]
    rw [this]
    exact f1
  · rw [f3 s hst]; simp [set_subject, hst, e1, hs]
  · intro o
    have hb := backrefs_map_linked (set_subject w1 t { tb with observers_ := [] }) w' t
      (fun o => sb.observers_.count (some o)) f4
      (by
        intro o ho
        apply List.count_eq_zero.mpr
        intro hm
        have := hlive1 o hm
        rw [ho] at this
        cases this) o
    rw [hb]
    show backrefs w1 o ++ _ = _
    rw [e2 o]

/-- C14 (the code at the failing input): subject 1 holds `[10, 11]`; the copy
assignment of subject 1 to itself returns normally and leaves subject 1 with
an empty list and both observers without a reference to it, because `clear()`
runs before the list of the source (the same object) is read. -/
theorem C14_self_assignment_drops_all_links :
    slots two_links 1 = [some 10, some 11] ∧
    ∃ w', subject.copy_assign two_links 1 1 = .done w' ∧
      slots w' 1 = [] ∧ backrefs w' 10 = [] ∧ backrefs w' 11 = [] :=
  ⟨rfl, _, rfl, rfl, rfl, rfl⟩

/-! ## Teardown of an observer -/

theorem filter_erase_last {β : Type} [DecidableEq β] (x : β) (l : List β) :
    (erase_last x l).filter (fun y => y ≠ x) = l.filter (fun y => y ≠ x) := by
  by_cases hm : x ∈ l
  · obtain ⟨pre, post, e1, _, e3⟩ := erase_last_of_mem x l hm
    subst e1
    rw [e3]
    simp [List.filter_append, List.filter_cons]
  · rw [erase_last_of_not_mem x l hm]

theorem nulled_replace_last (o : Addr) (l : List (Option Addr)) :
    nulled o (replace_last (some o) none l) = nulled o l := by
  by_cases hm : some o ∈ l
  · obtain ⟨pre, post, e1, _, e3⟩ := replace_last_of_mem (some o) none l hm
    subst e1
    rw [e3]
    simp [nulled]
  · rw [replace_last_of_not_mem _ _ _ hm]

theorem without_id (o : Addr) (c : Int) (l : List (Option Addr)) (h : some o ∉ l) :
    without o c l = l := by
  unfold without nulled
  by_cases hc : c = 0
  · simp only [hc, if_true, List.filter_eq_self]
    intro x hx
    have : x ≠ some o := fun e => h (e ▸ hx)
    simpa using this
  · simp only [hc, if_false]
    conv_rhs => rw [← List.map_id l]
    apply List.map_congr_left
    intro x hx
    have : x ≠ some o := fun e => h (e ▸ hx)
    simp [this]

theorem getLast?_split {β : Type} (l : List β) (s : β) (h : l.getLast? = some s) :
    l = l.dropLast ++ [s] := by
  have hne : l ≠ [] := by
    intro e; rw [e] at h; simp at h
  have h2 := List.dropLast_append_getLast hne
  rw [List.getLast?_eq_getLast l hne] at h
  rw [← Option.some.inj h]
  exact h2.symm

theorem observer_clear_spec {α : Type} (o : Addr) :
    ∀ (n : Nat) (w : World α) (ob : observer α), w.observers o = some ob →
      ob.subjects_.length = n → (∀ s ∈ ob.subjects_, (w.subjects s).isSome) →
      ∃ w', (∀ k, observer.clear (n + 1 + k) w o = .done w') ∧
        (∀ fuel, fuel ≤ n → observer.clear fuel w o = .timeout) ∧
        w'.observers o = some { ob with subjects_ := [] } ∧
        (∀ o', o' ≠ o → w'.observers o' = w.observers o') ∧
        (∀ s, depth w' s = depth w s) ∧
        (∀ s, s ∉ ob.subjects_ → w'.subjects s = w.subjects s) ∧
        (Sym w → ∀ s, slots w' s = without o (depth w s) (slots w s)) := by
  intro n
  induction n with
  | zero =>
    intro w ob ho hlen _
    have hnil : ob.subjects_ = [] := List.length_eq_zero.mp hlen
    refine ⟨w, ?_, ?_, ?_, fun _ _ => rfl, fun _ => rfl, fun _ _ => rfl, ?_⟩
    · intro k
      have : 0 + 1 + k = k + 1 := by omega
      rw [this]
      simp [observer.clear, ho, hnil]
    · intro fuel hf
      have : fuel = 0 := by omega
      subst this
      rfl
    · rw [ho]; cases ob; simp_all
    · intro hsym s
      refine (without_id o _ _ ?_).symm
      intro hm
      have h1 : 0 < (slots w s).count (some o) := List.count_pos_iff.mpr hm
      rw [hsym s o, backrefs_of_some ho, hnil] at h1
      simp at h1
  | succ n ih =>
    intro w ob ho hlen hlive
    have hne : ob.subjects_ ≠ [] := by
      intro e; rw [e] at hlen; simp at hlen
    obtain ⟨s, hs⟩ : ∃ s, ob.subjects_.getLast? = some s :=
      ⟨_, List.getLast?_eq_getLast _ hne⟩
    have hsplit := getLast?_split _ s hs
    have hsm : s ∈ ob.subjects_ := by rw [hsplit]; simp
    obtain ⟨sb, hsb⟩ := Option.isSome_iff_exists.mp (hlive s hsm)
    have her : erase_last s ob.subjects_ = ob.subjects_.dropLast := by
      rw [hsplit]
      simpa using erase_last_split s ob.subjects_.dropLast [] (by simp)
    have hrem := remove_observer_eq w s o sb ob hsb ho
    rw [her] at hrem
    generalize hw1 : set_subject
      (set_observer w o { ob with subjects_ := ob.subjects_.dropLast }) s
      { sb with observers_ :=
          if sb.notify_counter_ = 0 then erase_last (some o) sb.observers_
          else replace_last (some o) none sb.observers_ } = w1 at hrem
    have ho1 : w1.observers o = some { ob with subjects_ := ob.subjects_.dropLast } := by
      rw [← hw1]; simp [set_subject, set_observer]
    have hlive1 : ∀ s' ∈ ob.subjects_.dropLast, (w1.subjects s').isSome := by
      intro s' hs'
      have : s' ∈ ob.subjects_ := List.dropLast_subset _ hs'
      rw [← hw1]
      by_cases e : s' = s
      · simp [set_subject, e]
      · simpa [set_subject, set_observer, e] using hlive s' this
    obtain ⟨w', f1, f2, f3, f4, f5, f6, f7⟩ := ih w1 _ ho1 (by simp [hlen]) hlive1
    have hd1 : ∀ x, depth w1 x = depth w x := by
      intro x
      rw [← hw1]
      by_cases e : x = s
      · subst e; simp [depth, set_subject, hsb]
      · simp [depth, set_subject, set_observer, e]
    refine ⟨w', ?_, ?_, by simpa using f3, ?_, ?_, ?_, ?_⟩
    · intro k
      have : n + 1 + 1 + k = (n + 1 + k) + 1 := by omega
      rw [this]
      simp only [observer.clear, ho, hs, hrem, Outcome.bind]
      exact f1 k
    · intro fuel hf
      cases fuel with
      | zero => rfl
      | succ f =>
        simp only [observer.clear, ho, hs, hrem, Outcome.bind]
        exact f2 f (by omega)
    · intro o' ho'
      rw [f4 o' ho', ← hw1]
      simp [set_subject, set_observer, ho']
    · intro x
      rw [f5 x, hd1 x]
    · intro x hx
      have hx1 : x ∉ ob.subjects_.dropLast := fun h => hx (List.dropLast_subset _ h)
      have hxs : x ≠ s := fun e => hx (e ▸ hsm)
      rw [f6 x hx1, ← hw1]
      simp [set_subject, set_observer, hxs]
    · intro hsym x
      have hsym1 : Sym w1 := remove_observer_sym hsym hrem
      rw [f7 hsym1 x, hd1 x]
      by_cases e : x = s
      · subst e
        have hsl1 : slots w1 x = if sb.notify_counter_ = 0
            then erase_last (some o) sb.observers_
            else replace_last (some o) none sb.observers_ := by
          rw [← hw1]; simp
        have hdx : depth w x = sb.notify_counter_ := by simp [depth, hsb]
        rw [hsl1, slots_of_some hsb, hdx]
        unfold without
        by_cases hz : sb.notify_counter_ = 0
        · simp only [hz, if_true]
          exact filter_erase_last (some o) sb.observers_
        · simp only [hz, if_false]
          exact nulled_replace_last o sb.observers_
      · have : slots w1 x = slots w x := by
          rw [← hw1]; simp [e]
        rw [this]

theorem not_mem_without (o : Addr) (c : Int) (l : List (Option Addr)) :
    some o ∉ without o c l := by
  unfold without nulled
  by_cases hc : c = 0
  · simp only [hc, if_true]
    intro h
    have := (List.mem_filter.mp h).2
    simp at this
  · simp only [hc, if_false, List.mem_map, not_exists, not_and]
    intro x _ h
    by_cases e : x = some o
    · simp [e] at h
    · simp [e] at h

/-- C17: let `O` be a live observer with `n` entries in its list, all of them
live subjects. Then the loop of `observer::clear` terminates after exactly `n`
iterations: with fuel above `n` it returns normally, always in the same state,
and with fuel `n` or less it has not finished. Every iteration is one
`remove_observer` on the last entry and shortens the list of `O` by exactly
that entry. At the end the list of `O` is empty, and the destructor then ends
the lifetime of `O`. In a state with symmetric links `O` occupies no live slot
of any subject afterwards: an idle subject has lost the slots of `O` (the
other slots keep their order), a dispatching subject keeps its length and has
placeholders in their place. -/
theorem C17_observer_teardown_terminates {α : Type} (w : World α) (o : Addr)
    (ob : observer α) (ho : w.observers o = some ob)
    (hlive : ∀ s ∈ ob.subjects_, (w.subjects s).isSome) :
    ∃ w', (∀ fuel, ob.subjects_.length < fuel → observer.clear fuel w o = .done w') ∧
      (∀ fuel, fuel ≤ ob.subjects_.length → observer.clear fuel w o = .timeout) ∧
      (∀ s, ob.subjects_.getLast? = some s →
        ∃ w1, subject.remove_observer w s o = .done w1 ∧
          backrefs w1 o = ob.subjects_.dropLast ∧
          (backrefs w1 o).length + 1 = ob.subjects_.length) ∧
      backrefs w' o = [] ∧
      (∀ fuel, ob.subjects_.length < fuel →
        observer.dtor fuel w o = .done (drop_observer w' o)) ∧
      (Sym w → ∀ s, some o ∉ slots w' s ∧
        (depth w s = 0 → slots w' s = (slots w s).filter (fun x => x ≠ some o)) ∧
        (depth w s ≠ 0 → slots w' s = nulled o (slots w s) ∧
          (slots w' s).length = (slots w s).length)) := by
  obtain ⟨w', f1, f2, f3, _, _, _, f7⟩ :=
    observer_clear_spec o ob.subjects_.length w ob ho rfl hlive
  have hdone : ∀ fuel, ob.subjects_.length < fuel → observer.clear fuel w o = .done w' := by
    intro fuel hf
    obtain ⟨k, hk⟩ : ∃ k, fuel = ob.subjects_.length + 1 + k := ⟨fuel - ob.subjects_.length - 1, by omega⟩
    rw [hk]
    exact f1 k
  refine ⟨w', hdone, f2, ?_, by simp [backrefs, f3], ?_, ?_⟩
  · intro s hs
    have hsplit := getLast?_split _ s hs
    have hsm : s ∈ ob.subjects_ := by rw [hsplit]; simp
    obtain ⟨sb, hsb⟩ := Option.isSome_iff_exists.mp (hlive s hsm)
    have her : erase_last s ob.subjects_ = ob.subjects_.dropLast := by
      rw [hsplit]
      simpa using erase_last_split s ob.subjects_.dropLast [] (by simp)
    refine ⟨_, remove_observer_eq w s o sb ob hsb ho, ?_, ?_⟩
    · simp [her]
    · simp only [backrefs_set_subject, backrefs_set_observer, if_true, her,
        List.length_dropLast]
      have : 0 < ob.subjects_.length := List.length_pos_of_mem hsm
      omega
  · intro fuel hf
    simp [observer.dtor, hdone fuel hf, Outcome.bind]
  · intro hsym s
    have h := f7 hsym s
    refine ⟨by rw [h]; exact not_mem_without o _ _, ?_, ?_⟩
    · intro hd
      rw [h]; simp [without, hd]
    · intro hd
      rw [h]
      simp [without, hd, nulled]

/-- C17 at a concrete state: observer 10 holds `[1, 2, 1]`; subject 1 is idle
with `[10, 11, 10]`, subject 2 is dispatching with `[10]`. Three iterations
empty the list; fuel 3 is not enough, fuel 4 is. -/
theorem C17_observer_teardown_terminates_witness :
    ∃ w', observer.clear 4
        (set_subject (World.of_links [(1, 10), (1, 11), (2, 10), (1, 10)] (fun _ => none)
          [1, 2] [10, 11] : World Nat) 2 { observers_ := [some 10], notify_counter_ := 1 })
        10 = .done w' ∧
      observer.clear 3
        (set_subject (World.of_links [(1, 10), (1, 11), (2, 10), (1, 10)] (fun _ => none)
          [1, 2] [10, 11] : World Nat) 2 { observers_ := [some 10], notify_counter_ := 1 })
        10 = .timeout ∧
      backrefs w' 10 = [] ∧ slots w' 1 = [some 11] ∧ slots w' 2 = [none] := by
  obtain ⟨w', h1, h2, _⟩ := C17_observer_teardown_terminates
    (set_subject (World.of_links [(1, 10), (1, 11), (2, 10), (1, 10)] (fun _ => none)
      [1, 2] [10, 11] : World Nat) 2 { observers_ := [some 10], notify_counter_ := 1 })
    10 { function_ := none, subjects_ := [1, 2, 1] } rfl
    (by
      intro s hs
      simp only [List.mem_cons, List.mem_singleton] at hs
      rcases hs with h | h | h | h
      · subst h; rfl
      · subst h; rfl
      · subst h; rfl
      · cases h)
  have h4 := h1 4 (by decide)
  have h : w' = _ := Outcome.done.inj (h4.symm.trans rfl)
  subst h
  exact ⟨_, h4, h2 3 (by decide), rfl, rfl, rfl⟩

/-! ## Moves: fix-up of the back-references -/

theorem renamed_replace_first {β : Type} [DecidableEq β] (x y : β) (l l' : List β)
    (h : replace_first x y l = some l') : renamed x y l' = renamed x y l := by
  have hm : x ∈ l := by
    by_contra hn
    rw [replace_first_of_not_mem x y l hn] at h
    cases h
  obtain ⟨pre, post, e1, _, e3⟩ := replace_first_of_mem x y l hm
  rw [e3] at h
  cases h
  subst e1
  simp [renamed]

theorem renamed_of_not_mem {β : Type} [DecidableEq β] (x y : β) (l : List β) (h : x ∉ l) :
    renamed x y l = l := by
  unfold renamed
  conv_rhs => rw [← List.map_id l]
  apply List.map_congr_left
  intro z hz
  have : z ≠ x := fun e => h (e ▸ hz)
  simp [this]

theorem count_after_replace_first {β : Type} [DecidableEq β] [BEq β] [LawfulBEq β]
    (x y : β) (hxy : x ≠ y) (l l' : List β) (h : replace_first x y l = some l') :
    l'.count x + 1 = l.count x := by
  have := count_replace_first x y x hxy l l' h
  simpa [hxy] using this

theorem retarget_subject_no_assert {α : Type} (old new : Addr) (hne : old ≠ new)
    (l : List (Option Addr)) :
    ∀ (w : World α), (∀ o, l.count (some o) ≤ (backrefs w o).count old) →
      retarget_subject old new l w ≠ .fault .assert_failed := by
  induction l with
  | nil => intro w _; simp [retarget_subject]
  | cons x rest ih =>
    intro w hc
    cases x with
    | none => simp [retarget_subject]
    | some p =>
      simp only [retarget_subject]
      cases hp : w.observers p with
      | none => simp
      | some ob =>
        simp only []
        have hcp := hc p
        rw [backrefs_of_some hp] at hcp
        simp only [List.count_cons, beq_self_eq_true, if_true] at hcp
        have hm : old ∈ ob.subjects_ := List.count_pos_iff.mp (by omega)
        obtain ⟨pre, post, _, _, e3⟩ := replace_first_of_mem old new ob.subjects_ hm
        rw [e3]
        simp only []
        apply ih
        intro o
        by_cases hop : o = p
        · subst hop
          have h1 := count_after_replace_first old new hne _ _ e3
          simp only [backrefs_set_observer, if_true]
          omega
        · have h2 := hc o
          have hne' : (some p == some o) = false := by simpa using fun e => hop e.symm
          simp only [List.count_cons, hne'] at h2
          simp only [backrefs_set_observer, hop, if_false]
          simpa using h2

theorem retarget_subject_exact {α : Type} (old new : Addr) (hne : old ≠ new)
    (l : List (Option Addr)) :
    ∀ (w : World α), none ∉ l → (∀ o, l.count (some o) = (backrefs w o).count old) →
      ∃ w', retarget_subject old new l w = .done w' ∧
        w'.subjects = w.subjects ∧ w'.trace = w.trace ∧ w'.output = w.output ∧
        ∀ o, w'.observers o = (w.observers o).map (retargeted old new) := by
  induction l with
  | nil =>
    intro w _ hc
    refine ⟨w, rfl, rfl, rfl, rfl, ?_⟩
    intro o
    cases ho : w.observers o with
    | none => rfl
    | some ob =>
      have h0 := hc o
      rw [backrefs_of_some ho] at h0
      have hn : old ∉ ob.subjects_ := List.count_eq_zero.mp (by simpa using h0.symm)
      simp only [Option.map_some', retargeted, renamed_of_not_mem old new _ hn]
  | cons x rest ih =>
    intro w hn hc
    cases x with
    | none => simp at hn
    | some p =>
      have hcp := hc p
      simp only [List.count_cons, beq_self_eq_true, if_true] at hcp
      have hm : old ∈ backrefs w p := List.count_pos_iff.mp (by omega)
      cases hp : w.observers p with
      | none => rw [backrefs_of_none hp] at hm; simp at hm
      | some ob =>
        rw [backrefs_of_some hp] at hm hcp
        obtain ⟨pre, post, _, _, e3⟩ := replace_first_of_mem old new ob.subjects_ hm
        obtain ⟨w', f1, f2, f3, f4, f5⟩ := ih
          (set_observer w p { ob with subjects_ := pre ++ new :: post }) (by simpa using hn)
          (by
            intro o
            by_cases hop : o = p
            · subst hop
              have h1 := count_after_replace_first old new hne _ _ e3
              simp only [backrefs_set_observer, if_true]
              omega
            · have h2 := hc o
              have hne' : (some p == some o) = false := by simpa using fun e => hop e.symm
              simp only [List.count_cons, hne'] at h2
              simp only [backrefs_set_observer, hop, if_false]
              simpa using h2)
        refine ⟨w', ?_, f2, f3, f4, ?_⟩
        · simp only [retarget_subject, hp, e3]
          exact f1
        · intro o
          rw [f5 o]
          by_cases hop : o = p
          · subst hop
            have := renamed_replace_first old new _ _ e3
            simp [set_observer, hp, retargeted, this]
          · simp [set_observer, hop]

theorem retarget_observer_no_assert {α : Type} (old new : Addr) (hne : old ≠ new)
    (l : List Addr) :
    ∀ (w : World α), (∀ s, l.count s ≤ (slots w s).count (some old)) →
      retarget_observer old new l w ≠ .fault .assert_failed := by
  have hne' : (some old : Option Addr) ≠ some new := fun e => hne (Option.some.inj e)
  induction l with
  | nil => intro w _; simp [retarget_observer]
  | cons p rest ih =>
    intro w hc
    simp only [retarget_observer]
    cases hp : w.subjects p with
    | none => simp
    | some sb =>
      simp only []
      have hcp := hc p
      rw [slots_of_some hp] at hcp
      simp only [List.count_cons, beq_self_eq_true, if_true] at hcp
      have hm : some old ∈ sb.observers_ := List.count_pos_iff.mp (by omega)
      obtain ⟨pre, post, _, _, e3⟩ := replace_first_of_mem (some old) (some new) sb.observers_ hm
      rw [e3]
      simp only []
      apply ih
      intro s
      by_cases hsp : s = p
      · subst hsp
        have h1 := count_after_replace_first (some old) (some new) hne' _ _ e3
        simp only [slots_set_subject, if_true]
        omega
      · have h2 := hc s
        have hb : (p == s) = false := by simpa using fun e => hsp e.symm
        simp only [List.count_cons, hb] at h2
        simp only [slots_set_subject, hsp, if_false]
        simpa using h2

theorem retarget_observer_exact {α : Type} (old new : Addr) (hne : old ≠ new)
    (l : List Addr) :
    ∀ (w : World α), (∀ s, l.count s = (slots w s).count (some old)) →
      ∃ w', retarget_observer old new l w = .done w' ∧
        w'.observers = w.observers ∧ w'.trace = w.trace ∧ w'.output = w.output ∧
        ∀ s, w'.subjects s = (w.subjects s).map (reslotted old new) := by
  have hne' : (some old : Option Addr) ≠ some new := fun e => hne (Option.some.inj e)
  induction l with
  | nil =>
    intro w hc
    refine ⟨w, rfl, rfl, rfl, rfl, ?_⟩
    intro s
    cases hs : w.subjects s with
    | none => rfl
    | some sb =>
      have h0 := hc s
      rw [slots_of_some hs] at h0
      have hn : some old ∉ sb.observers_ := List.count_eq_zero.mp (by simpa using h0.symm)
      simp only [Option.map_some', reslotted, renamed_of_not_mem _ _ _ hn]
  | cons p rest ih =>
    intro w hc
    have hcp := hc p
    simp only [List.count_cons, beq_self_eq_true, if_true] at hcp
    have hm : some old ∈ slots w p := List.count_pos_iff.mp (by omega)
    cases hp : w.subjects p with
    | none => rw [slots_of_none hp] at hm; simp at hm
    | some sb =>
      rw [slots_of_some hp] at hm hcp
      obtain ⟨pre, post, _, _, e3⟩ :=
        replace_first_of_mem (some old) (some new) sb.observers_ hm
      obtain ⟨w', f1, f2, f3, f4, f5⟩ := ih
        (set_subject w p { sb with observers_ := pre ++ some new :: post })
        (by
          intro s
          by_cases hsp : s = p
          · subst hsp
            have h1 := count_after_replace_first (some old) (some new) hne' _ _ e3
            simp only [slots_set_subject, if_true]
            omega
          · have h2 := hc s
            have hb : (p == s) = false := by simpa using fun e => hsp e.symm
            simp only [List.count_cons, hb] at h2
            simp only [slots_set_subject, hsp, if_false]
            simpa using h2)
      refine ⟨w', ?_, f2, f3, f4, ?_⟩
      · simp only [retarget_observer, hp, e3]
        exact f1
      · intro s
        rw [f5 s]
        by_cases hsp : s = p
        · subst hsp
          have := renamed_replace_first (some old) (some new) _ _ e3
          simp [set_subject, hp, reslotted, this]
        · simp [set_subject, hsp]

theorem unlink_all_no_assert {α : Type} (s : Addr) (l : List (Option Addr)) :
    ∀ (w : World α), unlink_all s l w ≠ .fault .assert_failed := by
  induction l with
  | nil => intro w; simp [unlink_all]
  | cons x rest ih =>
    intro w
    cases x with
    | none => simp [unlink_all]
    | some o =>
      simp only [unlink_all]
      cases w.observers o with
      | none => simp
      | some ob => exact ih _

theorem subject_clear_no_assert {α : Type} (w : World α) (s : Addr) :
    subject.clear w s ≠ .fault .assert_failed := by
  unfold subject.clear
  cases hs : w.subjects s with
  | none => simp
  | some sb =>
    simp only []
    cases hu : unlink_all s sb.observers_ w with
    | done w1 =>
      simp only [Outcome.bind]
      by_cases hz : sb.notify_counter_ = 0 <;> simp [hz]
    | fault f =>
      simp only [Outcome.bind]
      intro h
      have := unlink_all_no_assert s sb.observers_ w
      rw [hu] at this
      exact this h
    | timeout => simp [Outcome.bind]

theorem remove_observer_no_assert {α : Type} (w : World α) (s o : Addr) :
    subject.remove_observer w s o ≠ .fault .assert_failed := by
  unfold subject.remove_observer
  cases w.subjects s with
  | none => simp
  | some sb =>
    cases w.observers o with
    | none => simp
    | some ob =>
      by_cases hz : sb.notify_counter_ = 0 <;> simp [hz]

theorem observer_clear_no_assert {α : Type} (o : Addr) :
    ∀ (fuel : Nat) (w : World α), observer.clear fuel w o ≠ .fault .assert_failed := by
  intro fuel
  induction fuel with
  | zero => intro w; simp [observer.clear]
  | succ n ih =>
    intro w
    simp only [observer.clear]
    cases w.observers o with
    | none => simp
    | some ob =>
      simp only []
      cases ob.subjects_.getLast? with
      | none => simp
      | some s =>
        simp only []
        cases hr : subject.remove_observer w s o with
        | done w1 => simp only [Outcome.bind]; exact ih w1
        | fault f =>
          simp only [Outcome.bind]
          intro h
          have := remove_observer_no_assert w s o
          rw [hr] at this
          exact this h
        | timeout => simp [Outcome.bind]

theorem subject_move_ctor_no_assert {α : Type} (w : World α) (hsym : Sym w) (x other : Addr) :
    subject.move_ctor w x other ≠ .fault .assert_failed := by
  unfold subject.move_ctor
  cases hx : w.subjects x with
  | some _ => simp
  | none =>
    cases ho : w.subjects other with
    | none => simp
    | some src =>
      simp only []
      have hne : other ≠ x := by
        intro e; rw [e, hx] at ho; cases ho
      apply retarget_subject_no_assert other x hne
      intro o
      show _ ≤ (backrefs w o).count other
      rw [← hsym other o, slots_of_some ho]

theorem subject_move_assign_no_assert {α : Type} (w : World α) (hsym : Sym w)
    (x other : Addr) : subject.move_assign w x other ≠ .fault .assert_failed := by
  unfold subject.move_assign
  cases hc : subject.clear w x with
  | fault f =>
    simp only [Outcome.bind]
    intro h
    have := subject_clear_no_assert w x
    rw [hc] at this
    exact this h
  | timeout => simp [Outcome.bind]
  | done w1 =>
    simp only [Outcome.bind]
    obtain ⟨hsym1, _, hlive, _⟩ := clear_sym hsym hc
    obtain ⟨me, hme⟩ := Option.isSome_iff_exists.mp hlive
    cases ho : w1.subjects other with
    | none => simp
    | some src =>
      simp only []
      have e1 : modify_subject w1 x (fun me => { me with observers_ := src.observers_ })
          = set_subject w1 x { me with observers_ := src.observers_ } := by
        simp [modify_subject, hme]
      rw [e1]
      by_cases hne : x = other
      · subst hne
        have e2 : modify_subject (set_subject w1 x { me with observers_ := src.observers_ }) x
            (fun y => { y with observers_ := [] })
            = set_subject (set_subject w1 x { me with observers_ := src.observers_ }) x
              { me with observers_ := [] } := by
          simp [modify_subject, set_subject]
        rw [e2]
        simp [retarget_subject]
      · have hno : ¬ other = x := fun e => hne e.symm
        have e2 : modify_subject (set_subject w1 x { me with observers_ := src.observers_ })
            other (fun y => { y with observers_ := [] })
            = set_subject (set_subject w1 x { me with observers_ := src.observers_ }) other
              { src with observers_ := [] } := by
          simp [modify_subject, set_subject, hno, ho]
        rw [e2]
        apply retarget_subject_no_assert other x hno
        intro o
        show _ ≤ (backrefs w1 o).count other
        rw [← hsym1 other o, slots_of_some ho]
        simp [hne]

theorem observer_move_ctor_no_assert {α : Type} (w : World α) (hsym : Sym w)
    (x other : Addr) : observer.move_ctor w x other ≠ .fault .assert_failed := by
  unfold observer.move_ctor
  cases hx : w.observers x with
  | some _ => simp
  | none =>
    cases ho : w.observers other with
    | none => simp
    | some src =>
      simp only []
      have hne : other ≠ x := by
        intro e; rw [e, hx] at ho; cases ho
      apply retarget_observer_no_assert other x hne
      intro s
      show _ ≤ (slots w s).count (some other)
      rw [hsym s other, backrefs_of_some ho]

theorem observer_move_assign_no_assert {α : Type} (fuel : Nat) (w : World α) (hsym : Sym w)
    (x other : Addr) : observer.move_assign fuel w x other ≠ .fault .assert_failed := by
  unfold observer.move_assign
  cases hc : observer.clear fuel w x with
  | fault f =>
    simp only [Outcome.bind]
    intro h
    have := observer_clear_no_assert x fuel w
    rw [hc] at this
    exact this h
  | timeout => simp [Outcome.bind]
  | done w1 =>
    simp only [Outcome.bind]
    obtain ⟨hsym1, hz, hlive⟩ := observer_clear_sym x fuel w w1 hsym hc
    cases hsrc : w1.observers other with
    | none => simp
    | some src =>
      simp only []
      obtain ⟨t1, t2⟩ := take_members_links w1 x other src.function_ hlive (by simp [hsrc])
      by_cases hne : x = other
      · subst hne
        have hl : backrefs (observer.take_members w1 x x src.function_) x = [] := by
          rw [t2]; simp
        rw [hl]
        simp [retarget_observer]
      · have hno : ¬ other = x := fun e => hne e.symm
        have hl : backrefs (observer.take_members w1 x other src.function_) x
            = backrefs w1 other := by
          rw [t2]; simp [hne]
        rw [hl]
        apply retarget_observer_no_assert other x hno
        intro s
        rw [t1 s, hsym1 s other]

theorem subject_move_ctor_spec {α : Type} (w : World α) (hsym : Sym w) (x other : Addr)
    (src : subject) (hx : w.subjects x = none) (ho : w.subjects other = some src)
    (hnp : none ∉ src.observers_) :
    ∃ w', subject.move_ctor w x other = .done w' ∧
      w'.subjects x = some { observers_ := src.observers_, notify_counter_ := 0 } ∧
      w'.subjects other = some { src with observers_ := [] } ∧
      (∀ y, y ≠ x → y ≠ other → w'.subjects y = w.subjects y) ∧
      (∀ o, w'.observers o = (w.observers o).map (retargeted other x)) ∧
      w'.trace = w.trace ∧ w'.output = w.output := by
  have hne : other ≠ x := by
    intro e; rw [e, hx] at ho; cases ho
  obtain ⟨w', e1, e2, e3, e4, e5⟩ := retarget_subject_exact other x hne src.observers_
    (set_subject (set_subject w other { src with observers_ := [] })
      x { observers_ := src.observers_, notify_counter_ := 0 }) hnp
    (by
      intro o
      show _ = (backrefs w o).count other
      rw [← hsym other o, slots_of_some ho])
  refine ⟨w', by simp [subject.move_ctor, hx, ho, e1], ?_, ?_, ?_, e5, e3, e4⟩
  · rw [e2]; simp [set_subject]
  · rw [e2]; simp [set_subject, hne]
  · intro y h1 h2
    rw [e2]; simp [set_subject, h1, h2]

/-- C11: in a state with symmetric links let `S` be an idle subject whose list
`L` holds no placeholder, and `S'` a free address. Move-constructing `S'` from
`S` returns normally; `S'` then holds exactly `L` with counter zero, `S` holds
the empty list, no other subject changes, and the list of every observer is
its old list with every entry `S` replaced by `S'` in place (callbacks
unchanged). Hence, when the callbacks of the linked observers only leave
marks, invoking `S'` after the move makes the same notifications and leaves
the same marks, in the same order, as invoking `S` before the move, and
invoking `S` after the move notifies nobody. -/
theorem C11_subject_move_preserves_delivery {α : Type} (fuel : Nat) (w : World α)
    (hsym : Sym w) (s' s : Addr) (a : α) (sb : subject)
    (hfree : w.subjects s' = none) (hs : w.subjects s = some sb)
    (hidle : sb.notify_counter_ = 0) (hnp : none ∉ sb.observers_)
    (hq : ∀ o, some o ∈ sb.observers_ →
      ∃ ob f, w.observers o = some ob ∧ ob.function_ = some f ∧ Quiet (f a)) :
    ∃ w' w1 w2 w3, subject.move_ctor w s' s = .done w' ∧
      w'.subjects s' = some { observers_ := sb.observers_, notify_counter_ := 0 } ∧
      slots w' s = [] ∧ depth w' s = 0 ∧
      (∀ y, y ≠ s' → y ≠ s → w'.subjects y = w.subjects y) ∧
      (∀ o, backrefs w' o = renamed s s' (backrefs w o)) ∧
      SameCallbacks w w' ∧
      exec (fuel + 2) (.call s a) w = .done w1 ∧
      exec (fuel + 2) (.call s' a) w' = .done w2 ∧
      exec (fuel + 2) (.call s a) w' = .done w3 ∧
      (∃ T M, w1.trace = w.trace ++ T ∧ w2.trace = w'.trace ++ T ∧
        w1.output = w.output ++ M ∧ w2.output = w'.output ++ M ∧
        T = sb.observers_.reduceOption.map (fun x => (x, a))) ∧
      w3.trace = w'.trace ∧ w3.output = w'.output := by
  obtain ⟨w', e1, e2, e3, e4, e5, _, _⟩ :=
    subject_move_ctor_spec w hsym s' s sb hfree hs hnp
  have hcb : ∀ o, callback_body w' o a = callback_body w o a := by
    intro o
    unfold callback_body
    rw [e5 o]
    cases w.observers o <;> simp [retargeted]
  obtain ⟨w1, f1, f2, f3, _, _⟩ := quiet_call fuel w s a sb hs hidle hnp hq
  obtain ⟨w2, g1, g2, g3, _, _⟩ := quiet_call fuel w' s' a
    { observers_ := sb.observers_, notify_counter_ := 0 } e2 rfl hnp
    (by
      intro o ho
      obtain ⟨ob, f, h1, h2, h3⟩ := hq o ho
      exact ⟨retargeted s s' ob, f, by rw [e5 o, h1]; rfl, h2, h3⟩)
  obtain ⟨w3, k1, k2, k3, _, _⟩ := quiet_call fuel w' s a
    { sb with observers_ := [] } e3 hidle (by simp) (by simp)
  refine ⟨w', w1, w2, w3, e1, e2, by simp [slots, e3], by simp [depth, e3, hidle], e4,
    ?_, ?_, f1, g1, k1, ⟨_, _, f2, g2, f3, ?_, rfl⟩, by simpa using k2, by simpa using k3⟩
  · intro o
    unfold backrefs
    rw [e5 o]
    cases w.observers o <;> simp [retargeted, renamed]
  · intro o
    rw [e5 o]
    cases w.observers o <;> simp [retargeted]
  · rw [g3]
    congr 1
    apply List.flatMap_congr
    intro o _
    rw [hcb o]

theorem observer_move_ctor_spec {α : Type} (w : World α) (hsym : Sym w) (x other : Addr)
    (src : observer α) (hx : w.observers x = none) (ho : w.observers other = some src) :
    ∃ w', observer.move_ctor w x other = .done w' ∧
      w'.observers x = some { function_ := src.function_, subjects_ := src.subjects_ } ∧
      w'.observers other = some { function_ := none, subjects_ := [] } ∧
      (∀ y, y ≠ x → y ≠ other → w'.observers y = w.observers y) ∧
      (∀ s, w'.subjects s = (w.subjects s).map (reslotted other x)) ∧
      w'.trace = w.trace ∧ w'.output = w.output := by
  have hne : other ≠ x := by
    intro e; rw [e, hx] at ho; cases ho
  obtain ⟨w', e1, e2, e3, e4, e5⟩ := retarget_observer_exact other x hne src.subjects_
    (set_observer (set_observer w other { function_ := none, subjects_ := [] })
      x { function_ := src.function_, subjects_ := src.subjects_ })
    (by
      intro s
      show _ = (slots w s).count (some other)
      rw [hsym s other, backrefs_of_some ho])
  refine ⟨w', by simp [observer.move_ctor, hx, ho, e1], ?_, ?_, ?_, e5, e3, e4⟩
  · rw [e2]; simp [set_observer]
  · rw [e2]; simp [set_observer, hne]
  · intro y h1 h2
    rw [e2]; simp [set_observer, h1, h2]

theorem reduceOption_renamed (old new : Addr) (l : List (Option Addr)) :
    (renamed (some old) (some new) l).reduceOption = renamed old new l.reduceOption := by
  induction l with
  | nil => rfl
  | cons x rest ih =>
    cases x with
    | none =>
      simp only [renamed, List.map_cons, List.reduceOption_cons_of_none] at ih ⊢
      simpa using ih
    | some v =>
      by_cases h : v = old
      · subst h
        simp only [renamed, List.map_cons, if_true, List.reduceOption_cons_of_some] at ih ⊢
        rw [ih]
      · have h' : ¬ (some v : Option Addr) = some old := fun e => h (Option.some.inj e)
        simp only [renamed, List.map_cons, h, h', if_false,
          List.reduceOption_cons_of_some] at ih ⊢
        rw [ih]

/-- C12: in a state with symmetric links let `O` be a live observer and `O'`
a free address. Move-constructing `O'` from `O` returns normally; `O'` then
has the callback and the whole subject list of `O`, `O` has no links (and an
empty callback), no other observer changes, and the list of every subject is
its old list with every slot `O` replaced by `O'` at the same index, however
often `O` occurs. Hence, for every idle subject without placeholder whose
linked callbacks only leave marks, an invocation after the move notifies the
old slots with `O'` in the places of `O` and leaves exactly the marks that an
invocation before the move leaves, in the same order. -/
theorem C12_observer_move_preserves_delivery {α : Type} (fuel : Nat) (w : World α)
    (hsym : Sym w) (o' o : Addr) (ob : observer α)
    (hfree : w.observers o' = none) (ho : w.observers o = some ob) :
    ∃ w', observer.move_ctor w o' o = .done w' ∧
      w'.observers o' = some { function_ := ob.function_, subjects_ := ob.subjects_ } ∧
      backrefs w' o = [] ∧
      (∀ y, y ≠ o' → y ≠ o → w'.observers y = w.observers y) ∧
      (∀ s, slots w' s = renamed (some o) (some o') (slots w s)) ∧
      (∀ s, depth w' s = depth w s) ∧
      ∀ (s : Addr) (a : α) (sb : subject), w.subjects s = some sb →
        sb.notify_counter_ = 0 → none ∉ sb.observers_ →
        (∀ x, some x ∈ sb.observers_ →
          ∃ obx f, w.observers x = some obx ∧ obx.function_ = some f ∧ Quiet (f a)) →
        ∃ w1 w2 M, exec (fuel + 2) (.call s a) w = .done w1 ∧
          exec (fuel + 2) (.call s a) w' = .done w2 ∧
          w1.trace = w.trace ++ sb.observers_.reduceOption.map (fun x => (x, a)) ∧
          w2.trace = w'.trace ++
            (renamed o o' sb.observers_.reduceOption).map (fun x => (x, a)) ∧
          w1.output = w.output ++ M ∧ w2.output = w'.output ++ M := by
  obtain ⟨w', e1, e2, e3, e4, e5, _, _⟩ := observer_move_ctor_spec w hsym o' o ob hfree ho
  have hne : o ≠ o' := by
    intro e; rw [e, hfree] at ho; cases ho
  refine ⟨w', e1, e2, by simp [backrefs, e3], e4, ?_, ?_, ?_⟩
  · intro s
    unfold slots
    rw [e5 s]
    cases w.subjects s <;> simp [reslotted, renamed]
  · intro s
    unfold depth
    rw [e5 s]
    cases w.subjects s <;> simp [reslotted]
  · intro s a sb hs hidle hnp hq
    have hlive : ∀ x, some x ∈ sb.observers_ → x ≠ o' := by
      intro x hx e
      obtain ⟨obx, _, h1, _, _⟩ := hq x hx
      rw [e, hfree] at h1
      cases h1
    have hbody : ∀ x, some x ∈ sb.observers_ →
        callback_body w' (if x = o then o' else x) a = callback_body w x a := by
      intro x hx
      by_cases hxo : x = o
      · subst hxo
        simp [callback_body, e2, ho]
      · simp only [hxo, if_false]
        unfold callback_body
        rw [e4 x (hlive x hx) hxo]
    obtain ⟨w1, f1, f2, f3, _, _⟩ := quiet_call fuel w s a sb hs hidle hnp hq
    obtain ⟨w2, g1, g2, g3, _, _⟩ := quiet_call fuel w' s a (reslotted o o' sb)
      (by rw [e5 s, hs]; rfl) hidle
      (by
        simp only [reslotted, renamed, List.mem_map, not_exists, not_and]
        intro x hx h
        by_cases e : x = some o
        · simp [e] at h
        · simp only [e, if_false] at h
          exact hnp (h ▸ hx))
      (by
        intro x hx
        simp only [reslotted, renamed, List.mem_map] at hx
        obtain ⟨y, hy, hyx⟩ := hx
        by_cases e : y = some o
        · simp only [e, if_true, Option.some.injEq] at hyx
          subst hyx
          obtain ⟨obx, f, h1, h2, h3⟩ := hq o (e ▸ hy)
          rw [ho] at h1
          cases h1
          exact ⟨_, f, e2, h2, h3⟩
        · simp only [e, if_false] at hyx
          subst hyx
          obtain ⟨obx, f, h1, h2, h3⟩ := hq x hy
          have hxo : x ≠ o := fun h => e (by rw [h])
          exact ⟨obx, f, by rw [e4 x (hlive x hy) hxo]; exact h1, h2, h3⟩)
    refine ⟨w1, w2, _, f1, g1, f2, ?_, f3, ?_⟩
    · rw [g2]
      simp only [reslotted, reduceOption_renamed]
    · rw [g3]
      simp only [reslotted]
      rw [reduceOption_renamed]
      congr 1
      unfold renamed
      rw [List.flatMap_map]
      apply List.flatMap_congr
      intro x hx
      exact congrArg marks (hbody x (List.reduceOption_mem_iff.mp hx))

theorem echo_world_sym : Sym echo_world :=
  of_links_sym _ _ _ _ (by decide)

theorem C11_subject_move_preserves_delivery_witness :
    ∃ w' w2 w3, subject.move_ctor echo_world 2 1 = .done w' ∧
      slots w' 2 = [some 10, some 11, some 10] ∧ slots w' 1 = [] ∧
      backrefs w' 10 = [2, 2] ∧ backrefs w' 11 = [2] ∧
      exec 2 (.call 2 5) w' = .done w2 ∧ w2.trace = [(10, 5), (11, 5), (10, 5)] ∧
      exec 2 (.call 1 5) w' = .done w3 ∧ w3.trace = [] := by
  obtain ⟨w', w1, w2, w3, h1, h2, h3, _, _, h4, _, _, h5, h6, ⟨T, M, _, h7, _, _, h8⟩, h9, _⟩ :=
    C11_subject_move_preserves_delivery 0 echo_world echo_world_sym 2 1 5
      { observers_ := [some 10, some 11, some 10], notify_counter_ := 0 } rfl rfl rfl
      (by decide)
      (by
        intro o ho
        simp only [List.mem_cons, Option.some.injEq, List.mem_singleton, List.not_mem_nil,
          or_false] at ho
        rcases ho with h | h | h
        · subst h; exact ⟨_, _, rfl, rfl, fun st hst => ⟨_, List.mem_singleton.mp hst⟩⟩
        · subst h; exact ⟨_, _, rfl, rfl, fun st hst => ⟨_, List.mem_singleton.mp hst⟩⟩
        · subst h; exact ⟨_, _, rfl, rfl, fun st hst => ⟨_, List.mem_singleton.mp hst⟩⟩)
  have ht : w'.trace = [] := by
    have h : w' = _ := Outcome.done.inj (h1.symm.trans rfl)
    rw [h]; rfl
  refine ⟨w', w2, w3, h1, by simp [slots, h2], h3, ?_, ?_, h5, ?_, h6, ?_⟩
  · rw [h4 10]; rfl
  · rw [h4 11]; rfl
  · rw [h7, h8, ht]; rfl
  · rw [h9, ht]

theorem C12_observer_move_preserves_delivery_witness :
    ∃ w' w1 w2, observer.move_ctor echo_world 12 10 = .done w' ∧
      slots w' 1 = [some 12, some 11, some 12] ∧ backrefs w' 12 = [1, 1] ∧
      backrefs w' 10 = [] ∧
      exec 2 (.call 1 5) echo_world = .done w1 ∧ exec 2 (.call 1 5) w' = .done w2 ∧
      w1.trace = [(10, 5), (11, 5), (10, 5)] ∧ w2.trace = [(12, 5), (11, 5), (12, 5)] ∧
      w1.output = [15, 16, 15] ∧ w2.output = w1.output := by
  obtain ⟨w', h1, h2, h3, _, h4, _, h5⟩ :=
    C12_observer_move_preserves_delivery 0 echo_world echo_world_sym 12 10
      { function_ := some fun a => [.emit (10 + a)], subjects_ := [1, 1] } rfl rfl
  obtain ⟨w1, w2, M, g1, g2, g3, g4, g5, g6⟩ := h5 1 5
    { observers_ := [some 10, some 11, some 10], notify_counter_ := 0 } rfl rfl (by decide)
    (by
      intro o ho
      simp only [List.mem_cons, Option.some.injEq, List.mem_singleton, List.not_mem_nil,
        or_false] at ho
      rcases ho with h | h | h
      · subst h; exact ⟨_, _, rfl, rfl, fun st hst => ⟨_, List.mem_singleton.mp hst⟩⟩
      · subst h; exact ⟨_, _, rfl, rfl, fun st hst => ⟨_, List.mem_singleton.mp hst⟩⟩
      · subst h; exact ⟨_, _, rfl, rfl, fun st hst => ⟨_, List.mem_singleton.mp hst⟩⟩)
  have hw : w' = _ := Outcome.done.inj (h1.symm.trans rfl)
  have ht : w'.trace = [] := by rw [hw]; rfl
  have ho : w'.output = [] := by rw [hw]; rfl
  have hw1 : w1 = _ := Outcome.done.inj (g1.symm.trans rfl)
  have hM : w1.output = [15, 16, 15] := by rw [hw1]; rfl
  refine ⟨w', w1, w2, h1, ?_, by simp [backrefs, h2], h3, g1, g2, ?_, ?_, hM, ?_⟩
  · rw [h4 1]; rfl
  · rw [g3]; rfl
  · rw [g4, ht]; rfl
  · rw [g6, ho, g5]; rfl

/-- C19: in a state with symmetric links (for every pair the number of slots
of `S` holding `O` equals the number of entries of `O` holding `S`) no move
fails its fix-up assertion: neither the move constructor nor the move
assignment of a subject or of an observer ends with a failed assertion,
whatever the target and the source are and however often a partner occurs in
the moved list. The two fix-up loops themselves find the moved-from identity
at every iteration: a move constructor from a live source into a fresh object
returns normally (for a subject, when its list has no placeholder). -/
theorem C19_move_fixup_never_asserts {α : Type} (fuel : Nat) (w : World α) (hsym : Sym w) :
    (∀ x other, subject.move_ctor w x other ≠ .fault .assert_failed) ∧
    (∀ x other, subject.move_assign w x other ≠ .fault .assert_failed) ∧
    (∀ x other, observer.move_ctor w x other ≠ .fault .assert_failed) ∧
    (∀ x other, observer.move_assign fuel w x other ≠ .fault .assert_failed) ∧
    (∀ x other src, w.subjects x = none → w.subjects other = some src →
      none ∉ src.observers_ → ∃ w', subject.move_ctor w x other = .done w') ∧
    (∀ x other src, w.observers x = none → w.observers other = some src →
      ∃ w', observer.move_ctor w x other = .done w') := by
  refine ⟨subject_move_ctor_no_assert w hsym, subject_move_assign_no_assert w hsym,
    observer_move_ctor_no_assert w hsym, observer_move_assign_no_assert fuel w hsym, ?_, ?_⟩
  · intro x other src h1 h2 h3
    obtain ⟨w', h, _⟩ := subject_move_ctor_spec w hsym x other src h1 h2 h3
    exact ⟨w', h⟩
  · intro x other src h1 h2
    obtain ⟨w', h, _⟩ := observer_move_ctor_spec w hsym x other src h1 h2
    exact ⟨w', h⟩

theorem C19_move_fixup_never_asserts_witness :
    Sym echo_world ∧
    subject.move_ctor echo_world 2 1 ≠ .fault .assert_failed ∧
    subject.move_assign echo_world 1 1 ≠ .fault .assert_failed ∧
    observer.move_ctor echo_world 12 10 ≠ .fault .assert_failed ∧
    observer.move_assign 5 echo_world 11 10 ≠ .fault .assert_failed ∧
    (∃ w', subject.move_ctor echo_world 2 1 = .done w') ∧
    (∃ w', observer.move_ctor echo_world 12 10 = .done w') := by
  obtain ⟨h1, h2, h3, h4, h5, h6⟩ := C19_move_fixup_never_asserts 5 echo_world echo_world_sym
  exact ⟨echo_world_sym, h1 2 1, h2 1 1, h3 12 10, h4 11 10,
    h5 2 1 { observers_ := [some 10, some 11, some 10], notify_counter_ := 0 } rfl rfl
      (by decide),
    h6 12 10 { function_ := some fun a => [.emit (10 + a)], subjects_ := [1, 1] } rfl rfl⟩

/-! ## Dispatch depth: balance and deferred compaction -/

theorem kept_refl {α : Type} (w : World α) : Kept w w :=
  ⟨fun _ => rfl, fun _ => rfl, id⟩

theorem kept_trans {α : Type} {w1 w2 w3 : World α} (h1 : Kept w1 w2) (h2 : Kept w2 w3) :
    Kept w1 w3 :=
  ⟨fun o => (h2.1 o).trans (h1.1 o), fun x => (h2.2.1 x).trans (h1.2.1 x),
    fun h => h2.2.2 (h1.2.2 h)⟩

theorem plain_world_of_same {α : Type} {w w' : World α} (h : SameCallbacks w w')
    (hp : PlainWorld w) : PlainWorld w' := by
  intro o a st hst
  apply hp o a st
  have e := h o
  unfold callback_body at hst ⊢
  cases h1 : w'.observers o with
  | none =>
    rw [h1] at hst
    cases hst
  | some ob' =>
    rw [h1] at hst e
    cases h2 : w.observers o with
    | none =>
      rw [h2] at e
      cases e
    | some ob =>
      rw [h2] at e
      simp only [Option.map_some', Option.some.injEq] at e
      simp only at hst ⊢
      rw [← e]
      exact hst

theorem bind_done {α : Type} {x : Outcome (World α)} {g : World α → Outcome (World α)}
    {w' : World α} (h : x.bind g = .done w') : ∃ w1, x = .done w1 ∧ g w1 = .done w' := by
  cases x with
  | done w1 => exact ⟨w1, rfl, h⟩
  | fault f => cases h
  | timeout => cases h

theorem mem_erase_last {β : Type} [DecidableEq β] (x y : β) (l : List β)
    (h : y ∈ erase_last x l) : y ∈ l := by
  unfold erase_last at h
  exact List.mem_reverse.mp (List.mem_of_mem_erase (List.mem_reverse.mp h))

theorem kept_emit {α : Type} (w : World α) (v : Nat) :
    Kept w { w with output := w.output ++ [v] } :=
  ⟨fun _ => rfl, fun _ => rfl, id⟩

theorem kept_add_observer {α : Type} (w w' : World α) (s o : Addr)
    (h : subject.add_observer w s o = .done w') : Kept w w' := by
  unfold subject.add_observer at h
  cases hs : w.subjects s with
  | none => simp [hs] at h
  | some sb =>
    cases ho : w.observers o with
    | none => simp [hs, ho] at h
    | some ob =>
      simp only [hs, ho, Outcome.done.injEq] at h
      subst h
      refine ⟨?_, ?_, ?_⟩
      · intro x
        by_cases e : x = o
        · subst e; simp [set_observer, set_subject, ho]
        · simp [set_observer, set_subject, e]
      · intro x
        by_cases e : x = s
        · subst e; simp [depth, set_observer, set_subject, hs]
        · simp [depth, set_observer, set_subject, e]
      · intro hc x
        by_cases e : x = s
        · subst e
          have h0 := hc x
          simp only [depth, slots, set_observer, set_subject, hs, if_true] at h0 ⊢
          refine ⟨h0.1, fun hd => ?_⟩
          simp only [List.mem_append, List.mem_singleton, not_or]
          exact ⟨h0.2 hd, fun e => by cases e⟩
        · have h0 := hc x
          simp only [depth, slots, set_observer, set_subject, e, if_false] at h0 ⊢
          exact h0

theorem kept_remove_observer {α : Type} (w w' : World α) (s o : Addr)
    (h : subject.remove_observer w s o = .done w') : Kept w w' := by
  unfold subject.remove_observer at h
  cases hs : w.subjects s with
  | none => simp [hs] at h
  | some sb =>
    cases ho : w.observers o with
    | none => simp [hs, ho] at h
    | some ob =>
      simp only [hs, ho] at h
      refine ⟨?_, ?_, ?_⟩
      · intro x
        by_cases hz : sb.notify_counter_ = 0
        · simp only [hz, if_true, Outcome.done.injEq] at h
          subst h
          by_cases e : x = o
          · subst e; simp [set_observer, set_subject, ho]
          · simp [set_observer, set_subject, e]
        · simp only [hz, if_false, Outcome.done.injEq] at h
          subst h
          by_cases e : x = o
          · subst e; simp [set_observer, set_subject, ho]
          · simp [set_observer, set_subject, e]
      · intro x
        by_cases hz : sb.notify_counter_ = 0
        · simp only [hz, if_true, Outcome.done.injEq] at h
          subst h
          by_cases e : x = s
          · subst e; simp [depth, set_observer, set_subject, hs, hz]
          · simp [depth, set_observer, set_subject, e]
        · simp only [hz, if_false, Outcome.done.injEq] at h
          subst h
          by_cases e : x = s
          · subst e; simp [depth, set_observer, set_subject, hs]
          · simp [depth, set_observer, set_subject, e]
      · intro hc x
        have h0 := hc x
        by_cases hz : sb.notify_counter_ = 0
        · simp only [hz, if_true, Outcome.done.injEq] at h
          subst h
          by_cases e : x = s
          · subst e
            simp only [depth, slots, set_observer, set_subject, hs, if_true] at h0 ⊢
            exact ⟨le_refl _, fun _ hm => h0.2 hz (mem_erase_last _ _ _ hm)⟩
          · simp only [depth, slots, set_observer, set_subject, e, if_false] at h0 ⊢
            exact h0
        · simp only [hz, if_false, Outcome.done.injEq] at h
          subst h
          by_cases e : x = s
          · subst e
            simp only [depth, slots, set_observer, set_subject, hs, if_true] at h0 ⊢
            exact ⟨h0.1, fun hd => absurd hd hz⟩
          · simp only [depth, slots, set_observer, set_subject, e, if_false] at h0 ⊢
            exact h0

theorem kept_clear {α : Type} (w w' : World α) (s : Addr)
    (h : subject.clear w s = .done w') : Kept w w' := by
  obtain ⟨sb, w1, hs, hu, hw⟩ := clear_done h
  obtain ⟨_, _, h3, _, _, h6⟩ := unlink_all_done s sb.observers_ w w1 hu
  subst hw
  refine ⟨?_, ?_, ?_⟩
  · intro x
    simp only [set_subject]
    rw [h6 x]
    by_cases e : some x ∈ sb.observers_
    · simp only [e, if_true]
      cases w.observers x <;> simp [unlinked]
    · simp only [e, if_false]
  · intro x
    by_cases e : x = s
    · subst e; simp [depth, set_subject, hs]
    · simp [depth, set_subject, e, h3]
  · intro hc x
    have h0 := hc x
    by_cases e : x = s
    · subst e
      simp only [depth, slots, set_subject, hs, if_true] at h0 ⊢
      refine ⟨h0.1, fun hd => ?_⟩
      simp [hd]
    · simp only [depth, slots, set_subject, e, if_false, h3] at h0 ⊢
      exact h0

theorem kept_run_body {α : Type} (step : Stmt α → World α → Outcome (World α))
    (hstep : ∀ st w w', Plain st → PlainWorld w → step st w = .done w' → Kept w w') :
    ∀ (body : List (Stmt α)) (w w' : World α), (∀ st ∈ body, Plain st) → PlainWorld w →
      run_body step body w = .done w' → Kept w w' := by
  intro body
  induction body with
  | nil =>
    intro w w' _ _ h
    cases h
    exact kept_refl w
  | cons st rest ih =>
    intro w w' hb hp h
    obtain ⟨w1, h1, h2⟩ := bind_done h
    have k1 := hstep st w w1 (hb st (List.mem_cons_self _ _)) hp h1
    exact kept_trans k1 (ih w1 w' (fun x hx => hb x (List.mem_cons_of_mem _ hx))
      (plain_world_of_same k1.1 hp) h2)

theorem kept_on_notify {α : Type} (rn : List (Stmt α) → World α → Outcome (World α))
    (hrn : ∀ body w w', (∀ st ∈ body, Plain st) → PlainWorld w →
      rn body w = .done w' → Kept w w')
    (w w' : World α) (o : Addr) (a : α) (hp : PlainWorld w)
    (h : observer.on_notify rn w o a = .done w') : Kept w w' := by
  unfold observer.on_notify at h
  cases ho : w.observers o with
  | none => simp [ho] at h
  | some ob =>
    cases hf : ob.function_ with
    | none => simp [ho, hf] at h
    | some f =>
      simp only [ho, hf] at h
      have hb : ∀ st ∈ f a, Plain st := by
        intro st hst
        apply hp o a st
        simp [callback_body, ho, hf, hst]
      have k := hrn (f a) { w with trace := w.trace ++ [(o, a)] } w' hb
        (fun o a st hst => hp o a st hst) h
      exact ⟨k.1, k.2.1, fun hc => k.2.2 hc⟩

theorem kept_notify_loop {α : Type} (rn : List (Stmt α) → World α → Outcome (World α))
    (hrn : ∀ body w w', (∀ st ∈ body, Plain st) → PlainWorld w →
      rn body w = .done w' → Kept w w')
    (s : Addr) (a : α) :
    ∀ (k i : Nat) (w w' : World α), PlainWorld w →
      notify_loop rn s a k i w = .done w' → Kept w w' := by
  intro k
  induction k with
  | zero =>
    intro i w w' _ h
    cases h
    exact kept_refl w
  | succ k ih =>
    intro i w w' hp h
    unfold notify_loop at h
    cases hs : w.subjects s with
    | none => simp [hs] at h
    | some sb =>
      simp only [hs] at h
      cases hi : sb.observers_[i]? with
      | none => simp [hi] at h
      | some slot =>
        cases slot with
        | none =>
          simp only [hi] at h
          exact ih (i + 1) w w' hp h
        | some o =>
          simp only [hi] at h
          obtain ⟨w1, h1, h2⟩ := bind_done h
          have k1 := kept_on_notify rn hrn w w1 o a hp h1
          exact kept_trans k1 (ih (i + 1) w1 w' (plain_world_of_same k1.1 hp) h2)

theorem call_done {α : Type} (rn : List (Stmt α) → World α → Outcome (World α))
    (w w' : World α) (s : Addr) (a : α) (h : subject.call rn w s a = .done w') :
    ∃ wn, notify_loop rn s a (slots w s).length 0 (enter w s) = .done wn ∧
      finish_call wn s = .done w' := by
  unfold subject.call at h
  cases hs : w.subjects s with
  | none => simp [hs] at h
  | some sb =>
    simp only [hs] at h
    by_cases hm : sb.notify_counter_ = 2147483647
    · simp [hm] at h
    · simp only [hm, if_false] at h
      obtain ⟨wn, h1, h2⟩ := bind_done h
      refine ⟨wn, ?_, h2⟩
      simp only [slots, enter, modify_subject, hs]
      exact h1

theorem finish_call_done {α : Type} (wn w' : World α) (s : Addr)
    (h : finish_call wn s = .done w') :
    w'.observers = wn.observers ∧ w'.trace = wn.trace ∧ w'.output = wn.output ∧
      (∀ x, x ≠ s → w'.subjects x = wn.subjects x) ∧
      depth w' s = depth wn s - 1 ∧
      (depth wn s - 1 ≠ 0 → slots w' s = slots wn s) ∧
      (depth wn s - 1 = 0 →
        slots w' s = (slots wn s).filter (fun x => x.isSome) ∧ none ∉ slots w' s) := by
  unfold finish_call at h
  cases hs : wn.subjects s with
  | none => simp [hs] at h
  | some sb =>
    simp only [hs] at h
    by_cases hm : sb.notify_counter_ = -2147483648
    · simp [hm] at h
    · simp only [hm, if_false] at h
      by_cases hz : sb.notify_counter_ - 1 = 0
      · simp only [hz, if_true, Outcome.done.injEq] at h
        subst h
        refine ⟨rfl, rfl, rfl, fun x e => by simp [set_subject, e], ?_, ?_, ?_⟩
        · simp [depth, set_subject, hs, hz]
        · intro hd
          simp only [depth, hs] at hd
          exact absurd hz hd
        · intro _
          simp [slots, set_subject, hs]
      · simp only [hz, if_false, Outcome.done.injEq] at h
        subst h
        refine ⟨rfl, rfl, rfl, fun x e => by simp [set_subject, e], ?_, ?_, ?_⟩
        · simp [depth, set_subject, hs]
        · intro _
          simp [slots, set_subject, hs]
        · intro hd
          simp only [depth, hs] at hd
          exact absurd hd hz

theorem depth_enter {α : Type} (w : World α) (s : Addr) (h : (w.subjects s).isSome) :
    depth (enter w s) s = depth w s + 1 ∧ (∀ x, x ≠ s → depth (enter w s) x = depth w x) ∧
      slots (enter w s) = slots w ∧ (enter w s).observers = w.observers := by
  cases hs : w.subjects s with
  | none => simp [hs] at h
  | some sb =>
    refine ⟨by simp [depth, enter, modify_subject, hs, set_subject], ?_, ?_, ?_⟩
    · intro x e
      simp [depth, enter, modify_subject, hs, set_subject, e]
    · funext x
      by_cases e : x = s
      · subst e; simp [slots, enter, modify_subject, hs, set_subject]
      · simp [slots, enter, modify_subject, hs, set_subject, e]
    · simp [enter, modify_subject, hs, set_subject]

theorem kept_call {α : Type} (rn : List (Stmt α) → World α → Outcome (World α))
    (hrn : ∀ body w w', (∀ st ∈ body, Plain st) → PlainWorld w →
      rn body w = .done w' → Kept w w')
    (w w' : World α) (s : Addr) (a : α) (hp : PlainWorld w)
    (h : subject.call rn w s a = .done w') : Kept w w' := by
  obtain ⟨wn, h1, h2⟩ := call_done rn w w' s a h
  have hlive : (w.subjects s).isSome := by
    unfold subject.call at h
    cases hs : w.subjects s with
    | none => simp [hs] at h
    | some sb => rfl
  obtain ⟨d1, d2, d3, d4⟩ := depth_enter w s hlive
  have hpe : PlainWorld (enter w s) := by
    intro o a st hst
    apply hp o a st
    unfold callback_body at hst ⊢
    rw [d4] at hst
    exact hst
  have k := kept_notify_loop rn hrn s a _ 0 (enter w s) wn hpe h1
  obtain ⟨f1, _, _, f4, f5, f6, f7⟩ := finish_call_done wn w' s h2
  have hdn : depth wn s = depth w s + 1 := (k.2.1 s).trans d1
  have hothers : ∀ x, x ≠ s → depth w' x = depth w x ∧ slots w' x = slots wn x := by
    intro x e
    have e1 : w'.subjects x = wn.subjects x := f4 x e
    refine ⟨?_, by simp [slots, e1]⟩
    have : depth w' x = depth wn x := by simp [depth, e1]
    rw [this, k.2.1 x, d2 x e]
  refine ⟨?_, ?_, ?_⟩
  · intro o
    rw [f1, k.1 o, d4]
  · intro x
    by_cases e : x = s
    · subst e
      rw [f5, hdn]; ring
    · exact (hothers x e).1
  · intro hc
    have hce : Compact (enter w s) := by
      intro x
      by_cases e : x = s
      · subst e
        rw [d1]
        have := (hc x).1
        exact ⟨by omega, fun h0 => by omega⟩
      · rw [d2 x e, d3]
        exact hc x
    have hcn := k.2.2 hce
    intro x
    by_cases e : x = s
    · subst e
      rw [f5, hdn]
      have h0 := (hc x).1
      refine ⟨by omega, fun hd => ?_⟩
      exact (f7 (by rw [hdn]; omega)).2
    · rw [(hothers x e).1, (hothers x e).2, ← d2 x e, ← k.2.1 x]
      exact hcn x

theorem kept_exec {α : Type} (fuel : Nat) :
    ∀ (st : Stmt α) (w w' : World α), Plain st → PlainWorld w →
      exec fuel st w = .done w' → Kept w w' := by
  induction fuel with
  | zero =>
    intro st w w' _ _ h
    cases h
  | succ fuel ih =>
    intro st w w' hst hp h
    cases st with
    | emit v =>
      simp only [exec, Outcome.done.injEq] at h
      subst h
      exact kept_emit w v
    | add_observer s o => exact kept_add_observer w w' s o h
    | remove_observer s o => exact kept_remove_observer w w' s o h
    | clear s => exact kept_clear w w' s h
    | call s a =>
      exact kept_call (run_body (exec fuel)) (kept_run_body (exec fuel) ih) w w' s a hp h
    | _ => exact absurd hst (by simp [Plain])

theorem observer_clear_mono {α : Type} (o : Addr) :
    ∀ (fuel : Nat) (w w' : World α), observer.clear fuel w o = .done w' →
      observer.clear (fuel + 1) w o = .done w' := by
  intro fuel
  induction fuel with
  | zero =>
    intro w w' h
    cases h
  | succ fuel ih =>
    intro w w' h
    rw [observer.clear] at h ⊢
    cases ho : w.observers o with
    | none => simp [ho] at h
    | some ob =>
      simp only [ho] at h ⊢
      cases hl : ob.subjects_.getLast? with
      | none =>
        simp only [hl] at h ⊢
        exact h
      | some s =>
        simp only [hl] at h ⊢
        obtain ⟨w1, h1, h2⟩ := bind_done h
        rw [h1]
        exact ih w1 w' h2

theorem run_body_mono {α : Type} (step step' : Stmt α → World α → Outcome (World α))
    (hstep : ∀ st w w', step st w = .done w' → step' st w = .done w') :
    ∀ (body : List (Stmt α)) (w w' : World α), run_body step body w = .done w' →
      run_body step' body w = .done w' := by
  intro body
  induction body with
  | nil =>
    intro w w' h
    exact h
  | cons st rest ih =>
    intro w w' h
    obtain ⟨w1, h1, h2⟩ := bind_done h
    show (step' st w).bind (run_body step' rest) = .done w'
    rw [hstep st w w1 h1]
    exact ih w1 w' h2

theorem notify_loop_mono {α : Type} (rn rn' : List (Stmt α) → World α → Outcome (World α))
    (hrn : ∀ body w w', rn body w = .done w' → rn' body w = .done w')
    (s : Addr) (a : α) :
    ∀ (k i : Nat) (w w' : World α), notify_loop rn s a k i w = .done w' →
      notify_loop rn' s a k i w = .done w' := by
  intro k
  induction k with
  | zero =>
    intro i w w' h
    exact h
  | succ k ih =>
    intro i w w' h
    unfold notify_loop at h ⊢
    cases hs : w.subjects s with
    | none => simp [hs] at h
    | some sb =>
      simp only [hs] at h ⊢
      cases hi : sb.observers_[i]? with
      | none => simp [hi] at h
      | some slot =>
        cases slot with
        | none =>
          simp only [hi] at h ⊢
          exact ih (i + 1) w w' h
        | some o =>
          simp only [hi] at h ⊢
          obtain ⟨w1, h1, h2⟩ := bind_done h
          have h1' : observer.on_notify rn' w o a = .done w1 := by
            unfold observer.on_notify at h1 ⊢
            cases ho : w.observers o with
            | none => simp [ho] at h1
            | some ob =>
              cases hf : ob.function_ with
              | none => simp [ho, hf] at h1
              | some f =>
                simp only [ho, hf] at h1 ⊢
                exact hrn _ _ _ h1
          rw [h1']
          exact ih (i + 1) w1 w' h2

theorem call_mono {α : Type} (rn rn' : List (Stmt α) → World α → Outcome (World α))
    (hrn : ∀ body w w', rn body w = .done w' → rn' body w = .done w')
    (w w' : World α) (s : Addr) (a : α) (h : subject.call rn w s a = .done w') :
    subject.call rn' w s a = .done w' := by
  unfold subject.call at h ⊢
  cases hs : w.subjects s with
  | none => simp [hs] at h
  | some sb =>
    simp only [hs] at h ⊢
    by_cases hm : sb.notify_counter_ = 2147483647
    · simp [hm] at h
    · simp only [hm, if_false] at h ⊢
      obtain ⟨wn, h1, h2⟩ := bind_done h
      rw [notify_loop_mono rn rn' hrn s a _ 0 _ wn h1]
      exact h2

/-- A statement that returns with some fuel returns the same state with more. -/
theorem exec_mono {α : Type} (fuel : Nat) :
    ∀ (st : Stmt α) (w w' : World α), exec fuel st w = .done w' →
      exec (fuel + 1) st w = .done w' := by
  induction fuel with
  | zero =>
    intro st w w' h
    cases h
  | succ fuel ih =>
    intro st w w' h
    cases st with
    | call s a =>
      exact call_mono (run_body (exec fuel)) (run_body (exec (fuel + 1)))
        (run_body_mono _ _ ih) w w' s a h
    | observer_dtor o =>
      obtain ⟨w1, h1, h2⟩ := bind_done (show (observer.clear fuel w o).bind _ = _ from h)
      show (observer.clear (fuel + 1) w o).bind _ = _
      rw [observer_clear_mono o fuel w w1 h1]
      exact h2
    | observer_copy_assign o other =>
      obtain ⟨w1, h1, h2⟩ := bind_done (show (observer.clear fuel w o).bind _ = _ from h)
      show (observer.clear (fuel + 1) w o).bind _ = _
      rw [observer_clear_mono o fuel w w1 h1]
      exact h2
    | observer_move_assign o other =>
      obtain ⟨w1, h1, h2⟩ := bind_done (show (observer.clear fuel w o).bind _ = _ from h)
      show (observer.clear (fuel + 1) w o).bind _ = _
      rw [observer_clear_mono o fuel w w1 h1]
      exact h2
    | _ => exact h

theorem exec_mono_add {α : Type} (st : Stmt α) (w w' : World α) (fuel : Nat)
    (h : exec fuel st w = .done w') : ∀ k, exec (fuel + k) st w = .done w' := by
  intro k
  induction k with
  | zero => exact h
  | succ k ih => exact exec_mono (fuel + k) st w w' ih

theorem flat_is_plain {α : Type} {st : Stmt α} (h : Flat st) : Plain st := by
  cases st <;> trivial

theorem flat_world_is_plain {α : Type} {w : World α} (h : FlatWorld w) : PlainWorld w :=
  fun o a st hst => flat_is_plain (h o a st hst)

theorem callback_body_of_same {α : Type} {w w' : World α} (h : SameCallbacks w w')
    (o : Addr) (a : α) : callback_body w' o a = callback_body w o a := by
  have e := h o
  unfold callback_body
  cases h1 : w'.observers o with
  | none =>
    rw [h1] at e
    cases h2 : w.observers o with
    | none => rfl
    | some ob =>
      rw [h2] at e
      cases e
  | some ob' =>
    rw [h1] at e
    cases h2 : w.observers o with
    | none =>
      rw [h2] at e
      cases e
    | some ob =>
      rw [h2] at e
      simp only [Option.map_some', Option.some.injEq] at e
      simp only
      rw [e]

theorem flat_world_of_same {α : Type} {w w' : World α} (h : SameCallbacks w w')
    (hp : FlatWorld w) : FlatWorld w' := by
  intro o a st hst
  rw [callback_body_of_same h] at hst
  exact hp o a st hst

theorem unlink_all_ne_timeout {α : Type} (s : Addr) (l : List (Option Addr)) :
    ∀ (w : World α), unlink_all s l w ≠ .timeout := by
  induction l with
  | nil =>
    intro w h
    cases h
  | cons x rest ih =>
    intro w
    cases x with
    | none =>
      intro h
      cases h
    | some o =>
      unfold unlink_all
      cases ho : w.observers o with
      | none =>
        intro h
        cases h
      | some ob => exact ih _

theorem flat_exec_ne_timeout {α : Type} (fuel : Nat) (st : Stmt α) (w : World α)
    (h : Flat st) : exec (fuel + 1) st w ≠ .timeout := by
  cases st with
  | emit v =>
    intro e
    cases e
  | add_observer s o =>
    show subject.add_observer w s o ≠ .timeout
    unfold subject.add_observer
    cases w.subjects s <;> cases w.observers o <;> simp
  | remove_observer s o =>
    show subject.remove_observer w s o ≠ .timeout
    unfold subject.remove_observer
    cases hs : w.subjects s with
    | none => simp
    | some sb =>
      cases w.observers o with
      | none => simp
      | some ob =>
        by_cases hz : sb.notify_counter_ = 0 <;> simp [hz]
  | clear s =>
    show subject.clear w s ≠ .timeout
    unfold subject.clear
    cases hs : w.subjects s with
    | none => simp
    | some sb =>
      simp only
      cases hu : unlink_all s sb.observers_ w with
      | timeout => exact absurd hu (unlink_all_ne_timeout s _ w)
      | fault f => simp [Outcome.bind]
      | done w1 =>
        by_cases hz : sb.notify_counter_ = 0 <;> simp [Outcome.bind, hz]
  | _ => exact absurd h (by simp [Flat])

theorem flat_run_ne_timeout {α : Type} (fuel : Nat) :
    ∀ (body : List (Stmt α)) (w : World α), (∀ st ∈ body, Flat st) →
      run (fuel + 1) body w ≠ .timeout := by
  intro body
  induction body with
  | nil =>
    intro w _ h
    cases h
  | cons st rest ih =>
    intro w hb
    show (exec (fuel + 1) st w).bind (run_body (exec (fuel + 1)) rest) ≠ .timeout
    cases h1 : exec (fuel + 1) st w with
    | timeout => exact absurd h1 (flat_exec_ne_timeout fuel st w (hb st (List.mem_cons_self _ _)))
    | fault f => simp [Outcome.bind]
    | done w1 => exact ih w1 (fun x hx => hb x (List.mem_cons_of_mem _ hx))

theorem flat_loop_ne_timeout {α : Type} (fuel : Nat) (s : Addr) (a : α) :
    ∀ (k i : Nat) (w : World α), FlatWorld w →
      notify_loop (run (fuel + 1)) s a k i w ≠ .timeout := by
  intro k
  induction k with
  | zero =>
    intro i w _ h
    cases h
  | succ k ih =>
    intro i w hp
    unfold notify_loop
    cases hs : w.subjects s with
    | none => simp
    | some sb =>
      simp only
      cases hi : sb.observers_[i]? with
      | none => simp
      | some slot =>
        cases slot with
        | none => exact ih (i + 1) w hp
        | some o =>
          simp only
          cases h1 : observer.on_notify (run (fuel + 1)) w o a with
          | fault f => simp [Outcome.bind]
          | timeout =>
            exfalso
            unfold observer.on_notify at h1
            cases ho : w.observers o with
            | none => simp [ho] at h1
            | some ob =>
              cases hf : ob.function_ with
              | none => simp [ho, hf] at h1
              | some f =>
                simp only [ho, hf] at h1
                refine flat_run_ne_timeout fuel (f a) _ ?_ h1
                intro st hst
                apply hp o a st
                simp [callback_body, ho, hf, hst]
          | done w1 =>
            have k1 := kept_on_notify (run (fuel + 1))
              (fun body w w' hb hw h => kept_run_body (exec (fuel + 1))
                (fun st w w' => kept_exec (fuel + 1) st w w') body w w' hb hw h)
              w w1 o a (flat_world_is_plain hp) h1
            exact ih (i + 1) w1 (flat_world_of_same k1.1 hp)

theorem flat_call_ne_timeout {α : Type} (fuel : Nat) (w : World α) (s : Addr) (a : α)
    (hp : FlatWorld w) : exec (fuel + 2) (.call s a) w ≠ .timeout := by
  show subject.call (run (fuel + 1)) w s a ≠ .timeout
  unfold subject.call
  cases hs : w.subjects s with
  | none => simp
  | some sb =>
    simp only
    by_cases hm : sb.notify_counter_ = 2147483647
    · simp [hm]
    · simp only [hm, if_false]
      cases h1 : notify_loop (run (fuel + 1)) s a sb.observers_.length 0
          (set_subject w s { sb with notify_counter_ := sb.notify_counter_ + 1 }) with
      | timeout =>
        refine absurd h1 (flat_loop_ne_timeout fuel s a _ 0 _ ?_)
        intro o a st hst
        exact hp o a st hst
      | fault f => simp [Outcome.bind]
      | done wn =>
        simp only [Outcome.bind]
        unfold finish_call
        cases wn.subjects s with
        | none => simp
        | some sn =>
          simp only
          split_ifs <;> simp

/-- What holds of every invocation that returns. Let every stored callback run
only marks, `add_observer`, `remove_observer`, `clear` and invocations, on any
subject, also the dispatching one. Whenever an invocation of `S` returns, it
returns the same state with any larger fuel; the state at the end of its loop
has the depth of `S` one above the depth `d` before the invocation, and the
returned state has every depth as before it, that of `S` included. When `d` is
not zero (the invocation is nested) the exit leaves the list of `S` as the loop
left it; when `d` is zero the list after the return is the list at the exit
filtered to its live slots, in order, and holds no placeholder. Every program
of such statements that returns keeps the depths and keeps the invariant that
no counter is negative and an idle subject holds no placeholder. When no
callback invokes a subject, an invocation never runs out of fuel. -/
theorem returning_call_balanced {α : Type} (fuel : Nat) (w : World α)
    (hplain : PlainWorld w) :
    (∀ s a w', exec (fuel + 1) (.call s a) w = .done w' →
      (∀ k, exec (fuel + 1 + k) (.call s a) w = .done w') ∧
      ∃ wn, notify_loop (run fuel) s a (slots w s).length 0 (enter w s) = .done wn ∧
        finish_call wn s = .done w' ∧
        depth wn s = depth w s + 1 ∧ (∀ x, depth w' x = depth w x) ∧
        (depth w s ≠ 0 → slots w' s = slots wn s) ∧
        (depth w s = 0 →
          slots w' s = (slots wn s).filter (fun x => x.isSome) ∧ none ∉ slots w' s)) ∧
    (∀ prog w', (∀ st ∈ prog, Plain st) → run fuel prog w = .done w' →
      PlainWorld w' ∧ (∀ x, depth w' x = depth w x) ∧ (Compact w → Compact w')) ∧
    (FlatWorld w → ∀ s a, exec (fuel + 2) (.call s a) w ≠ .timeout) := by
  refine ⟨?_, ?_, fun hf s a => flat_call_ne_timeout fuel w s a hf⟩
  · intro s a w' h
    refine ⟨exec_mono_add _ w w' (fuel + 1) h, ?_⟩
    obtain ⟨wn, h1, h2⟩ := call_done (run fuel) w w' s a h
    have hlive : (w.subjects s).isSome := by
      have h0 : subject.call (run fuel) w s a = .done w' := h
      unfold subject.call at h0
      cases hs : w.subjects s with
      | none => simp [hs] at h0
      | some sb => rfl
    obtain ⟨d1, _, _, d4⟩ := depth_enter w s hlive
    have hpe : PlainWorld (enter w s) := by
      intro o a st hst
      apply hplain o a st
      unfold callback_body at hst ⊢
      rw [d4] at hst
      exact hst
    have k := kept_notify_loop (run fuel)
      (fun body w w' hb hw h => kept_run_body (exec fuel)
        (fun st w w' => kept_exec fuel st w w') body w w' hb hw h)
      s a _ 0 (enter w s) wn hpe h1
    have hdn : depth wn s = depth w s + 1 := (k.2.1 s).trans d1
    obtain ⟨_, _, _, _, _, f6, f7⟩ := finish_call_done wn w' s h2
    refine ⟨wn, h1, h2, hdn, (kept_exec (fuel + 1) (.call s a) w w' trivial hplain h).2.1, ?_, ?_⟩
    · intro hd
      exact f6 (by rw [hdn]; omega)
    · intro hd
      exact f7 (by rw [hdn]; omega)
  · intro prog w' hprog h
    have k := kept_run_body (exec fuel) (fun st w w' => kept_exec fuel st w w')
      prog w w' hprog hplain h
    exact ⟨plain_world_of_same k.1 hplain, k.2.1, k.2.2⟩

/-- Termination of an invocation depends on the callbacks: an observer that
invokes its subject again on every notification never lets the invocation
return, whatever the fuel. -/
theorem reentry_never_returns (a : Nat) :
    ∀ (fuel : Nat) (w w' : World Nat),
      (∃ c, w.subjects 1 = some { observers_ := [some 10], notify_counter_ := c }) →
      (∃ ob, w.observers 10 = some ob ∧ ob.function_ = some (fun a => [Stmt.call 1 a])) →
      exec fuel (.call 1 a) w ≠ .done w' := by
  intro fuel
  induction fuel with
  | zero =>
    intro w w' _ _ h
    cases h
  | succ fuel ih =>
    intro w w' hs ho h
    obtain ⟨c, hs⟩ := hs
    obtain ⟨ob, ho, hf⟩ := ho
    obtain ⟨wn, h1, _⟩ := call_done (run fuel) w w' 1 a h
    have he : (enter w 1).subjects 1 =
        some { observers_ := [some 10], notify_counter_ := c + 1 } := by
      simp [enter, modify_subject, hs, set_subject]
    have heo : (enter w 1).observers 10 = some ob := by
      simp [enter, modify_subject, hs, set_subject, ho]
    have hl : (slots w 1).length = 1 := by simp [slots, hs]
    rw [hl] at h1
    unfold notify_loop at h1
    simp only [he, List.getElem?_cons_zero] at h1
    obtain ⟨w2, h2, _⟩ := bind_done h1
    unfold observer.on_notify at h2
    simp only [heo, hf] at h2
    obtain ⟨w3, h3, _⟩ := bind_done (show (exec fuel (.call 1 a) _).bind _ = _ from h2)
    exact ih { enter w 1 with trace := (enter w 1).trace ++ [(10, a)] } w3 ⟨c + 1, he⟩
      ⟨ob, heo, hf⟩ h3

theorem forever_never_returns (fuel a : Nat) (w' : World Nat) :
    exec fuel (.call 1 a) forever ≠ .done w' :=
  reentry_never_returns a fuel forever w' ⟨0, rfl⟩ ⟨_, rfl, rfl⟩

/-! ## Dispatch depth: invocations that return or stop in `clear` -/

theorem held_refl {α : Type} (w : World α) : Held w w :=
  ⟨fun _ => rfl, fun _ => rfl, fun _ => rfl, id, fun _ _ => le_refl _⟩

theorem held_trans {α : Type} {w1 w2 w3 : World α} (h1 : Held w1 w2) (h2 : Held w2 w3) :
    Held w1 w3 :=
  ⟨fun o => (h2.1 o).trans (h1.1 o), fun x => (h2.2.1 x).trans (h1.2.1 x),
    fun x => (h2.2.2.1 x).trans (h1.2.2.1 x), fun h => h2.2.2.2.1 (h1.2.2.2.1 h),
    fun x hx => le_trans (h1.2.2.2.2 x hx)
      (h2.2.2.2.2 x (by rw [h1.2.1 x]; exact hx))⟩

theorem ready_of_same {α : Type} {w w' : World α} (h : SameCallbacks w w') (o : Addr)
    (hr : Ready w o) : Ready w' o := by
  obtain ⟨ob, f, h1, h2⟩ := hr
  have e := h o
  rw [h1] at e
  cases h3 : w'.observers o with
  | none =>
    rw [h3] at e
    cases e
  | some ob' =>
    rw [h3] at e
    simp only [Option.map_some', Option.some.injEq] at e
    exact ⟨ob', f, h3, e.trans h2⟩

theorem live_of_same {α : Type} {w w' : World α} (h : SameCallbacks w w') (o : Addr)
    (hl : (w.observers o).isSome) : (w'.observers o).isSome := by
  have e := h o
  cases h3 : w'.observers o with
  | none =>
    rw [h3] at e
    cases h4 : w.observers o with
    | none => simp [h4] at hl
    | some ob =>
      rw [h4] at e
      cases e
  | some ob' => rfl

theorem all_ready_of {α : Type} {w w' : World α} (h : SameCallbacks w w')
    (hs : ∀ x o, some o ∈ slots w' x → some o ∈ slots w x ∨ Ready w o)
    (ha : AllReady w) : AllReady w' := by
  intro x o ho
  rcases hs x o ho with h1 | h1
  · exact ready_of_same h o (ha x o h1)
  · exact ready_of_same h o h1

theorem basic_congr {α : Type} {c : Bool} {w w' : World α} (h : SameCallbacks w w')
    (hl : ∀ x, (w'.subjects x).isSome = (w.subjects x).isSome)
    (st : Stmt α) (hb : Basic c w st) : Basic c w' st := by
  cases st with
  | emit v => trivial
  | add_observer s o =>
    exact ⟨by rw [hl s]; exact hb.1, ready_of_same h o hb.2⟩
  | remove_observer s o =>
    exact ⟨by rw [hl s]; exact hb.1, live_of_same h o hb.2⟩
  | clear s =>
    exact ⟨hb.1, by rw [hl s]; exact hb.2⟩
  | _ => exact hb

theorem tame_congr {α : Type} {c : Bool} (w w' : World α) (h : SameCallbacks w w')
    (hl : ∀ x, (w'.subjects x).isSome = (w.subjects x).isSome) :
    ∀ (k : Nat) (body : List (Stmt α)), Tame c w k body → Tame c w' k body := by
  intro k
  induction k with
  | zero =>
    intro body hb st hst
    exact basic_congr h hl st (hb st hst)
  | succ k ih =>
    intro body hb st hst
    rcases hb st hst with h1 | ⟨s, a, h1, h2, h3⟩
    · exact Or.inl (basic_congr h hl st h1)
    · refine Or.inr ⟨s, a, h1, by rw [hl s]; exact h2, fun o => ?_⟩
      rw [callback_body_of_same h]
      exact ih _ (h3 o)

theorem room_of_held {α : Type} {n : Nat} {w w' : World α} (h : Held w w')
    (hr : Room n w) : Room n w' := by
  intro s
  rw [h.2.1 s]
  exact hr s

theorem held_add_observer {α : Type} (w w' : World α) (s o : Addr)
    (h : subject.add_observer w s o = .done w') (hr : Ready w o) : Held w w' := by
  have k := kept_add_observer w w' s o h
  obtain ⟨sb, ob, hs, ho, hw⟩ := add_observer_done h
  subst hw
  refine ⟨k.1, k.2.1, ?_, all_ready_of k.1 ?_, ?_⟩
  · intro x
    by_cases e : x = s
    · subst e; simp [set_observer, set_subject, hs]
    · simp [set_observer, set_subject, e]
  · intro x p hp
    by_cases e : x = s
    · subst e
      simp only [slots, set_observer, set_subject, hs, if_true, List.mem_append,
        List.mem_singleton, Option.some.injEq] at hp ⊢
      rcases hp with hp | hp
      · exact Or.inl hp
      · subst hp; exact Or.inr hr
    · simp only [slots, set_observer, set_subject, e, if_false] at hp ⊢
      exact Or.inl hp
  · intro x _
    by_cases e : x = s
    · subst e
      simp [slots, set_observer, set_subject, hs]
    · simp [slots, set_observer, set_subject, e]

theorem mem_replace_last_none (p q : Addr) (l : List (Option Addr))
    (h : some q ∈ replace_last (some p) none l) : some q ∈ l :=
  List.reduceOption_mem_iff.mp
    ((thinned_replace_last p l).sublist.subset (List.reduceOption_mem_iff.mpr h))

theorem held_remove_observer {α : Type} (w w' : World α) (s o : Addr)
    (h : subject.remove_observer w s o = .done w') : Held w w' := by
  have k := kept_remove_observer w w' s o h
  obtain ⟨sb, ob, hs, ho, hw⟩ := remove_observer_done h
  subst hw
  refine ⟨k.1, k.2.1, ?_, all_ready_of k.1 ?_, ?_⟩
  · intro x
    by_cases e : x = s
    · subst e; simp [set_observer, set_subject, hs]
    · simp [set_observer, set_subject, e]
  · intro x p hp
    by_cases e : x = s
    · subst e
      simp only [slots, set_observer, set_subject, hs, if_true] at hp ⊢
      by_cases hz : sb.notify_counter_ = 0
      · simp only [hz, if_true] at hp
        exact Or.inl (mem_erase_last _ _ _ hp)
      · simp only [hz, if_false] at hp
        exact Or.inl (mem_replace_last_none _ _ _ hp)
    · simp only [slots, set_observer, set_subject, e, if_false] at hp ⊢
      exact Or.inl hp
  · intro x hx
    by_cases e : x = s
    · subst e
      have hz : sb.notify_counter_ ≠ 0 := by simpa [depth, hs] using hx
      simp only [slots, set_observer, set_subject, hs, if_true, hz, if_false]
      exact le_of_eq (thinned_replace_last o sb.observers_).length_eq.symm
    · simp [slots, set_observer, set_subject, e]

theorem held_clear {α : Type} (w w' : World α) (s : Addr)
    (h : subject.clear w s = .done w') : Held w w' := by
  have k := kept_clear w w' s h
  obtain ⟨sb, w1, hs, hu, hw⟩ := clear_done h
  obtain ⟨_, _, h3, _, _, _⟩ := unlink_all_done s sb.observers_ w w1 hu
  subst hw
  refine ⟨k.1, k.2.1, ?_, all_ready_of k.1 ?_, ?_⟩
  · intro x
    by_cases e : x = s
    · subst e; simp [set_subject, hs]
    · simp [set_subject, e, h3]
  · intro x p hp
    by_cases e : x = s
    · subst e
      simp only [slots, set_subject, if_true] at hp
      by_cases hz : sb.notify_counter_ = 0
      · simp [hz] at hp
      · simp [hz] at hp
    · simp only [slots, set_subject, e, if_false, h3] at hp ⊢
      exact Or.inl hp
  · intro x hx
    by_cases e : x = s
    · subst e
      have hz : sb.notify_counter_ ≠ 0 := by simpa [depth, hs] using hx
      simp [slots, set_subject, hs, hz]
    · simp [slots, set_subject, e, h3]

theorem unlink_all_res {α : Type} (s : Addr) (l : List (Option Addr)) :
    ∀ (w : World α), (∀ o, some o ∈ l → (w.observers o).isSome) →
      unlink_all s l w = .fault .null_deref ∨ ∃ w', unlink_all s l w = .done w' := by
  induction l with
  | nil =>
    intro w _
    exact Or.inr ⟨w, rfl⟩
  | cons x rest ih =>
    intro w hl
    cases x with
    | none => exact Or.inl rfl
    | some o =>
      unfold unlink_all
      cases ho : w.observers o with
      | none =>
        have := hl o (List.mem_cons_self _ _)
        simp [ho] at this
      | some ob =>
        simp only
        apply ih
        intro p hp
        by_cases e : p = o
        · subst e; simp [set_observer]
        · simp only [set_observer, e, if_false]
          exact hl p (List.mem_cons_of_mem _ hp)

theorem basic_exec {α : Type} (c : Bool) (fuel : Nat) (st : Stmt α) (w : World α)
    (hb : Basic c w st) (ha : AllReady w) : Res c w (exec (fuel + 1) st w) := by
  cases st with
  | emit v =>
    exact Or.inr ⟨_, rfl, fun _ => rfl, fun _ => rfl, fun _ => rfl, id, fun _ _ => le_refl _⟩
  | add_observer s o =>
    obtain ⟨hs, hr⟩ := hb
    obtain ⟨ob, f, ho, _⟩ := hr
    cases h1 : w.subjects s with
    | none => simp [h1] at hs
    | some sb =>
      have e := add_observer_eq w s o sb ob h1 ho
      exact Or.inr ⟨_, e, held_add_observer w _ s o e ⟨ob, f, ho, by assumption⟩⟩
  | remove_observer s o =>
    obtain ⟨hs, hl⟩ := hb
    cases h1 : w.subjects s with
    | none => simp [h1] at hs
    | some sb =>
      cases h2 : w.observers o with
      | none => simp [h2] at hl
      | some ob =>
        have e := remove_observer_eq w s o sb ob h1 h2
        exact Or.inr ⟨_, e, held_remove_observer w _ s o e⟩
  | clear s =>
    obtain ⟨hc, hs⟩ := hb
    cases h1 : w.subjects s with
    | none => simp [h1] at hs
    | some sb =>
      have hl : ∀ o, some o ∈ sb.observers_ → (w.observers o).isSome := by
        intro o ho
        obtain ⟨ob, _, h2, _⟩ := ha s o (by simpa [slots, h1] using ho)
        simp [h2]
      rcases unlink_all_res s sb.observers_ w hl with h2 | ⟨w1, h2⟩
      · refine Or.inl ⟨hc, ?_⟩
        show subject.clear w s = _
        simp [subject.clear, h1, h2, Outcome.bind]
      · have e : ∃ w', subject.clear w s = .done w' := by
          by_cases hz : sb.notify_counter_ = 0
          · exact ⟨_, by simp [subject.clear, h1, h2, Outcome.bind, hz]; rfl⟩
          · exact ⟨_, by simp [subject.clear, h1, h2, Outcome.bind, hz]; rfl⟩
        obtain ⟨w', e⟩ := e
        exact Or.inr ⟨w', e, held_clear w w' s e⟩
  | _ => exact absurd hb (by simp [Basic])

theorem held_traced {α : Type} (w : World α) (t : List (Addr × α)) :
    Held w { w with trace := t } :=
  ⟨fun _ => rfl, fun _ => rfl, fun _ => rfl, id, fun _ _ => le_refl _⟩

theorem res_of_traced {α : Type} {c : Bool} (w : World α) (t : List (Addr × α))
    {out : Outcome (World α)} (h : Res c { w with trace := t } out) : Res c w out := by
  rcases h with h | ⟨w', h1, h2⟩
  · exact Or.inl h
  · exact Or.inr ⟨w', h1, held_trans (held_traced w t) h2⟩

theorem res_bind {α : Type} {c : Bool} {w : World α} {x : Outcome (World α)}
    {g : World α → Outcome (World α)} (hx : Res c w x)
    (hg : ∀ w1, x = .done w1 → Held w w1 → Res c w1 (g w1)) : Res c w (x.bind g) := by
  rcases hx with ⟨hc, h⟩ | ⟨w1, h1, h2⟩
  · rw [h]
    exact Or.inl ⟨hc, rfl⟩
  · rcases hg w1 h1 h2 with ⟨hc, h⟩ | ⟨w', h3, h4⟩
    · rw [h1]
      exact Or.inl ⟨hc, h⟩
    · rw [h1]
      exact Or.inr ⟨w', h3, held_trans h2 h4⟩

theorem res_run_body {α : Type} (c : Bool) (n : Nat)
    (step : Stmt α → World α → Outcome (World α)) (T : World α → Stmt α → Prop)
    (hT : ∀ w w' st, Held w w' → T w st → T w' st)
    (hstep : ∀ st w, T w st → AllReady w → Room n w → Res c w (step st w)) :
    ∀ (body : List (Stmt α)) (w : World α), (∀ st ∈ body, T w st) → AllReady w → Room n w →
      Res c w (run_body step body w) := by
  intro body
  induction body with
  | nil =>
    intro w _ _ _
    exact Or.inr ⟨w, rfl, held_refl w⟩
  | cons st rest ih =>
    intro w hb ha hr
    show Res c w ((step st w).bind (run_body step rest))
    refine res_bind (hstep st w (hb st (List.mem_cons_self _ _)) ha hr) ?_
    intro w1 _ hh
    exact ih w1 (fun x hx => hT w w1 x hh (hb x (List.mem_cons_of_mem _ hx)))
      (hh.2.2.2.1 ha) (room_of_held hh hr)

theorem res_loop {α : Type} (c : Bool) (k : Nat)
    (rn : List (Stmt α) → World α → Outcome (World α))
    (hrn : ∀ body w, Tame c w k body → AllReady w → Room k w → Res c w (rn body w))
    (s : Addr) (a : α) :
    ∀ (todo i : Nat) (w : World α), (w.subjects s).isSome → depth w s ≠ 0 →
      i + todo ≤ (slots w s).length → AllReady w → Room k w →
      (∀ o, Tame c w k (callback_body w o a)) →
      Res c w (notify_loop rn s a todo i w) := by
  intro todo
  induction todo with
  | zero =>
    intro i w _ _ _ _ _ _
    exact Or.inr ⟨w, rfl, held_refl w⟩
  | succ todo ih =>
    intro i w hs hd hlen ha hr ht
    unfold notify_loop
    cases h1 : w.subjects s with
    | none => simp [h1] at hs
    | some sb =>
      simp only
      have hi : i < sb.observers_.length := by
        simp only [slots, h1] at hlen
        omega
      rw [List.getElem?_eq_getElem hi]
      cases h2 : sb.observers_[i] with
      | none =>
        simp only
        exact ih (i + 1) w hs hd (by omega) ha hr ht
      | some o =>
        simp only
        have hmem : some o ∈ slots w s := by
          simp only [slots, h1]
          rw [← h2]
          exact List.getElem_mem _
        obtain ⟨ob, f, h3, h4⟩ := ha s o hmem
        have hbody : callback_body w o a = f a := by
          simp [callback_body, h3, h4]
        have hon : observer.on_notify rn w o a =
            rn (f a) { w with trace := w.trace ++ [(o, a)] } := by
          simp [observer.on_notify, h3, h4]
        rw [hon]
        have ht0 := ht o
        rw [hbody] at ht0
        have hres := res_of_traced w _ (hrn (f a) { w with trace := w.trace ++ [(o, a)] }
          (tame_congr w { w with trace := w.trace ++ [(o, a)] } (fun _ => rfl) (fun _ => rfl)
            k _ ht0) ha hr)
        refine res_bind hres ?_
        intro w1 _ hh
        refine ih (i + 1) w1 (by rw [hh.2.2.1 s]; exact hs) (by rw [hh.2.1 s]; exact hd) ?_
          (hh.2.2.2.1 ha) (room_of_held hh hr) ?_
        · have := hh.2.2.2.2 s hd
          omega
        · intro p
          rw [callback_body_of_same hh.1]
          exact tame_congr w w1 hh.1 hh.2.2.1 k _ (ht p)

theorem finish_call_eq {α : Type} (wn : World α) (s : Addr) (sn : subject)
    (hs : wn.subjects s = some sn) (hm : sn.notify_counter_ ≠ -2147483648) :
    finish_call wn s = .done (set_subject wn s
      (if sn.notify_counter_ - 1 = 0 then
        { observers_ := sn.observers_.filter (fun x => x.isSome), notify_counter_ := 0 }
      else { sn with notify_counter_ := sn.notify_counter_ - 1 })) := by
  unfold finish_call
  simp only [hs, hm, if_false]
  by_cases hz : sn.notify_counter_ - 1 = 0 <;> simp [hz]

theorem res_call {α : Type} (c : Bool) (k : Nat)
    (rn : List (Stmt α) → World α → Outcome (World α))
    (hrn : ∀ body w, Tame c w k body → AllReady w → Room k w → Res c w (rn body w))
    (w : World α) (s : Addr) (a : α) (hs : (w.subjects s).isSome) (ha : AllReady w)
    (hr : Room (k + 1) w) (ht : ∀ o, Tame c w k (callback_body w o a)) :
    (c = true ∧ subject.call rn w s a = .fault .null_deref) ∨
    ∃ wn w', notify_loop rn s a (slots w s).length 0 (enter w s) = .done wn ∧
      finish_call wn s = .done w' ∧ subject.call rn w s a = .done w' ∧
      depth wn s = depth w s + 1 ∧
      (depth w s ≠ 0 → slots w' s = slots wn s) ∧
      (depth w s = 0 →
        slots w' s = (slots wn s).filter (fun x => x.isSome) ∧ none ∉ slots w' s) ∧
      Held w w' := by
  obtain ⟨d1, d2, d3, d4⟩ := depth_enter w s hs
  have hr0 := hr s
  simp only [Nat.cast_add, Nat.cast_one] at hr0
  cases h1 : w.subjects s with
  | none => simp [h1] at hs
  | some sb =>
    have hd : depth w s = sb.notify_counter_ := by simp [depth, h1]
    have hcall : subject.call rn w s a =
        (notify_loop rn s a (slots w s).length 0 (enter w s)).bind
          fun w2 => finish_call w2 s := by
      have hm : sb.notify_counter_ ≠ 2147483647 := by omega
      simp only [subject.call, h1, hm, if_false, slots, enter, modify_subject]
    have hsame : SameCallbacks w (enter w s) := fun o => by rw [d4]
    have hlive : ∀ x, ((enter w s).subjects x).isSome = (w.subjects x).isSome := by
      intro x
      by_cases e : x = s
      · subst e; simp [enter, modify_subject, h1, set_subject]
      · simp [enter, modify_subject, h1, set_subject, e]
    have hae : AllReady (enter w s) := by
      intro x o ho
      rw [d3] at ho
      exact ready_of_same hsame o (ha x o ho)
    have hre : Room k (enter w s) := by
      intro x
      by_cases e : x = s
      · subst e
        rw [d1]
        omega
      · rw [d2 x e]
        have := hr x
        simp only [Nat.cast_add, Nat.cast_one] at this
        omega
    have hloop := res_loop c k rn hrn s a (slots w s).length 0 (enter w s)
      (by rw [hlive s]; exact hs) (by rw [d1]; omega) (by rw [d3]; omega) hae hre
      (fun o => by
        rw [callback_body_of_same hsame]
        exact tame_congr w (enter w s) hsame hlive k _ (ht o))
    rcases hloop with ⟨hc, h2⟩ | ⟨wn, h2, hh⟩
    · refine Or.inl ⟨hc, ?_⟩
      rw [hcall, h2]
      rfl
    · have hdn : depth wn s = depth w s + 1 := (hh.2.1 s).trans d1
      have hsn : (wn.subjects s).isSome := by rw [hh.2.2.1 s, hlive s]; exact hs
      cases h3 : wn.subjects s with
      | none => simp [h3] at hsn
      | some sn =>
        have hcn : sn.notify_counter_ = depth w s + 1 := by
          rw [← hdn]; simp [depth, h3]
        have hfin := finish_call_eq wn s sn h3 (by omega)
        refine Or.inr ⟨wn, _, h2, hfin, by rw [hcall, h2]; exact hfin, hdn, ?_, ?_, ?_⟩
        · intro hnz
          have : ¬ sn.notify_counter_ - 1 = 0 := by omega
          simp [slots, set_subject, this, h3]
        · intro hz
          have : sn.notify_counter_ - 1 = 0 := by omega
          simp [slots, set_subject, this, h3]
        · refine ⟨?_, ?_, ?_, ?_, ?_⟩
          · intro o
            exact (hh.1 o).trans (hsame o)
          · intro x
            by_cases e : x = s
            · subst e
              by_cases hz : sn.notify_counter_ - 1 = 0
              · simp only [depth, set_subject, hz, if_true, h1]
                omega
              · simp only [depth, set_subject, hz, if_false, if_true, h1]
                omega
            · have : depth wn x = depth w x := (hh.2.1 x).trans (d2 x e)
              simpa [depth, set_subject, e] using this
          · intro x
            by_cases e : x = s
            · subst e; simp [set_subject, h1]
            · simp only [set_subject, e, if_false]
              rw [hh.2.2.1 x, hlive x]
          · intro _
            refine all_ready_of (fun o => (hh.1 o).trans (hsame o)) ?_ ha
            intro x o ho
            have hwn : some o ∈ slots wn x := by
              by_cases e : x = s
              · subst e
                by_cases hz : sn.notify_counter_ - 1 = 0
                · simp only [slots, set_subject, hz, if_true, List.mem_filter] at ho
                  simpa [slots, h3] using ho.1
                · simp only [slots, set_subject, hz, if_false, if_true] at ho
                  simpa [slots, h3] using ho
              · simpa [slots, set_subject, e] using ho
            exact Or.inr (ready_of_same (fun p => ((hh.1 p).trans (hsame p)).symm) o
              (hh.2.2.2.1 hae x o hwn))
          · intro x hx
            have hgrow : (slots w x).length ≤ (slots wn x).length := by
              have := hh.2.2.2.2 x (by
                by_cases e : x = s
                · subst e; rw [d1]; omega
                · rw [d2 x e]; exact hx)
              rw [d3] at this
              exact this
            by_cases e : x = s
            · subst e
              have : ¬ sn.notify_counter_ - 1 = 0 := by omega
              simpa [slots, set_subject, this, h3] using hgrow
            · simpa [slots, set_subject, e] using hgrow

theorem tame_run {α : Type} (c : Bool) :
    ∀ (k fuel : Nat) (body : List (Stmt α)) (w : World α), k + 1 ≤ fuel →
      Tame c w k body → AllReady w → Room k w → Res c w (run fuel body w) := by
  intro k
  induction k with
  | zero =>
    intro fuel body w hf ht ha hr
    obtain ⟨f, rfl⟩ : ∃ f, fuel = f + 1 := ⟨fuel - 1, by omega⟩
    exact res_run_body c 0 (exec (f + 1)) (fun w st => Basic c w st)
      (fun w w' st hh hb => basic_congr hh.1 hh.2.2.1 st hb)
      (fun st w hb ha _ => basic_exec c f st w hb ha) body w ht ha hr
  | succ k ih =>
    intro fuel body w hf ht ha hr
    obtain ⟨f, rfl⟩ : ∃ f, fuel = f + 1 := ⟨fuel - 1, by omega⟩
    refine res_run_body c (k + 1) (exec (f + 1))
      (fun w st => Basic c w st ∨ ∃ s a, st = Stmt.call s a ∧ (w.subjects s).isSome ∧
        ∀ o, Tame c w k (callback_body w o a)) ?_ ?_ body w ht ha hr
    · intro w w' st hh hb
      rcases hb with hb | ⟨s, a, h1, h2, h3⟩
      · exact Or.inl (basic_congr hh.1 hh.2.2.1 st hb)
      · refine Or.inr ⟨s, a, h1, by rw [hh.2.2.1 s]; exact h2, fun o => ?_⟩
        rw [callback_body_of_same hh.1]
        exact tame_congr w w' hh.1 hh.2.2.1 k _ (h3 o)
    · intro st w hb ha hr
      rcases hb with hb | ⟨s, a, h1, h2, h3⟩
      · exact basic_exec c f st w hb ha
      · subst h1
        have hcall := res_call c k (run f)
          (fun body w ht ha hr => ih f body w (by omega) ht ha hr) w s a h2 ha hr h3
        rcases hcall with ⟨hc, h⟩ | ⟨wn, w', _, _, h, _, _, _, hh⟩
        · exact Or.inl ⟨hc, h⟩
        · exact Or.inr ⟨w', h, hh⟩

/-- Total correctness of an invocation up to the null dereference of `clear`.
Let `S` be a live subject in a state where every slot holds a live observer
with a callback, no counter is negative and the counters have room for `k + 1`
more levels, and let every callback, on the arguments of the invocation, run
marks, `add_observer`, `remove_observer`, (when `c` is true) `clear`, and
invocations that nest at most `k` deep, all on live objects. Then with fuel
`k + 2` or more the invocation of `S` ends in one of two ways. Either it
returns: the loop ends at depth `d + 1`, the exit gives every subject the depth
it had before, for `d` other than zero the exit leaves the list as the loop
left it, for `d` zero the list is the list at the exit filtered to its live
slots and holds no placeholder. Or, only when callbacks may `clear`, it stops
in the null dereference that `clear` makes on a placeholder. -/
theorem call_returns_or_clear_faults {α : Type} (c : Bool) (k fuel : Nat) (w : World α)
    (s : Addr) (a : α) (hf : k + 2 ≤ fuel) (hs : (w.subjects s).isSome) (ha : AllReady w)
    (hr : Room (k + 1) w) (ht : ∀ o, Tame c w k (callback_body w o a)) :
    (c = true ∧ exec fuel (.call s a) w = .fault .null_deref) ∨
    ∃ wn w', notify_loop (run (fuel - 1)) s a (slots w s).length 0 (enter w s) = .done wn ∧
      finish_call wn s = .done w' ∧ exec fuel (.call s a) w = .done w' ∧
      depth wn s = depth w s + 1 ∧ (∀ x, depth w' x = depth w x) ∧
      (depth w s ≠ 0 → slots w' s = slots wn s) ∧
      (depth w s = 0 →
        slots w' s = (slots wn s).filter (fun x => x.isSome) ∧ none ∉ slots w' s) ∧
      AllReady w' ∧ Room (k + 1) w' := by
  obtain ⟨f, rfl⟩ : ∃ f, fuel = f + 1 := ⟨fuel - 1, by omega⟩
  have h := res_call c k (run f)
    (fun body w ht ha hr => tame_run c k f body w (by omega) ht ha hr) w s a hs ha hr ht
  rcases h with h | ⟨wn, w', h1, h2, h3, h4, h5, h6, hh⟩
  · exact Or.inl h
  · exact Or.inr ⟨wn, w', h1, h2, h3, h4, hh.2.1, h5, h6, hh.2.2.2.1 ha, room_of_held hh hr⟩

theorem countdown_ready : AllReady countdown := by
  intro s o ho
  by_cases h1 : s = 1
  · subst h1
    have e : slots countdown 1 = [some 10, some 11] := rfl
    rw [e] at ho
    simp only [List.mem_cons, Option.some.injEq, List.mem_singleton, List.not_mem_nil,
      or_false] at ho
    rcases ho with h | h
    · subst h; exact ⟨_, _, rfl, rfl⟩
    · subst h; exact ⟨_, _, rfl, rfl⟩
  · have e : slots countdown s = [] := by
      simp [slots, countdown, World.of_links, h1]
    rw [e] at ho
    cases ho

theorem countdown_room : Room 2 countdown := by
  intro s
  by_cases h1 : s = 1
  · subst h1
    have e : depth countdown 1 = 0 := rfl
    rw [e]
    decide
  · have e : depth countdown s = 0 := by
      simp [depth, countdown, World.of_links, h1]
    rw [e]
    decide

theorem countdown_body (o a : Nat) :
    callback_body countdown o a =
      if o = 10 then (if a = 0 then [] else [Stmt.remove_observer 1 11, Stmt.call 1 (a - 1)])
      else if o = 11 then [Stmt.emit (11 + a)] else [] := by
  by_cases h10 : o = 10
  · subst h10
    rfl
  · by_cases h11 : o = 11
    · subst h11
      rfl
    · simp [callback_body, countdown, World.of_links, h10, h11]

theorem countdown_tame (o : Nat) : Tame false countdown 1 (callback_body countdown o 1) := by
  rw [countdown_body]
  by_cases h10 : o = 10
  · subst h10
    intro st hst
    simp only [if_true, one_ne_zero, if_false, List.mem_cons, List.mem_singleton,
      List.not_mem_nil, or_false] at hst
    rcases hst with h | h
    · subst h
      exact Or.inl ⟨rfl, rfl⟩
    · subst h
      refine Or.inr ⟨1, 0, rfl, rfl, fun p => ?_⟩
      rw [countdown_body]
      intro st hst
      by_cases p10 : p = 10
      · simp [p10] at hst
      · by_cases p11 : p = 11
        · subst p11
          have e : ¬ (11 : Nat) = 10 := by decide
          simp only [e, if_false, if_true, List.mem_singleton] at hst
          subst hst
          trivial
        · simp [p10, p11] at hst
  · intro st hst
    by_cases h11 : o = 11
    · subst h11
      have e : ¬ (11 : Nat) = 10 := by decide
      simp only [e, if_false, if_true, List.mem_singleton] at hst
      subst hst
      exact Or.inl trivial
    · simp [h10, h11] at hst

/-- A run with a nested invocation that returns: in `countdown` the
invocation of subject 1 with argument 1 notifies observer 10, which unlinks
observer 11 and invokes subject 1 again at depth 1. The invocation returns;
at the end of the outer loop the depth is 1 and the slot of 11 is still a
placeholder (the exit of the nested invocation erased nothing), after the
return the depth is 0 and the list is `[10]`. -/
theorem countdown_returns :
    ∃ wn w', notify_loop (run 2) 1 1 2 0 (enter countdown 1) = .done wn ∧
      finish_call wn 1 = .done w' ∧ exec 3 (.call 1 1) countdown = .done w' ∧
      depth wn 1 = 1 ∧ slots wn 1 = [some 10, none] ∧ backrefs wn 11 = [] ∧
      depth w' 1 = 0 ∧ slots w' 1 = [some 10] ∧ w'.trace = [(10, 1), (10, 0)] := by
  have h := call_returns_or_clear_faults false 1 3 countdown 1 1 (by decide) rfl
    countdown_ready countdown_room countdown_tame
  rcases h with ⟨h, _⟩ | ⟨wn, w', h1, h2, h3, h4, h5, _, h7, _, _⟩
  · cases h
  · have e1 : wn = _ := Outcome.done.inj (h1.symm.trans rfl)
    have e2 : w' = _ := Outcome.done.inj (h3.symm.trans rfl)
    refine ⟨wn, w', h1, h2, h3, h4, ?_, ?_, (h5 1).trans rfl, ?_, ?_⟩
    · rw [e1]; rfl
    · rw [e1]; rfl
    · rw [e2]; rfl
    · rw [e2]; rfl

/-- C20 (the code at the failing input): the program `clearing_listener`
returns a state in which subject 1 is idle (depth 0) and holds `[10, 11]`. The
invocation of subject 1 notifies observer 10, whose callback unlinks observer
11 (the counter is 1, so slot 1 becomes the null placeholder) and then clears
subject 1; the loop of `clear` dereferences the placeholder. So the invocation
stops there with any fuel from 2 on, and with no fuel at all does it return:
the counter is never decremented and the list is never compacted. -/
theorem C20_invocation_stops_in_clear :
    ∃ w0 wm, run 1 clearing_listener (World.empty Nat) = .done w0 ∧
      depth w0 1 = 0 ∧ slots w0 1 = [some 10, some 11] ∧
      subject.remove_observer { enter w0 1 with trace := [(10, 0)] } 1 11 = .done wm ∧
      depth wm 1 = 1 ∧ slots wm 1 = [some 10, none] ∧
      subject.clear wm 1 = .fault .null_deref ∧
      (∀ n, exec (n + 2) (.call 1 0) w0 = .fault .null_deref) ∧
      (∀ fuel w', exec fuel (.call 1 0) w0 ≠ .done w') := by
  refine ⟨_, _, rfl, rfl, rfl, rfl, rfl, rfl, rfl, fun n => rfl, ?_⟩
  intro fuel w' h
  match fuel with
  | 0 => cases h
  | 1 => cases h
  | n + 2 => cases h

end observe
